import Mathlib

/-!
The Turtle / N-Triples writer `osm2rdf::ttl::Writer<T>` (osm2rdf) and the entity
writer `osm2ttl::ttl::Writer` of the same repository.

Shallow embedding of `src/src/ttl/Writer.cpp` (term encoders, term factory,
prefix table, triple sink and statistics) and of
`src/src/osm2ttl/ttl/Writer.cpp` (tags, relation members, way geometry), whose
definitions carry the name prefix `osm2ttl.`.

* A `std::string` / `std::string_view` is a `List Nat` of byte values (0..255).
* `char` is signed and 8 bits wide: `schar b` is the value a comparison sees.
* A C++ function that can throw returns `Res`; `Err.domain_error` is a thrown
  `std::domain_error`, `Err.out_of_range` is an `operator[]` read past the end
  of a `string_view`, `Err.fuel` is the exhausted iteration budget of a loop.
* The loops `for (pos = 0; pos < s.size(); ++pos)` are run by `scan`, whose
  state is the unread rest `s.substr(pos)` of the input, `pos`, and `tmp`.
* The data members of the writer are the fields of `Writer`; a member function
  takes the writer and the calling worker and returns the writer after the
  call. The counters are `uint64_t` cells, incremented modulo 2^64.
* The entity writer hands its triples to `osm2ttl.writeTriple`; a function of
  it returns the triples it dispatches, in order.
-/

namespace osm2rdf.ttl

/-! ## Results -/

/-- Ways in which a call does not return normally. -/
inductive Err where
  | domain_error
  | out_of_range
  | fuel
  deriving DecidableEq, Repr

/-- Result of a call that may throw. -/
inductive Res (α : Type) where
  | ok (a : α)
  | error (e : Err)
  deriving DecidableEq, Repr

/-- Sequencing of calls: the first abnormal outcome is propagated. -/
def Res.bind {α β : Type} (x : Res α) (f : α → Res β) : Res β :=
  match x with
  | .ok a => f a
  | .error e => .error e

instance : Monad Res where
  pure := Res.ok
  bind := Res.bind

/-- The three output formats (template parameter `T`). -/
inductive Format where
  | NT
  | TTL
  | QLEVER
  deriving DecidableEq, Repr

/-! ## Bytes and characters -/

/-- Value of the byte `b` when read through the signed 8-bit type `char`. -/
def schar (b : Nat) : Int := if b < 128 then (b : Int) else (b : Int) - 256

/-- Conversion `static_cast<uint32_t>(c)` of a `char`. -/
def charToU32 (b : Nat) : Nat := (schar b % 4294967296).toNat

/-- Element access `s[i]` of a `string_view`. -/
def charAt (s : List Nat) (i : Nat) : Res Nat :=
  match s.get? i with
  | some b => .ok b
  | none => .error .out_of_range

/-! ## Constants of `Writer.h` -/

/-- Modelled from the spec: `k1Byte` of Writer.h (not under src/), the length
of a one-byte UTF-8 sequence ("the length in bytes of the UTF-8 sequence ... (1-4)"). -/
abbrev k1Byte : Nat := 1
/-- Modelled from the spec: `k2Byte` of Writer.h (not under src/). -/
abbrev k2Byte : Nat := 2
/-- Modelled from the spec: `k3Byte` of Writer.h (not under src/). -/
abbrev k3Byte : Nat := 3
/-- Modelled from the spec: `k4Byte` of Writer.h (not under src/). -/
abbrev k4Byte : Nat := 4
/-- Modelled from the spec: `UTF8_CODEPOINT_OFFSET_BYTE2` of Writer.h (not under
src/): six payload bits per continuation byte (`10xxxxxx`). -/
abbrev UTF8_CODEPOINT_OFFSET_BYTE2 : Nat := 6
/-- Modelled from the spec: `UTF8_CODEPOINT_OFFSET_BYTE3` of Writer.h (not under src/). -/
abbrev UTF8_CODEPOINT_OFFSET_BYTE3 : Nat := 12
/-- Modelled from the spec: `UTF8_CODEPOINT_OFFSET_BYTE4` of Writer.h (not under src/). -/
abbrev UTF8_CODEPOINT_OFFSET_BYTE4 : Nat := 18
/-- Modelled from the spec: `UTF8_BYTES_SHORT` of Writer.h (not under src/):
the four digits of `\uXXXX`. -/
abbrev UTF8_BYTES_SHORT : Nat := 4
/-- Modelled from the spec: `UTF8_BYTES_LONG` of Writer.h (not under src/):
the eight digits of `\U00XXXXXX`. -/
abbrev UTF8_BYTES_LONG : Nat := 8
/-- Modelled from the spec: `NUM_BITS_IN_BYTE` of Writer.h (not under src/). -/
abbrev NUM_BITS_IN_BYTE : Nat := 8

/- The constants `k0xNN` / `k0xNNU` of Writer.h are written as the literal `0xNN`. -/

/-! ## Stream formatting (`std::ostringstream`) -/

/-- Lower-case hexadecimal digit character of `d < 16`. -/
def hexDigit (d : Nat) : Nat := if d < 10 then 0x30 + d else 0x61 + (d - 10)

/-- Digits of `n`, most significant first, pushed in front of `acc`. -/
def hexNumeralAux : Nat → Nat → List Nat → List Nat
  | 0, _, acc => acc
  | f + 1, n, acc =>
    if n < 16 then hexDigit n :: acc
    else hexNumeralAux f (n / 16) (hexDigit (n % 16) :: acc)

/-- The numeral `os << std::hex << n` prints for a 32-bit unsigned `n`
(at most eight digits, lower case because `std::uppercase` is never set). -/
def hexNumeral (n : Nat) : List Nat := hexNumeralAux 8 n []

/-- Output of `os << std::setfill('0') << std::setw(w) << std::hex << n`. -/
def fmtHex (w n : Nat) : List Nat :=
  List.replicate (w - (hexNumeral n).length) 0x30 ++ hexNumeral n

/-- The buffer and the put position of a `std::ostringstream`. -/
structure OStringStream where
  buf : List Nat
  pos : Nat
  deriving DecidableEq, Repr

/-- Insertion `os << bytes`: overwrites from the put position, extends at the end. -/
def OStringStream.write (o : OStringStream) (bytes : List Nat) : OStringStream :=
  { buf := o.buf.take o.pos ++ bytes ++ o.buf.drop (o.pos + bytes.length),
    pos := o.pos + bytes.length }

/-- Repositioning `os.seekp(0)`: the buffer keeps its content. -/
def OStringStream.seekp0 (o : OStringStream) : OStringStream := { o with pos := 0 }

/-- Content `os.str()`. -/
def OStringStream.str (o : OStringStream) : List Nat := o.buf

/-! ## UTF-8 scanner -/

/-- Source `utf8Length(char c)`. -/
def utf8Length (c : Nat) : Res Nat :=
  let cp := c % 256
  if cp &&& 0x80 = 0 then .ok k1Byte
  else if cp &&& 0xE0 = 0xC0 then .ok k2Byte
  else if cp &&& 0xF0 = 0xE0 then .ok k3Byte
  else if cp &&& 0xF8 = 0xF0 then .ok k4Byte
  else .error .domain_error

/-- Source `utf8Length(std::string_view s)`. -/
def utf8Length_sv (s : List Nat) : Res Nat :=
  match s with
  | [] => .ok 0
  | c :: _ => utf8Length c

/-- Source `utf8Codepoint(std::string_view s)`. The masks keep only low bits
of each byte, so the sign of `char` does not enter the result. -/
def utf8Codepoint (s : List Nat) : Res Nat := do
  let n ← utf8Length_sv s
  if n = k4Byte then
    let s0 ← charAt s 0
    let s1 ← charAt s 1
    let s2 ← charAt s 2
    let s3 ← charAt s 3
    pure ((((s0 &&& 0x07) <<< UTF8_CODEPOINT_OFFSET_BYTE4) |||
           ((s1 &&& 0x3F) <<< UTF8_CODEPOINT_OFFSET_BYTE3) |||
           ((s2 &&& 0x3F) <<< UTF8_CODEPOINT_OFFSET_BYTE2) ||| (s3 &&& 0x3F)))
  else if n = k3Byte then
    let s0 ← charAt s 0
    let s1 ← charAt s 1
    let s2 ← charAt s 2
    pure ((((s0 &&& 0x0F) <<< UTF8_CODEPOINT_OFFSET_BYTE3) |||
           ((s1 &&& 0x3F) <<< UTF8_CODEPOINT_OFFSET_BYTE2) ||| (s2 &&& 0x3F)))
  else if n = k2Byte then
    let s0 ← charAt s 0
    let s1 ← charAt s 1
    pure (((s0 &&& 0x1F) <<< UTF8_CODEPOINT_OFFSET_BYTE2) ||| (s1 &&& 0x3F))
  else
    let s0 ← charAt s 0
    pure (s0 &&& 0x7F)

/-! ## Grammar encoders -/

/-- Source `STRING_LITERAL_QUOTE(std::string_view s)`. -/
def STRING_LITERAL_QUOTE (s : List Nat) : List Nat :=
  let tmp := [0x22]
  let tmp := s.foldl (fun tmp c =>
    if c = 0x22 then tmp ++ [0x5C, 0x22]
    else if c = 0x5C then tmp ++ [0x5C, 0x5C]
    else if c = 0x0A then tmp ++ [0x5C, 0x6E]
    else if c = 0x0D then tmp ++ [0x5C, 0x72]
    else tmp ++ [c]) tmp
  tmp ++ [0x22]

/-- Source `UCHAR(uint32_t codepoint)`. -/
def UCHAR (codepoint : Nat) : List Nat :=
  if codepoint > 0xFFFF then [0x5C, 0x55] ++ fmtHex UTF8_BYTES_LONG codepoint
  else [0x5C, 0x75] ++ fmtHex UTF8_BYTES_SHORT codepoint

/-- Source `UCHAR(char c)`. -/
def UCHAR_char (c : Nat) : List Nat := UCHAR (charToU32 c)

/-- The `do { ... } while (codepoint > 0)` loop of `encodePERCENT(uint32_t)`:
a 32-bit value is zero after four shifts by eight bits. -/
def encodePERCENT.loop : Nat → Nat → OStringStream → List (List Nat) →
    OStringStream × List (List Nat)
  | 0, _, tmp, parts => (tmp, parts)
  | f + 1, codepoint, tmp, parts =>
    let tmp := (tmp.write [0x25]).write (fmtHex 2 (codepoint &&& 0xFF))
    let parts := parts ++ [tmp.str]
    let tmp := tmp.seekp0
    let codepoint := codepoint >>> NUM_BITS_IN_BYTE
    if codepoint > 0 then encodePERCENT.loop f codepoint tmp parts else (tmp, parts)

/-- Source `encodePERCENT(uint32_t codepoint)`. -/
def encodePERCENT (codepoint : Nat) : List Nat :=
  let r := encodePERCENT.loop 4 (codepoint % 4294967296) { buf := [], pos := 0 } []
  let parts := r.2.reverse
  (parts.foldl (fun tmp part => tmp.write part) r.1).str

/-- Source `encodePERCENT(char c)`. -/
def encodePERCENT_char (c : Nat) : List Nat := encodePERCENT (charToU32 c)

/-- Source `encodePERCENT(std::string_view s)`. -/
def encodePERCENT_sv (s : List Nat) : Res (List Nat) := do
  let cp ← utf8Codepoint s
  pure (encodePERCENT cp)

/-- The loop `for (size_t pos = 0; pos < s.size(); ++pos) { ... }` of the four
encoders. `rest` is `s.substr(pos)`. One run of the loop body is `body rest pos`;
it yields the bytes appended to `tmp` and the number `n` of input bytes stepped
over (`pos += n - 1` in the body and `++pos` of the loop head). -/
def scan (body : List Nat → Nat → Res (List Nat × Nat)) :
    Nat → List Nat → Nat → List Nat → Res (List Nat)
  | _, [], _, tmp => .ok tmp
  | 0, _ :: _, _, _ => .error .fuel
  | f + 1, c :: r, pos, tmp =>
    match body (c :: r) pos with
    | .error e => .error e
    | .ok (chunk, n) => scan body f ((c :: r).drop n) (pos + n) (tmp ++ chunk)

/-- The test of `encodeIRIREF` for a `char c` that must not appear in an IRIREF. -/
def iriForbiddenChar (b : Nat) : Bool :=
  let c := schar b
  decide ((c ≥ 0x00 ∧ c ≤ 0x20) ∨ c = 0x3C ∨ c = 0x3E ∨ c = 0x7B ∨
    c = 0x7D ∨ c = 0x22 ∨ c = 0x7C ∨ c = 0x5E ∨ c = 0x60 ∨ c = 0x5C)

/-- Loop body of the generic `encodeIRIREF` (formats NT and TTL). -/
def encodeIRIREF.body (rest : List Nat) (_pos : Nat) : Res (List Nat × Nat) :=
  match rest with
  | [] => .ok ([], 0)
  | c :: _ =>
    if iriForbiddenChar c then .ok (UCHAR_char c, 1)
    else do
      let length ← utf8Length c
      pure (rest.take length, length)

/-- Loop body of the specialisation `Writer<QLEVER>::encodeIRIREF`. -/
def encodeIRIREF.bodyQLEVER (rest : List Nat) (_pos : Nat) : Res (List Nat × Nat) :=
  match rest with
  | [] => .ok ([], 0)
  | c :: _ => do
    let length ← utf8Length c
    if length = k1Byte ∧ iriForbiddenChar c then
      let enc ← encodePERCENT_sv (rest.take 1)
      pure (enc, 1)
    else
      pure (rest.take length, length)

/-- Source `encodeIRIREF(std::string_view s)`, generic and QLEVER. -/
def encodeIRIREF (T : Format) (s : List Nat) : Res (List Nat) :=
  match T with
  | .QLEVER => scan encodeIRIREF.bodyQLEVER s.length s 0 []
  | _ => scan encodeIRIREF.body s.length s 0 []

/-- Loop body of `encodePN_PREFIX`; `size` is `s.size()` (at least 1 inside the loop). -/
def encodePN_PREFIX.body (size : Nat) (rest : List Nat) (pos : Nat) : Res (List Nat × Nat) :=
  match rest with
  | [] => .ok ([], 0)
  | currentChar :: _ =>
    let ch := schar currentChar
    if (ch ≥ 0x41 ∧ ch ≤ 0x5A) ∨ (ch ≥ 0x61 ∧ ch ≤ 0x7A) then .ok ([currentChar], 1)
    else if pos > 0 ∧ ((ch ≥ 0x30 ∧ ch ≤ 0x39) ∨ ch = 0x5F ∨ ch = 0x2D) then
      .ok ([currentChar], 1)
    else if pos > 0 ∧ (ch = 0x2E ∧ pos < size - 1) then .ok ([currentChar], 1)
    else do
      let length ← utf8Length currentChar
      let sub := rest.take length
      let c ← utf8Codepoint sub
      if (c ≥ 0xC0 ∧ c ≤ 0xD6) ∨ (c ≥ 0xD8 ∧ c ≤ 0xF6) ∨
          (c ≥ 0xF8 ∧ c ≤ 0x2FF) ∨ (c ≥ 0x370 ∧ c ≤ 0x37D) ∨
          (c ≥ 0x37F ∧ c ≤ 0x1FFF) ∨ (c ≥ 0x200C ∧ c ≤ 0x200D) ∨
          (c ≥ 0x2070 ∧ c ≤ 0x218F) ∨ (c ≥ 0x2C00 ∧ c ≤ 0x2FEF) ∨
          (c ≥ 0x3001 ∧ c ≤ 0xD7FF) ∨ (c ≥ 0xF900 ∧ c ≤ 0xFDCF) ∨
          (c ≥ 0xFDF0 ∧ c ≤ 0xFFFD) ∨ (c ≥ 0x10000 ∧ c ≤ 0xEFFFF) then
        pure (sub, length)
      else if pos > 0 ∧ (c = 0xB7 ∨ (c ≥ 0x300 ∧ c ≤ 0x36F) ∨
          (c ≥ 0x203F ∧ c ≤ 0x2040)) then
        pure (sub, length)
      else .error .domain_error

/-- Source `encodePN_PREFIX(std::string_view s)`. -/
def encodePN_PREFIX (s : List Nat) : Res (List Nat) :=
  scan (encodePN_PREFIX.body s.length) s.length s 0 []

/-- Loop body of `encodePN_LOCAL`; `size` is `s.size()` (at least 1 inside the loop). -/
def encodePN_LOCAL.body (size : Nat) (rest : List Nat) (pos : Nat) : Res (List Nat × Nat) :=
  match rest with
  | [] => .ok ([], 0)
  | currentChar :: _ =>
    let ch := schar currentChar
    if ch = 0x3A ∨ ch = 0x5F ∨ (ch ≥ 0x41 ∧ ch ≤ 0x5A) ∨
        (ch ≥ 0x61 ∧ ch ≤ 0x7A) ∨ (ch ≥ 0x30 ∧ ch ≤ 0x39) then .ok ([currentChar], 1)
    else if ch = 0x2E ∧ pos > 0 ∧ pos < size - 1 then .ok ([currentChar], 1)
    else if ch = 0x2D ∧ pos > 0 then .ok ([currentChar], 1)
    else if ch = 0x21 ∨ (ch ≥ 0x23 ∧ ch ≤ 0x2F) ∨ ch = 0x3B ∨ ch = 0x3D ∨
        ch = 0x3F ∨ ch = 0x40 ∨ ch = 0x7E then .ok ([0x5C, currentChar], 1)
    else if ch ≥ 0x00 then .ok (encodePERCENT_char currentChar, 1)
    else do
      let length ← utf8Length currentChar
      let sub := rest.take length
      let c ← utf8Codepoint sub
      if (c ≥ 0xC0 ∧ c ≤ 0xD6) ∨ (c ≥ 0xD8 ∧ c ≤ 0xF6) ∨
          (c ≥ 0xF8 ∧ c ≤ 0x2FF) ∨ (c ≥ 0x370 ∧ c ≤ 0x37D) ∨
          (c ≥ 0x37F ∧ c ≤ 0x1FFF) ∨ (c ≥ 0x200C ∧ c ≤ 0x200D) ∨
          (c ≥ 0x2070 ∧ c ≤ 0x218F) ∨ (c ≥ 0x2C00 ∧ c ≤ 0x2FEF) ∨
          (c ≥ 0x3001 ∧ c ≤ 0xD7FF) ∨ (c ≥ 0xF900 ∧ c ≤ 0xFDCF) ∨
          (c ≥ 0xFDF0 ∧ c ≤ 0xFFFD) ∨ (c ≥ 0x10000 ∧ c ≤ 0xEFFFF) then
        pure (sub, length)
      else if pos > 0 ∧ (c = 0xB7 ∨ (c ≥ 0x300 ∧ c ≤ 0x36F) ∨
          (c ≥ 0x203F ∧ c ≤ 0x2040)) then
        pure (sub, length)
      else .error .domain_error

/-- Source `encodePN_LOCAL(std::string_view s)`. -/
def encodePN_LOCAL (s : List Nat) : Res (List Nat) :=
  scan (encodePN_LOCAL.body s.length) s.length s 0 []

/-- Source `IRIREF(p, v)`: `"<" + encodeIRIREF(p) + encodeIRIREF(v) + ">"`. -/
def IRIREF (T : Format) (p v : List Nat) : Res (List Nat) := do
  let ep ← encodeIRIREF T p
  let ev ← encodeIRIREF T v
  pure ([0x3C] ++ ep ++ ev ++ [0x3E])

/-- Source `PrefixedName(p, v)`: `encodePN_PREFIX(p) + ":" + encodePN_LOCAL(v)`. -/
def PrefixedName (p v : List Nat) : Res (List Nat) := do
  let ep ← encodePN_PREFIX p
  let ev ← encodePN_LOCAL v
  pure (ep ++ [0x3A] ++ ev)

/-- The member `_prefixes` (a `std::map` from label to namespace IRI). -/
abbrev PrefixTable := List (List Nat × List Nat)

/-- Source `Writer<NT>::formatIRI(p, v)` over the prefix table `prefixes`. -/
def formatIRI_NT (prefixes : PrefixTable) (p v : List Nat) : Res (List Nat) :=
  match prefixes.lookup p with
  | some ns => IRIREF .NT ns v
  | none => IRIREF .NT p v

/-! ## Vocabulary of the specification -/

/-- Unicode scalar values: 0..0x10FFFF without the surrogates. -/
def isScalar (cp : Nat) : Prop := cp < 0xD800 ∨ (0xE000 ≤ cp ∧ cp ≤ 0x10FFFF)

instance (cp : Nat) : Decidable (isScalar cp) := by unfold isScalar; infer_instance

/-- The UTF-8 encoding of one codepoint (RFC 3629). -/
def utf8Encode (cp : Nat) : List Nat :=
  if cp < 0x80 then [cp]
  else if cp < 0x800 then [0xC0 + cp / 64, 0x80 + cp % 64]
  else if cp < 0x10000 then [0xE0 + cp / 4096, 0x80 + cp / 64 % 64, 0x80 + cp % 64]
  else [0xF0 + cp / 262144, 0x80 + cp / 4096 % 64, 0x80 + cp / 64 % 64, 0x80 + cp % 64]

/-- The UTF-8 text of a sequence of codepoints. A byte string is well-formed
UTF-8 when it is `utf8 cs` for a list `cs` of scalar values. -/
def utf8 : List Nat → List Nat
  | [] => []
  | c :: cs => utf8Encode c ++ utf8 cs

/-- A sequence of Unicode scalar values. -/
def Scalars (cs : List Nat) : Prop := ∀ c ∈ cs, isScalar c

instance (cs : List Nat) : Decidable (Scalars cs) := by unfold Scalars; infer_instance

/-- Codepoints that must not appear raw in an IRIREF:
`U+0000..U+0020`, `<`, `>`, `{`, `}`, `"`, `|`, `^`, the backtick and the backslash. -/
def isIRIREFForbidden (cp : Nat) : Prop :=
  cp ≤ 0x20 ∨ cp = 0x3C ∨ cp = 0x3E ∨ cp = 0x7B ∨ cp = 0x7D ∨ cp = 0x22 ∨
    cp = 0x7C ∨ cp = 0x5E ∨ cp = 0x60 ∨ cp = 0x5C

instance (cp : Nat) : Decidable (isIRIREFForbidden cp) := by
  unfold isIRIREFForbidden; infer_instance

/-- Turtle production `PN_CHARS_BASE`. -/
def isPN_CHARS_BASE (cp : Nat) : Prop :=
  (0x41 ≤ cp ∧ cp ≤ 0x5A) ∨ (0x61 ≤ cp ∧ cp ≤ 0x7A) ∨ (0xC0 ≤ cp ∧ cp ≤ 0xD6) ∨
  (0xD8 ≤ cp ∧ cp ≤ 0xF6) ∨ (0xF8 ≤ cp ∧ cp ≤ 0x2FF) ∨ (0x370 ≤ cp ∧ cp ≤ 0x37D) ∨
  (0x37F ≤ cp ∧ cp ≤ 0x1FFF) ∨ (0x200C ≤ cp ∧ cp ≤ 0x200D) ∨
  (0x2070 ≤ cp ∧ cp ≤ 0x218F) ∨ (0x2C00 ≤ cp ∧ cp ≤ 0x2FEF) ∨
  (0x3001 ≤ cp ∧ cp ≤ 0xD7FF) ∨ (0xF900 ≤ cp ∧ cp ≤ 0xFDCF) ∨
  (0xFDF0 ≤ cp ∧ cp ≤ 0xFFFD) ∨ (0x10000 ≤ cp ∧ cp ≤ 0xEFFFF)

instance (cp : Nat) : Decidable (isPN_CHARS_BASE cp) := by
  unfold isPN_CHARS_BASE; infer_instance

/-- The multi-byte members of `PN_CHARS` outside `PN_CHARS_U`:
`U+00B7`, `U+0300..U+036F`, `U+203F..U+2040`. -/
def isPN_CHARS_extra (cp : Nat) : Prop :=
  cp = 0xB7 ∨ (0x300 ≤ cp ∧ cp ≤ 0x36F) ∨ (0x203F ≤ cp ∧ cp ≤ 0x2040)

instance (cp : Nat) : Decidable (isPN_CHARS_extra cp) := by
  unfold isPN_CHARS_extra; infer_instance

/-- Turtle production `PN_CHARS_U`. -/
def isPN_CHARS_U (cp : Nat) : Prop := isPN_CHARS_BASE cp ∨ cp = 0x5F

instance (cp : Nat) : Decidable (isPN_CHARS_U cp) := by unfold isPN_CHARS_U; infer_instance

/-- Turtle production `PN_CHARS`. -/
def isPN_CHARS (cp : Nat) : Prop :=
  isPN_CHARS_U cp ∨ cp = 0x2D ∨ (0x30 ≤ cp ∧ cp ≤ 0x39) ∨ isPN_CHARS_extra cp

instance (cp : Nat) : Decidable (isPN_CHARS cp) := by unfold isPN_CHARS; infer_instance

/-- Escape of one byte inside a quoted literal, as the specification lists it. -/
def quoteEscape (c : Nat) : List Nat :=
  if c = 0x22 then [0x5C, 0x22]
  else if c = 0x5C then [0x5C, 0x5C]
  else if c = 0x0A then [0x5C, 0x6E]
  else if c = 0x0D then [0x5C, 0x72]
  else [c]

/-- The text between the quotes, one escape or one byte per input byte. -/
def quoteBody : List Nat → List Nat
  | [] => []
  | c :: s => quoteEscape c ++ quoteBody s

/-- Reading a text from left to right: every backslash met starts one of the
escapes backslash+quote, backslash+backslash, backslash+n, backslash+r, and
outside these escapes there is no quote, no LF and no CR. -/
def escapedBody : List Nat → Bool
  | [] => true
  | [c] => decide (c ≠ 0x5C ∧ c ≠ 0x22 ∧ c ≠ 0x0A ∧ c ≠ 0x0D)
  | c :: d :: r =>
    if c = 0x5C then decide (d = 0x22 ∨ d = 0x5C ∨ d = 0x6E ∨ d = 0x72) && escapedBody r
    else decide (c ≠ 0x22 ∧ c ≠ 0x0A ∧ c ≠ 0x0D) && escapedBody (d :: r)

/-- Inverse reading of the text between the quotes. -/
def unescapeBody : List Nat → List Nat
  | [] => []
  | [c] => [c]
  | c :: d :: r =>
    if c = 0x5C ∧ d = 0x22 then 0x22 :: unescapeBody r
    else if c = 0x5C ∧ d = 0x5C then 0x5C :: unescapeBody r
    else if c = 0x5C ∧ d = 0x6E then 0x0A :: unescapeBody r
    else if c = 0x5C ∧ d = 0x72 then 0x0D :: unescapeBody r
    else c :: unescapeBody (d :: r)

/-- Inverse reading `parse` of a quoted literal: drop the outer quotes, then
read the four escapes back and every other byte as itself. -/
def parseQuoted (t : List Nat) : List Nat := unescapeBody (t.tail.dropLast)

/-- Two lower-case hexadecimal digits of `n`, zero-padded. -/
def hex2 (n : Nat) : List Nat := [hexDigit (n / 16 % 16), hexDigit (n % 16)]

/-- Four lower-case hexadecimal digits of `n`, zero-padded. -/
def hex4 (n : Nat) : List Nat :=
  [hexDigit (n / 4096 % 16), hexDigit (n / 256 % 16), hexDigit (n / 16 % 16), hexDigit (n % 16)]

/-- Escaping of one character by the generic `encodeIRIREF`, as the
specification states it: backslash, `u` and four hexadecimal digits for a
forbidden character, the UTF-8 bytes of the character otherwise. -/
def iriEscapeUCHAR (cp : Nat) : List Nat :=
  if isIRIREFForbidden cp then [0x5C, 0x75] ++ hex4 cp else utf8Encode cp

/-- Escaping of one character by the QLEVER `encodeIRIREF`: `%` and two
hexadecimal digits for a forbidden character, the UTF-8 bytes otherwise. -/
def iriEscapePERCENT (cp : Nat) : List Nat :=
  if isIRIREFForbidden cp then 0x25 :: hex2 cp else utf8Encode cp

/-- Character-level view of `scan` on well-formed UTF-8 input: `f first c last`
is what one run of a loop body does for the codepoint `c`, `first` telling
whether `c` starts at byte position 0 and `last` whether no character follows. -/
def charScan (f : Bool → Nat → Bool → Res (List Nat)) :
    Bool → List Nat → List Nat → Res (List Nat)
  | _, [], tmp => .ok tmp
  | first, c :: cs, tmp =>
    (f first c cs.isEmpty).bind fun chunk => charScan f false cs (tmp ++ chunk)

/-- Emission of `encodePN_LOCAL` for an ASCII character `c`, as the
specification lists it; `first` and `last` tell whether `c` is the first and
the last byte of the input. -/
def pnLocalAscii (first last : Bool) (c : Nat) : List Nat :=
  if (0x41 ≤ c ∧ c ≤ 0x5A) ∨ (0x61 ≤ c ∧ c ≤ 0x7A) ∨ (0x30 ≤ c ∧ c ≤ 0x39) ∨
      c = 0x3A ∨ c = 0x5F then [c]
  else if c = 0x2E then (if first = false ∧ last = false then [c] else [0x5C, c])
  else if c = 0x2D then (if first = false then [c] else [0x5C, c])
  else if c ∈ [0x7E, 0x21, 0x24, 0x26, 0x27, 0x28, 0x29, 0x2A, 0x2B, 0x2C, 0x3B, 0x3D,
      0x2F, 0x3F, 0x23, 0x40, 0x25] then [0x5C, c]
  else 0x25 :: hex2 c

/-- What `encodePN_LOCAL` does with the character `c`: an ASCII character is
emitted by `pnLocalAscii`; a multi-byte character is copied when it is in
`PN_CHARS_BASE` or, not being at byte position 0, one of the extra `PN_CHARS`,
and is an error otherwise. -/
def pnLocalChar (first : Bool) (c : Nat) (last : Bool) : Res (List Nat) :=
  if c < 0x80 then .ok (pnLocalAscii first last c)
  else if isPN_CHARS_BASE c ∨ (first = false ∧ isPN_CHARS_extra c) then .ok (utf8Encode c)
  else .error .domain_error

/-- What `encodePN_PREFIX` does with the character `c`: it is copied when it is
in `PN_CHARS_BASE`, or is not at byte position 0 and is in `PN_CHARS` or is a
`.` that is not the last byte; it is an error otherwise. -/
def pnPrefixChar (first : Bool) (c : Nat) (last : Bool) : Res (List Nat) :=
  if isPN_CHARS_BASE c ∨ (first = false ∧ (isPN_CHARS c ∨ (c = 0x2E ∧ last = false))) then
    .ok (utf8Encode c)
  else .error .domain_error

/-- Emission of `encodePN_LOCAL` for one accepted character: the rule of
`pnLocalAscii` for an ASCII character, the unchanged UTF-8 bytes otherwise. -/
def pnLocalEmit (first last : Bool) (c : Nat) : List Nat :=
  if c < 0x80 then pnLocalAscii first last c else utf8Encode c

/-- Concatenation of the emissions of the characters `cs`; `first` tells
whether the text starts at byte position 0. -/
def pnLocalText : Bool → List Nat → List Nat
  | _, [] => []
  | first, c :: cs => pnLocalEmit first cs.isEmpty c ++ pnLocalText false cs

/-- No character of `cs` makes `encodePN_LOCAL` throw. -/
def pnLocalAccepts : Bool → List Nat → Bool
  | _, [] => true
  | first, c :: cs =>
    decide (c < 0x80 ∨ isPN_CHARS_BASE c ∨ (first = false ∧ isPN_CHARS_extra c)) &&
      pnLocalAccepts false cs

/-- No character of `cs` makes `encodePN_PREFIX` throw. -/
def pnPrefixAccepts : Bool → List Nat → Bool
  | _, [] => true
  | first, c :: cs =>
    decide (isPN_CHARS_BASE c ∨
      (first = false ∧ (isPN_CHARS c ∨ (c = 0x2E ∧ cs.isEmpty = false)))) &&
      pnPrefixAccepts false cs

/-- Turtle production `HEX`. -/
def isHEX (c : Nat) : Prop :=
  (0x30 ≤ c ∧ c ≤ 0x39) ∨ (0x41 ≤ c ∧ c ≤ 0x46) ∨ (0x61 ≤ c ∧ c ≤ 0x66)

instance (c : Nat) : Decidable (isHEX c) := by unfold isHEX; infer_instance

/-- The pattern `<[^<>"{}|^backtick backslash x00-x20]*>`: the text starts with `<`, ends
with `>`, and has no IRIREF-forbidden byte between them. -/
def iriPattern (t : List Nat) : Bool :=
  decide (2 ≤ t.length ∧ t.head? = some 0x3C ∧ t.getLast? = some 0x3E ∧
    ∀ b ∈ t.tail.dropLast, ¬ isIRIREFForbidden b)

/-- Text of an IRIREF body read from left to right: every backslash starts an
escape backslash, `u`, four `HEX` digits, and every other byte is not
IRIREF-forbidden. -/
def iriBodyOK : List Nat → Bool
  | [] => true
  | c :: r =>
    if c = 0x5C then
      match r with
      | u :: h1 :: h2 :: h3 :: h4 :: r2 =>
        decide (u = 0x75 ∧ isHEX h1 ∧ isHEX h2 ∧ isHEX h3 ∧ isHEX h4) && iriBodyOK r2
      | _ => false
    else decide (¬ isIRIREFForbidden c) && iriBodyOK r

/-- Upper-case hexadecimal digit character of `d < 16`. -/
def hexDigitUpper (d : Nat) : Nat := if d < 10 then 0x30 + d else 0x41 + (d - 10)

/-- The text the specification prescribes for `PERCENT(codepoint)`: for each
byte of the UTF-8 encoding, first byte first, `%` and two upper-case
hexadecimal digits. -/
def percentUtf8Upper (cp : Nat) : List Nat :=
  (utf8Encode cp).flatMap
    (fun b => [0x25, hexDigitUpper (b / 16 % 16), hexDigitUpper (b % 16)])

/-- The bytes of the number `n` in base 256, most significant first; the one
byte 0 for `n = 0`. -/
def bytesBE (n : Nat) : List Nat := if n = 0 then [0] else (Nat.digits 256 n).reverse

/-- Characters that Turtle production `PN_LOCAL_ESC` allows after a backslash:
`_ ~ . - ! $ & ' ( ) * + , ; = / ? # @ %`. -/
def isPN_LOCAL_ESC (c : Nat) : Prop :=
  c ∈ [0x5F, 0x7E, 0x2E, 0x2D, 0x21, 0x24, 0x26, 0x27, 0x28, 0x29, 0x2A, 0x2B, 0x2C, 0x3B,
    0x3D, 0x2F, 0x3F, 0x23, 0x40, 0x25]

instance (c : Nat) : Decidable (isPN_LOCAL_ESC c) := by unfold isPN_LOCAL_ESC; infer_instance

/-- The part `((PN_CHARS | '.')* PN_CHARS)?` of Turtle production `PN_PREFIX`,
on a list of codepoints. -/
def pnPrefixTail : List Nat → Bool
  | [] => true
  | c :: r =>
    if c = 0x2E then !r.isEmpty && pnPrefixTail r
    else decide (isPN_CHARS c) && pnPrefixTail r

/-- Turtle production `PN_PREFIX ::= PN_CHARS_BASE ((PN_CHARS | '.')* PN_CHARS)?`,
on a list of codepoints. -/
def matchPN_PREFIX : List Nat → Bool
  | [] => false
  | c :: r => decide (isPN_CHARS_BASE c) && pnPrefixTail r

/-- The part `((PN_CHARS | '.' | ':' | PLX)* (PN_CHARS | ':' | PLX))?` of Turtle
production `PN_LOCAL`, on a list of codepoints; `PLX` is `%` `HEX` `HEX` or a
backslash followed by a `PN_LOCAL_ESC` character. -/
def pnLocalTail : List Nat → Bool
  | [] => true
  | c :: r =>
    if c = 0x25 then
      match r with
      | h1 :: h2 :: r2 => decide (isHEX h1 ∧ isHEX h2) && pnLocalTail r2
      | _ => false
    else if c = 0x5C then
      match r with
      | e :: r2 => decide (isPN_LOCAL_ESC e) && pnLocalTail r2
      | _ => false
    else if c = 0x2E then !r.isEmpty && pnLocalTail r
    else decide (isPN_CHARS c ∨ c = 0x3A) && pnLocalTail r

/-- Turtle production `PN_LOCAL ::= (PN_CHARS_U | ':' | [0-9] | PLX)
((PN_CHARS | '.' | ':' | PLX)* (PN_CHARS | ':' | PLX))?`, on a list of codepoints. -/
def matchPN_LOCAL : List Nat → Bool
  | [] => false
  | c :: r =>
    if c = 0x25 then
      match r with
      | h1 :: h2 :: r2 => decide (isHEX h1 ∧ isHEX h2) && pnLocalTail r2
      | _ => false
    else if c = 0x5C then
      match r with
      | e :: r2 => decide (isPN_LOCAL_ESC e) && pnLocalTail r2
      | _ => false
    else decide (isPN_CHARS_U c ∨ c = 0x3A ∨ (0x30 ≤ c ∧ c ≤ 0x39)) && pnLocalTail r

/-- The codepoints of the text `pnLocalText first cs`. -/
def pnLocalCps : Bool → List Nat → List Nat
  | _, [] => []
  | first, c :: cs =>
    (if c < 0x80 then pnLocalAscii first cs.isEmpty c else [c]) ++ pnLocalCps false cs

/-- Eight lower-case hexadecimal digits of `n`, zero-padded. -/
def hex8 (n : Nat) : List Nat :=
  [hexDigit (n / 268435456 % 16), hexDigit (n / 16777216 % 16), hexDigit (n / 1048576 % 16),
   hexDigit (n / 65536 % 16), hexDigit (n / 4096 % 16), hexDigit (n / 256 % 16),
   hexDigit (n / 16 % 16), hexDigit (n % 16)]

/-- A lower-case hexadecimal digit character: `0`..`9` or `a`..`f`. -/
def isLowerHex (c : Nat) : Prop := (0x30 ≤ c ∧ c ≤ 0x39) ∨ (0x61 ≤ c ∧ c ≤ 0x66)

instance (c : Nat) : Decidable (isLowerHex c) := by unfold isLowerHex; infer_instance

/-- Value of a hexadecimal digit character. -/
def hexVal (c : Nat) : Nat :=
  if 0x30 ≤ c ∧ c ≤ 0x39 then c - 0x30
  else if 0x61 ≤ c ∧ c ≤ 0x66 then c - 0x61 + 10
  else if 0x41 ≤ c ∧ c ≤ 0x46 then c - 0x41 + 10
  else 0

/-- Reading a hexadecimal numeral, most significant digit first. -/
def readHex (l : List Nat) : Nat := l.foldl (fun a c => 16 * a + hexVal c) 0

/-- Reading an escaped IRIREF text back: every escape backslash, `u`, four
hexadecimal digits is replaced by the UTF-8 bytes of the character it names;
every other byte is kept. -/
def unescapeUCHAR : List Nat → List Nat
  | [] => []
  | c :: r =>
    if c = 0x5C then
      match r with
      | u :: h1 :: h2 :: h3 :: h4 :: r2 =>
        if u = 0x75 then utf8Encode (readHex [h1, h2, h3, h4]) ++ unescapeUCHAR r2
        else c :: r
      | _ => c :: r
    else c :: unescapeUCHAR r

/-- Reading a percent-encoded text back: every `%` followed by two bytes is
replaced by the byte whose hexadecimal numeral the two bytes are; every other
byte is kept. -/
def unescapePERCENT : List Nat → List Nat
  | [] => []
  | c :: r =>
    if c = 0x25 then
      match r with
      | h1 :: h2 :: r2 => readHex [h1, h2] :: unescapePERCENT r2
      | _ => c :: r
    else c :: unescapePERCENT r

/-! ## Term factory and IRI formatting -/

/-- The bytes of an ASCII text. -/
def bytes (s : String) : List Nat := s.toList.map Char.toNat

/-- Source `resolvePrefix(p)`. -/
def resolvePrefix (prefixes : PrefixTable) (p : List Nat) : List Nat :=
  match prefixes.lookup p with
  | some ns => ns
  | none => p

/-- Source `PrefixedNameUnsafe(p, v)`: `std::string(p) + ":" + std::string(v)`. -/
def PrefixedNameUnsafe (p v : List Nat) : List Nat := p ++ [0x3A] ++ v

/-- Source `formatIRI(p, v)`: the specialisations for NT, TTL and QLEVER. -/
def formatIRI (T : Format) (prefixes : PrefixTable) (p v : List Nat) : Res (List Nat) :=
  match T with
  | .NT => formatIRI_NT prefixes p v
  | .TTL =>
    match prefixes.lookup p with
    | some _ => PrefixedName p v
    | none => IRIREF .TTL p v
  | .QLEVER =>
    match prefixes.lookup p with
    | some _ => PrefixedName p v
    | none => IRIREF .QLEVER p v

/-- Source `formatIRIUnsafe(p, v)`: the specialisations for NT, TTL and QLEVER. -/
def formatIRIUnsafe (T : Format) (prefixes : PrefixTable) (p v : List Nat) :
    Res (List Nat) :=
  match T with
  | .NT => formatIRI .NT prefixes p v
  | .TTL =>
    match prefixes.lookup p with
    | some _ => .ok (PrefixedNameUnsafe p v)
    | none => IRIREF .TTL p v
  | .QLEVER =>
    match prefixes.lookup p with
    | some _ => .ok (PrefixedNameUnsafe p v)
    | none => IRIREF .QLEVER p v

/-- Decimal digits of `n`, most significant first, pushed in front of `acc`. -/
def to_stringAux : Nat → Nat → List Nat → List Nat
  | 0, _, acc => acc
  | f + 1, n, acc =>
    if n < 10 then (0x30 + n) :: acc
    else to_stringAux f (n / 10) ((0x30 + n % 10) :: acc)

/-- The library call `std::to_string(v)` for a 64-bit unsigned `v` (at most 20 digits). -/
def to_string (v : Nat) : List Nat := to_stringAux 20 v []

/-- Source `generateIRIUnsafe(p, v)`. -/
def generateIRIUnsafe (T : Format) (prefixes : PrefixTable) (p v : List Nat) :
    Res (List Nat) :=
  formatIRIUnsafe T prefixes p v

/-- Source `generateIRI(std::string_view p, uint64_t v)`. -/
def generateIRI_u64 (T : Format) (prefixes : PrefixTable) (p : List Nat) (v : Nat) :
    Res (List Nat) :=
  generateIRIUnsafe T prefixes p (to_string (v % 18446744073709551616))

/-- The library call `std::isspace(c)` in the "C" locale: space, TAB, LF, VT, FF, CR. -/
def isspace (c : Int) : Bool := decide (c = 0x20 ∨ (0x09 ≤ c ∧ c ≤ 0x0D))

/-- Source `generateIRI(std::string_view p, std::string_view v)`. `beginIdx` is
`begin - v.begin()` and `endIdx` is `end.base() - v.begin()`; the count
`std::distance(begin, end.base())` is converted to `size_t`, and `substr`
clamps it to the end of `v`. -/
def generateIRI (T : Format) (prefixes : PrefixTable) (p v : List Nat) : Res (List Nat) :=
  let beginIdx := (v.takeWhile (fun c => isspace (schar c))).length
  let endIdx := v.length - (v.reverse.takeWhile (fun c => isspace (schar c))).length
  let count :=
    if beginIdx ≤ endIdx then endIdx - beginIdx
    else 18446744073709551616 - (beginIdx - endIdx)
  formatIRI T prefixes p ((v.drop beginIdx).take count)

/-- The loop of `generateLangTag`; the result is the flag `ok`. `rest` is
`s.substr(pos)`. -/
def generateLangTag.loop (s : List Nat) : List Nat → Nat → Bool → Bool
  | [], _, _ => true
  | c :: r, pos, allowDigits =>
    if pos = 0 ∧ s.head?.map schar = some 0x2D then false
    else if (schar c ≥ 0x61 ∧ schar c ≤ 0x7A) ∨ (schar c ≥ 0x41 ∧ schar c ≤ 0x5A) ∨
        (schar c ≥ 0x30 ∧ schar c ≤ 0x39 ∧ allowDigits = true) then
      generateLangTag.loop s r (pos + 1) allowDigits
    else if schar c = 0x2D then generateLangTag.loop s r (pos + 1) true
    else false

/-- Source `generateLangTag(std::string_view s)`. -/
def generateLangTag (_T : Format) (s : List Nat) : Res (List Nat) :=
  if generateLangTag.loop s s 0 false then .ok ([0x40] ++ s) else .error .domain_error

/-- Source `generateLiteral(v, s)`: `STRING_LITERAL_QUOTE(v) + std::string(s)`. -/
def generateLiteral (_T : Format) (v s : List Nat) : List Nat :=
  STRING_LITERAL_QUOTE v ++ s

/-- Modelled from the spec: the prefix labels `NAMESPACE__...` of ttl/Constants.h
(not under src/). They are taken as a parameter of the constructor's table. -/
structure Labels where
  NAMESPACE__GEOSPARQL : List Nat
  NAMESPACE__WIKIDATA_ENTITY : List Nat
  NAMESPACE__XML_SCHEMA : List Nat
  NAMESPACE__RDF : List Nat
  NAMESPACE__OPENGIS : List Nat
  NAMESPACE__OSM2RDF : List Nat
  NAMESPACE__OSM2RDF_GEOM : List Nat
  NAMESPACE__OSM : List Nat
  NAMESPACE__OSM_NODE : List Nat
  NAMESPACE__OSM_RELATION : List Nat
  NAMESPACE__OSM_TAG : List Nat
  NAMESPACE__OSM_WAY : List Nat

/-- Modelled from the spec: the values of the labels of ttl/Constants.h (not
under src/), after the canonical entries the specification lists:
geo, geos, rdf, xsd, osm, osmnode, osmway, osmrel, osmt, wd, osm2rdf, osm2rdfgeom. -/
def specLabels : Labels where
  NAMESPACE__GEOSPARQL := bytes "geo"
  NAMESPACE__WIKIDATA_ENTITY := bytes "wd"
  NAMESPACE__XML_SCHEMA := bytes "xsd"
  NAMESPACE__RDF := bytes "rdf"
  NAMESPACE__OPENGIS := bytes "geos"
  NAMESPACE__OSM2RDF := bytes "osm2rdf"
  NAMESPACE__OSM2RDF_GEOM := bytes "osm2rdfgeom"
  NAMESPACE__OSM := bytes "osm"
  NAMESPACE__OSM_NODE := bytes "osmnode"
  NAMESPACE__OSM_RELATION := bytes "osmrel"
  NAMESPACE__OSM_TAG := bytes "osmt"
  NAMESPACE__OSM_WAY := bytes "osmway"

/-- The table `_prefixes` the constructor `Writer<T>::Writer` builds. An entry
whose label repeats an earlier one is not inserted, which `List.lookup`
reproduces by returning the first match. -/
def constructorPrefixes (L : Labels) : PrefixTable :=
  [(L.NAMESPACE__GEOSPARQL, bytes "http://www.opengis.net/ont/geosparql#"),
   (L.NAMESPACE__WIKIDATA_ENTITY, bytes "http://www.wikidata.org/entity/"),
   (L.NAMESPACE__XML_SCHEMA, bytes "http://www.w3.org/2001/XMLSchema#"),
   (L.NAMESPACE__RDF, bytes "http://www.w3.org/1999/02/22-rdf-syntax-ns#"),
   (L.NAMESPACE__OPENGIS, bytes "http://www.opengis.net/rdf#"),
   (L.NAMESPACE__OSM2RDF, bytes "https://osm2rdf.cs.uni-freiburg.de/rdf#"),
   (L.NAMESPACE__OSM2RDF_GEOM, bytes "https://osm2rdf.cs.uni-freiburg.de/rdf/geom#"),
   (L.NAMESPACE__OSM, bytes "https://www.openstreetmap.org/"),
   (L.NAMESPACE__OSM_NODE, bytes "https://www.openstreetmap.org/node/"),
   (L.NAMESPACE__OSM_RELATION, bytes "https://www.openstreetmap.org/relation/"),
   (L.NAMESPACE__OSM_TAG, bytes "https://www.openstreetmap.org/wiki/Key:"),
   (L.NAMESPACE__OSM_WAY, bytes "https://www.openstreetmap.org/way/")]

/-- Turtle production `LANGTAG` without the `@`, as the specification writes
it: `ALPHA+ ('-' (ALPHA|DIGIT)+)*`. `seg` tells whether the current segment
already has a character, `first` whether it is the first segment. -/
def matchLangTagAux : List Nat → Bool → Bool → Bool
  | [], seg, _ => seg
  | c :: r, seg, first =>
    if (0x41 ≤ c ∧ c ≤ 0x5A) ∨ (0x61 ≤ c ∧ c ≤ 0x7A) then matchLangTagAux r true first
    else if 0x30 ≤ c ∧ c ≤ 0x39 then !first && matchLangTagAux r true first
    else if c = 0x2D then seg && matchLangTagAux r false false
    else false

/-- The text matches `ALPHA+ ('-' (ALPHA|DIGIT)+)*`. -/
def matchLangTag (s : List Nat) : Bool := matchLangTagAux s false true

/-- An ASCII decimal digit `0`..`9`. -/
def isDigit (c : Nat) : Prop := 0x30 ≤ c ∧ c ≤ 0x39

instance (c : Nat) : Decidable (isDigit c) := by unfold isDigit; infer_instance

/-! ## Writer state, prefix table and triple sink -/

/-- The assignment `m[k] = v` on a `std::map`: an entry with an equal key gets
the new value, otherwise a new entry is added. The list holds the entries of
the map, one per key. -/
def mapAssign : PrefixTable → List Nat → List Nat → PrefixTable
  | [], k, v => [(k, v)]
  | (k1, v1) :: r, k, v => if k1 = k then (k, v) :: r else (k1, v1) :: mapAssign r k v

/-- The call `m.insert({k, v})` on a `std::map`, which the initializer-list
constructor performs for each element: an entry with an equal key is kept. -/
def mapInsert : PrefixTable → List Nat → List Nat → PrefixTable
  | [], k, v => [(k, v)]
  | (k1, v1) :: r, k, v => if k1 = k then (k1, v1) :: r else (k1, v1) :: mapInsert r k v

/-- The order in which a range-for loop visits a `std::map` with string keys:
ascending by key, bytes compared as unsigned values. -/
def mapIter (m : PrefixTable) : PrefixTable :=
  m.insertionSort (fun a b => a.1 ≤ b.1)

/-- The invariant of a `std::map`: no two entries have the same key. -/
def mapKeysNodup (m : PrefixTable) : Prop := (m.map Prod.fst).Nodup

instance (m : PrefixTable) : Decidable (mapKeysNodup m) := by
  unfold mapKeysNodup; infer_instance

/-- Modelled from the spec: the sink `osm2rdf::util::Output` (util/Output.h is
not under src/) owns one output stream per worker; `stream t` is the text
written so far to the stream of worker `t`. -/
structure Output where
  stream : Nat → List Nat

/-- Modelled from the spec: `Output::write` appends to the stream of the calling
worker `t` (the value of `omp_get_thread_num()`). -/
def Output.write (o : Output) (t : Nat) (b : List Nat) : Output :=
  { stream := Function.update o.stream t (o.stream t ++ b) }

/-- Modelled from the spec: `Output::writeNewLine` appends one LF to the stream
of the calling worker. -/
def Output.writeNewLine (o : Output) (t : Nat) : Output := o.write t [0x0A]

/-- The data members of `Writer<T>` that the member functions read and
assign. The three arrays have `_numOuts` cells. -/
structure Writer where
  _prefixes : PrefixTable
  _out : Output
  _numOuts : Nat
  _blankNodeCount : List Nat
  _headerLines : List Nat
  _lineCount : List Nat

/-- The statement `a[t]++` on an array of `uint64_t`. An index outside the
array is undefined behaviour in the source; the model stops there. -/
def incr (a : List Nat) (t : Nat) : Res (List Nat) :=
  match a.get? t with
  | some x => .ok (a.set t ((x + 1) % 18446744073709551616))
  | none => .error .out_of_range

/-- The state in which the constructor `Writer<T>::Writer` returns, with
`numOuts` the value of `omp_get_max_threads()` (1 without OpenMP). The calls of
`generateIRI` and `generateLiteral` in between assign the constants of
ttl/Constants.h and no member of the writer. -/
def Writer.new (L : Labels) (output : Output) (numOuts : Nat) : Writer :=
  { _prefixes := (constructorPrefixes L).foldl (fun m e => mapInsert m e.1 e.2) []
    _out := output
    _numOuts := numOuts
    _blankNodeCount := List.replicate numOuts 0
    _headerLines := List.replicate numOuts 0
    _lineCount := List.replicate numOuts 0 }

/-- Source `addPrefix(prefix, value)`: the returned flag and the writer after
the call. -/
def addPrefix (w : Writer) (pfx value : List Nat) : Bool × Writer :=
  match w._prefixes.lookup pfx with
  | some _ => (false, w)
  | none => (true, { w with _prefixes := mapAssign w._prefixes pfx value })

/-- Source `writeTriple(s, p, o)`, called by worker `t`. -/
def writeTriple (w : Writer) (t : Nat) (s p o : List Nat) : Res Writer := do
  let out := w._out.write t s
  let out := out.write t [0x20]
  let out := out.write t p
  let out := out.write t [0x20]
  let out := out.write t o
  let out := out.write t [0x20]
  let out := out.write t [0x2E]
  let out := out.writeNewLine t
  let lc ← incr w._lineCount t
  .ok { w with _out := out, _lineCount := lc }

/-- The loop of `writeHeader` over the entries not yet visited. -/
def writeHeader.loop (t : Nat) : PrefixTable → Writer → Res Writer
  | [], w => .ok w
  | (pfx, iriref) :: r, w => do
    let w ← writeTriple w t (bytes "@prefix") (pfx ++ bytes ":")
      (bytes "<" ++ iriref ++ bytes ">")
    let hl ← incr w._headerLines t
    writeHeader.loop t r { w with _headerLines := hl }

/-- Source `writeHeader()`, called by worker `t`: empty for NT, the loop over
`_prefixes` for TTL and QLEVER. -/
def writeHeader (T : Format) (w : Writer) (t : Nat) : Res Writer :=
  match T with
  | .NT => .ok w
  | .TTL => writeHeader.loop t (mapIter w._prefixes) w
  | .QLEVER => writeHeader.loop t (mapIter w._prefixes) w

/-- Source `generateBlankNode()`, called by worker `theadId`: the label and
the writer after the call. -/
def generateBlankNode (w : Writer) (theadId : Nat) : Res (List Nat × Writer) :=
  match w._blankNodeCount.get? theadId with
  | some n =>
    .ok (bytes "_:" ++ to_string theadId ++ bytes "_" ++ to_string n,
      { w with _blankNodeCount :=
          w._blankNodeCount.set theadId ((n + 1) % 18446744073709551616) })
  | none => .error .out_of_range

/-- Source `generateLiteralUnsafe(v, s)`. -/
def generateLiteralUnsafe (_T : Format) (v s : List Nat) : List Nat :=
  let ret : List Nat := []
  let ret := ret ++ [0x22]
  let ret := ret ++ v
  let ret := ret ++ [0x22]
  let ret := ret ++ s
  ret

/-- The four numbers `writeStatisticJson` prints. -/
structure Statistic where
  blankNodes : Nat
  header : Nat
  lines : Nat
  triples : Nat
  deriving DecidableEq

/-- The summing loop of `writeStatisticJson` over the cells `0 .. _numOuts - 1`,
in 64-bit unsigned arithmetic, and the difference `lineCount - headerLines`. -/
def statistic (w : Writer) : Statistic :=
  let acc := (List.range w._numOuts).foldl
    (fun (acc : Nat × Nat × Nat) i =>
      ((acc.1 + w._blankNodeCount.getD i 0) % 18446744073709551616,
       (acc.2.1 + w._headerLines.getD i 0) % 18446744073709551616,
       (acc.2.2 + w._lineCount.getD i 0) % 18446744073709551616)) (0, 0, 0)
  { blankNodes := acc.1
    header := acc.2.1
    lines := acc.2.2
    triples := (acc.2.2 + 18446744073709551616 - acc.2.1) % 18446744073709551616 }

/-- Source `writeStatisticJson(output)`: the text written to the file. -/
def writeStatisticJson (w : Writer) : List Nat :=
  let st := statistic w
  bytes "\x7b\n" ++
  bytes "  " ++ [0x22] ++ bytes "blankNodes" ++ [0x22] ++ bytes ": " ++
    to_string st.blankNodes ++ bytes ",\n" ++
  bytes "  " ++ [0x22] ++ bytes "header" ++ [0x22] ++ bytes ": " ++
    to_string st.header ++ bytes ",\n" ++
  bytes "  " ++ [0x22] ++ bytes "lines" ++ [0x22] ++ bytes ": " ++
    to_string st.lines ++ bytes ",\n" ++
  bytes "  " ++ [0x22] ++ bytes "triples" ++ [0x22] ++ bytes ": " ++
    to_string st.triples ++ bytes "\n" ++
  bytes "\x7d\n"

/-- A call of a member function of the writer; `t` is the calling worker. -/
inductive Op where
  | addPrefix (pfx value : List Nat)
  | resolvePrefix (p : List Nat)
  | writeHeader (t : Nat)
  | writeTriple (t : Nat) (s p o : List Nat)
  | generateBlankNode (t : Nat)
  | generateIRI (p v : List Nat)
  | generateIRI_u64 (p : List Nat) (v : Nat)
  | generateIRIUnsafe (p v : List Nat)
  | generateLangTag (s : List Nat)
  | generateLiteral (v s : List Nat)
  | generateLiteralUnsafe (v s : List Nat)
  deriving DecidableEq

/-- The writer after one call. `resolvePrefix` and the `generate` functions
other than `generateBlankNode` assign no member, whether they return or
throw. -/
def step (T : Format) (w : Writer) : Op → Res Writer
  | .addPrefix pfx value => .ok (addPrefix w pfx value).2
  | .writeHeader t => writeHeader T w t
  | .writeTriple t s p o => writeTriple w t s p o
  | .generateBlankNode t =>
    match generateBlankNode w t with
    | .ok r => .ok r.2
    | .error e => .error e
  | _ => .ok w

/-- The writer after a sequence of calls. -/
def run (T : Format) : List Op → Writer → Res Writer
  | [], w => .ok w
  | op :: ops, w =>
    match step T w op with
    | .ok w1 => run T ops w1
    | .error e => .error e

/-- The worker that makes the call, for the calls that use the worker's cells. -/
def Op.thread : Op → Option Nat
  | .writeHeader t => some t
  | .writeTriple t _ _ _ => some t
  | .generateBlankNode t => some t
  | _ => none

/-- The labels returned by a sequence of `generateBlankNode` calls made by the
workers `ts`, in order. -/
def blankRun : List Nat → Writer → Res (List (List Nat))
  | [], _ => .ok []
  | t :: ts, w =>
    match generateBlankNode w t with
    | .ok r =>
      match blankRun ts r.2 with
      | .ok ls => .ok (r.1 :: ls)
      | .error e => .error e
    | .error e => .error e

/-- The value of a decimal numeral. -/
def readDec (l : List Nat) : Nat := l.foldl (fun a c => 10 * a + (c - 0x30)) 0

/-- The line `writeHeader` writes for the binding `(L, I)`. -/
def headerLine (e : List Nat × List Nat) : List Nat :=
  bytes "@prefix " ++ e.1 ++ bytes ": <" ++ e.2 ++ bytes "> .\n"

/-- The cells of the three arrays exist for the workers `0 .. _numOuts - 1` and
hold 64-bit values. -/
def Writer.WF (w : Writer) : Prop :=
  w._blankNodeCount.length = w._numOuts ∧ w._headerLines.length = w._numOuts ∧
  w._lineCount.length = w._numOuts ∧
  (∀ x ∈ w._blankNodeCount, x < 18446744073709551616) ∧
  (∀ x ∈ w._headerLines, x < 18446744073709551616) ∧
  (∀ x ∈ w._lineCount, x < 18446744073709551616)

instance (w : Writer) : Decidable w.WF := by unfold Writer.WF; infer_instance

/-- The cell `t` of an array of `uint64_t` after `n` increments. -/
def addAt (a : List Nat) (t n : Nat) : List Nat :=
  a.set t ((a.getD t 0 + n) % 18446744073709551616)

/-- The lines `writeHeader` writes for the entries it visits, in order. -/
def headerText : PrefixTable → List Nat
  | [] => []
  | e :: r => headerLine e ++ headerText r

/-- The number of `writeTriple` calls in a sequence of calls (the calls
`writeHeader` makes internally are not in the sequence). -/
def countTriples : List Op → Nat
  | [] => 0
  | .writeTriple _ _ _ _ :: r => countTriples r + 1
  | _ :: r => countTriples r

/-- The number of `writeHeader` calls in a sequence of calls. -/
def countHeaders : List Op → Nat
  | [] => 0
  | .writeHeader _ :: r => countHeaders r + 1
  | _ :: r => countHeaders r

/-- The number of `generateBlankNode` calls in a sequence of calls. -/
def countBlank : List Op → Nat
  | [] => 0
  | .generateBlankNode _ :: r => countBlank r + 1
  | _ :: r => countBlank r

/-- The number of lines one call of `writeHeader` writes: none for NT, one per
entry of the prefix table otherwise. -/
def headerSize (T : Format) (w : Writer) : Nat :=
  match T with
  | .NT => 0
  | _ => w._prefixes.length

/-- A whitespace byte: space, TAB, LF, VT, FF, CR. -/
def isWhitespaceByte (c : Nat) : Bool := decide (c = 0x20 ∨ (0x09 ≤ c ∧ c ≤ 0x0D))

/-- The text without its leading and trailing whitespace bytes. -/
def trimSpace (v : List Nat) : List Nat :=
  ((v.dropWhile isWhitespaceByte).reverse.dropWhile isWhitespaceByte).reverse

/-- Reading a `PN_LOCAL` text back: `%` followed by two bytes is the byte whose
hexadecimal numeral the two bytes are, a backslash followed by a byte is that
byte, and every other byte is kept. -/
def unescapePN_LOCAL : List Nat → List Nat
  | [] => []
  | c :: r =>
    if c = 0x25 then
      match r with
      | h1 :: h2 :: r2 => readHex [h1, h2] :: unescapePN_LOCAL r2
      | _ => c :: r
    else if c = 0x5C then
      match r with
      | e :: r2 => e :: unescapePN_LOCAL r2
      | _ => c :: r
    else c :: unescapePN_LOCAL r

/-- The iterations the loop `scan` completes: for each one the value of `pos`
at its start and the number of bytes by which it advances `pos`. -/
def scanTrace (body : List Nat → Nat → Res (List Nat × Nat)) :
    Nat → List Nat → Nat → List (Nat × Nat)
  | _, [], _ => []
  | 0, _ :: _, _ => []
  | f + 1, c :: r, pos =>
    match body (c :: r) pos with
    | .error _ => []
    | .ok (_, n) => (pos, n) :: scanTrace body f ((c :: r).drop n) (pos + n)

/-- The byte position and the byte length of each character of the UTF-8 text
of `cs` that starts at byte position `pos`. -/
def charSlices : Nat → List Nat → List (Nat × Nat)
  | _, [] => []
  | pos, c :: cs =>
    (pos, (utf8Encode c).length) :: charSlices (pos + (utf8Encode c).length) cs

/-! ## Entity writer `osm2ttl::ttl::Writer` (src/src/osm2ttl/ttl/Writer.cpp) -/

/-- Modelled from the spec: the class `osm2ttl::ttl::IRI` (ttl/IRI.h is not
under src/), a prefix label or namespace and a local value. -/
structure osm2ttl.IRI where
  pfx : List Nat
  value : List Nat
  deriving DecidableEq

/-- The library type `osmium::Location`: two 32-bit coordinates. -/
structure osm2ttl.Location where
  x : Int
  y : Int
  deriving DecidableEq

/-- The default-constructed `osmium::Location`: both coordinates hold
`undefined_coordinate`, the largest 32-bit value. -/
def osm2ttl.Location.undefined : osm2ttl.Location := { x := 2147483647, y := 2147483647 }

/-- The library type `osmium::NodeRef`: a node id and the node's location. -/
structure osm2ttl.NodeRef where
  ref : Nat
  location : osm2ttl.Location
  deriving DecidableEq

/-- The library type `osmium::Way`, as far as the writer reads it. -/
structure osm2ttl.Way where
  id : Nat
  nodes : List osm2ttl.NodeRef
  tags : List (List Nat × List Nat)
  deriving DecidableEq

/-- The library enumeration `osmium::item_type`. -/
inductive osm2ttl.item_type where
  | undefined
  | node
  | way
  | relation
  | area
  | changeset
  deriving DecidableEq

/-- The library function `osmium::item_type_to_name`. -/
def osm2ttl.item_type_to_name : osm2ttl.item_type → List Nat
  | .undefined => bytes "undefined"
  | .node => bytes "node"
  | .way => bytes "way"
  | .relation => bytes "relation"
  | .area => bytes "area"
  | .changeset => bytes "changeset"

/-- The library type `osmium::RelationMember`. -/
structure osm2ttl.RelationMember where
  ref : Nat
  type : osm2ttl.item_type
  role : List Nat
  deriving DecidableEq

/-- Modelled from the spec: the lexical value of an `osm2ttl::ttl::Literal`
(ttl/Literal.h and osm/WKTFactory.h are not under src/). A text is kept as its
bytes; for a geometry the value records which function of the WKT factory
produced it and from what, the WKT text itself is not modelled. -/
inductive osm2ttl.LiteralValue where
  | text (s : List Nat)
  | polygon (w : osm2ttl.Way)
  | linestring (w : osm2ttl.Way)
  | point (n : osm2ttl.NodeRef)
  | envelope (w : osm2ttl.Way)
  deriving DecidableEq

/-- Modelled from the spec: `osm2ttl::ttl::Literal`, a value with an optional
datatype IRI. -/
structure osm2ttl.Literal where
  value : osm2ttl.LiteralValue
  datatype : Option osm2ttl.IRI
  deriving DecidableEq

/-- The three term shapes a triple is made of; a blank node is identified by
the number it got when it was constructed. -/
inductive osm2ttl.Term where
  | iri (i : osm2ttl.IRI)
  | blank (n : Nat)
  | literal (l : osm2ttl.Literal)
  deriving DecidableEq

/-- A triple handed to `writeTriple`. -/
structure osm2ttl.Triple where
  s : osm2ttl.Term
  p : osm2ttl.IRI
  o : osm2ttl.Term
  deriving DecidableEq

/-- Modelled from the spec: the members of `osm2ttl::config::Config` the writer
reads (config/Config.h is not under src/). `tagKeyType` maps a tag key to its
datatype. -/
structure osm2ttl.Config where
  tagKeyType : List (List Nat × osm2ttl.IRI)
  skipWikiLinks : Bool
  expandedData : Bool
  metaData : Bool
  addEnvelope : Bool

/-- Source `writeTriple(s, p, o)`: the triple is dispatched to the output queue;
the model collects the dispatched triples in order. -/
def osm2ttl.writeTriple (s : osm2ttl.Term) (p : osm2ttl.IRI) (o : osm2ttl.Term) :
    List osm2ttl.Triple :=
  [{ s := s, p := p, o := o }]

/-- The library call `s.find(n, pos)` on the text `rest = s.substr(pos)`: the
least index from `pos` on at which `n` occurs. -/
def osm2ttl.findFrom (n : List Nat) : List Nat → Nat → Option Nat
  | [], pos => if n = [] then some pos else none
  | c :: r, pos => if n.isPrefixOf (c :: r) then some pos else osm2ttl.findFrom n r (pos + 1)

/-- The library call `s.find(n, pos)`. -/
def osm2ttl.find (s n : List Nat) (pos : Nat) : Option Nat :=
  if pos ≤ s.length then osm2ttl.findFrom n (s.drop pos) pos else none

/-- The library call `s.find(c)` for a character `c`. -/
def osm2ttl.findChar : List Nat → Nat → Option Nat
  | [], _ => none
  | b :: r, c => if b = c then some 0 else (osm2ttl.findChar r c).map (fun i => i + 1)

/-- Source `Writer::contains(s, n)`. -/
def osm2ttl.contains (s n : List Nat) : Bool :=
  if n.isEmpty then true
  else if s.length < n.length then false
  else (osm2ttl.find s n 0).isSome

/-- Source `Writer::endsWith(s, n)`. -/
def osm2ttl.endsWith (s n : List Nat) : Bool :=
  if n.isEmpty then true
  else if s.length < n.length then false
  else (osm2ttl.find s n (s.length - n.length)).isSome

/-- Source `writeOsmiumTag(s, tag)`. -/
def osm2ttl.writeOsmiumTag (cfg : osm2ttl.Config) (s : osm2ttl.Term)
    (tag : List Nat × List Nat) : List osm2ttl.Triple :=
  let key := tag.1
  let tmp := key.foldl (fun tmp c => if c = 0x20 then tmp ++ bytes "_" else tmp ++ [c]) []
  match cfg.tagKeyType.lookup tag.1 with
  | some tagType =>
    osm2ttl.writeTriple s { pfx := bytes "osmt", value := tmp }
      (.literal { value := .text tag.2, datatype := some tagType })
  | none =>
    osm2ttl.writeTriple s { pfx := bytes "osmt", value := tmp }
      (.literal { value := .text tag.2, datatype := none })

/-- Source `writeTag(s, tag)`. -/
def osm2ttl.writeTag (cfg : osm2ttl.Config) (s : osm2ttl.Term)
    (tag : List Nat × List Nat) : List osm2ttl.Triple :=
  let key := tag.1
  let value := tag.2
  match cfg.tagKeyType.lookup key with
  | some tagType =>
    osm2ttl.writeTriple s { pfx := bytes "osmt", value := key }
      (.literal { value := .text value, datatype := some tagType })
  | none =>
    osm2ttl.writeTriple s { pfx := bytes "osmt", value := key }
      (.literal { value := .text value, datatype := none })

/-- The library call `isdigit(c)` for a `char c` in the "C" locale. -/
def osm2ttl.isdigit (c : Int) : Bool := decide (0x30 ≤ c ∧ c ≤ 0x39)

/-- The value of the `wikidata` triple: the text up to the first `;`, from which
every byte that is neither a digit nor `Q` is removed. -/
def osm2ttl.wikidataValue (value : List Nat) : List Nat :=
  let value :=
    match osm2ttl.findChar value 0x3B with
    | some e => value.take e
    | none => value
  value.filter (fun c => !(!osm2ttl.isdigit (schar c) && decide (c ≠ 0x51)))

/-- The `wikipedia` triple of the two tag-list writers for the value `v`. -/
def osm2ttl.wikipediaTriple (s : osm2ttl.Term) (v : List Nat) : List osm2ttl.Triple :=
  match osm2ttl.findChar v 0x3A with
  | some pos =>
    let lang := v.take pos
    let entry := v.drop (pos + 1)
    osm2ttl.writeTriple s { pfx := bytes "osm", value := bytes "wikipedia" }
      (.iri { pfx := bytes "https://" ++ lang ++ bytes ".wikipedia.org/wiki/", value := entry })
  | none =>
    osm2ttl.writeTriple s { pfx := bytes "osm", value := bytes "wikipedia" }
      (.iri { pfx := bytes "https://www.wikipedia.org/wiki/", value := v })

/-- One run of the loop body of `writeOsmiumTagList`. -/
def osm2ttl.writeOsmiumTagList.body (cfg : osm2ttl.Config) (s : osm2ttl.Term)
    (tag : List Nat × List Nat) : List osm2ttl.Triple :=
  osm2ttl.writeOsmiumTag cfg s tag ++
  (if !cfg.skipWikiLinks then
    (if tag.1 = bytes "wikidata" then
      osm2ttl.writeTriple s { pfx := bytes "osm", value := tag.1 }
        (.iri { pfx := bytes "wd", value := osm2ttl.wikidataValue tag.2 })
    else []) ++
    (if osm2ttl.endsWith tag.1 (bytes "wikipedia") ∧
        ¬ osm2ttl.contains tag.1 (bytes "fixme") then
      osm2ttl.wikipediaTriple s tag.2
    else [])
  else [])

/-- Source `writeOsmiumTagList(s, tags)`. -/
def osm2ttl.writeOsmiumTagList (cfg : osm2ttl.Config) (s : osm2ttl.Term)
    (tags : List (List Nat × List Nat)) : List osm2ttl.Triple :=
  tags.flatMap (osm2ttl.writeOsmiumTagList.body cfg s)

/-- One run of the loop body of `writeTagList`. The local `value` is rewritten
by the `wikidata` branch before the `wikipedia` branch reads it. -/
def osm2ttl.writeTagList.body (cfg : osm2ttl.Config) (s : osm2ttl.Term)
    (tag : List Nat × List Nat) : List osm2ttl.Triple :=
  let key := tag.1
  let value := tag.2
  osm2ttl.writeTag cfg s tag ++
  (if !cfg.skipWikiLinks then
    let value1 := if key = bytes "wikidata" then osm2ttl.wikidataValue value else value
    (if key = bytes "wikidata" then
      osm2ttl.writeTriple s { pfx := bytes "osm", value := key }
        (.iri { pfx := bytes "wd", value := value1 })
    else []) ++
    (if key = bytes "wikipedia" then osm2ttl.wikipediaTriple s value1 else [])
  else [])

/-- Source `writeTagList(s, tags)`. -/
def osm2ttl.writeTagList (cfg : osm2ttl.Config) (s : osm2ttl.Term)
    (tags : List (List Nat × List Nat)) : List osm2ttl.Triple :=
  tags.flatMap (osm2ttl.writeTagList.body cfg s)

/-- The loop of `writeOsmiumRelationMembers`: `i` is the position counter (32
bits), `b` the number the next blank node gets. -/
def osm2ttl.writeOsmiumRelationMembers.loop (cfg : osm2ttl.Config) (s : osm2ttl.Term) :
    List osm2ttl.RelationMember → Nat → Nat → List osm2ttl.Triple
  | [], _, _ => []
  | member :: r, i, b =>
    let role := member.role
    let first :=
      if role ≠ [] ∧ role ≠ bytes "outer" ∧ role ≠ bytes "inner" then
        osm2ttl.writeTriple s { pfx := bytes "osmrel", value := role }
          (.iri
            { pfx := bytes "osm" ++
                (if osm2ttl.item_type_to_name member.type = bytes "relation" then bytes "rel"
                  else bytes "way")
              value := to_string member.ref })
      else []
    if !cfg.expandedData then
      first ++ osm2ttl.writeOsmiumRelationMembers.loop cfg s r i b
    else
      let role := if role = [] then bytes "member" else role
      let i := (i + 1) % 4294967296
      first ++
      osm2ttl.writeTriple s { pfx := bytes "osmrel", value := bytes "membership" } (.blank b) ++
      osm2ttl.writeTriple (.blank b) { pfx := bytes "osmrel", value := role }
        (.iri
          { pfx := bytes "osm" ++ osm2ttl.item_type_to_name member.type
            value := to_string member.ref }) ++
      osm2ttl.writeTriple (.blank b) { pfx := bytes "osmm", value := bytes "pos" }
        (.literal
          { value := .text (to_string i)
            datatype := some { pfx := bytes "xsd", value := bytes "integer" } }) ++
      osm2ttl.writeOsmiumRelationMembers.loop cfg s r i (b + 1)

/-- Source `writeOsmiumRelationMembers(s, members)`; `b` is the number the next
blank node gets. -/
def osm2ttl.writeOsmiumRelationMembers (cfg : osm2ttl.Config) (s : osm2ttl.Term)
    (members : List osm2ttl.RelationMember) (b : Nat) : List osm2ttl.Triple :=
  osm2ttl.writeOsmiumRelationMembers.loop cfg s members 0 b

/-- The loop of `writeOsmiumWayNodeList`. -/
def osm2ttl.writeOsmiumWayNodeList.loop (s : osm2ttl.Term) :
    List osm2ttl.NodeRef → Nat → Nat → List osm2ttl.Triple
  | [], _, _ => []
  | nodeRef :: r, i, b =>
    let i := (i + 1) % 4294967296
    osm2ttl.writeTriple s { pfx := bytes "osmway", value := bytes "node" } (.blank b) ++
    osm2ttl.writeTriple (.blank b) { pfx := bytes "osmway", value := bytes "node" }
      (.iri { pfx := bytes "osmnode", value := to_string nodeRef.ref }) ++
    osm2ttl.writeTriple (.blank b) { pfx := bytes "osmm", value := bytes "pos" }
      (.literal
        { value := .text (to_string i)
          datatype := some { pfx := bytes "xsd", value := bytes "integer" } }) ++
    osm2ttl.writeOsmiumWayNodeList.loop s r i (b + 1)

/-- Source `writeOsmiumWayNodeList(s, nodes)`. -/
def osm2ttl.writeOsmiumWayNodeList (cfg : osm2ttl.Config) (s : osm2ttl.Term)
    (nodes : List osm2ttl.NodeRef) (b : Nat) : List osm2ttl.Triple :=
  if !cfg.expandedData then []
  else osm2ttl.writeOsmiumWayNodeList.loop s nodes 0 b

/-- The counting loop of `writeOsmiumWay`: `last` and `numUniquePoints` after
the nodes `nodes`. -/
def osm2ttl.numUniquePoints.loop :
    List osm2ttl.NodeRef → osm2ttl.Location → Nat → Nat
  | [], _, numUniquePoints => numUniquePoints
  | it :: r, last, numUniquePoints =>
    if last ≠ it.location then osm2ttl.numUniquePoints.loop r it.location (numUniquePoints + 1)
    else osm2ttl.numUniquePoints.loop r last numUniquePoints

/-- The value of `numUniquePoints` after the counting loop of `writeOsmiumWay`. -/
def osm2ttl.numUniquePoints (way : osm2ttl.Way) : Nat :=
  osm2ttl.numUniquePoints.loop way.nodes osm2ttl.Location.undefined 0

/-- The library call `way.is_closed()`: the first and the last node reference
have the same id. It must not be called on a way without nodes; the model
answers no there. -/
def osm2ttl.is_closed (way : osm2ttl.Way) : Bool :=
  match way.nodes.head?, way.nodes.getLast? with
  | some a, some b => decide (a.ref = b.ref)
  | _, _ => false

/-- Source `writeOsmiumWay(way)`; `b` is the number the next blank node gets.
The element access `way.nodes()[0]` of the last branch is outside the list for
a way without nodes. -/
def osm2ttl.writeOsmiumWay (cfg : osm2ttl.Config) (way : osm2ttl.Way) (b : Nat) :
    Res (List osm2ttl.Triple) :=
  let s : osm2ttl.Term := .iri { pfx := bytes "osmway", value := to_string way.id }
  let t1 := osm2ttl.writeTriple s { pfx := bytes "rdf", value := bytes "type" }
    (.iri { pfx := bytes "osm", value := bytes "way" })
  let t2 := osm2ttl.writeOsmiumTagList cfg s way.tags
  let t3 := osm2ttl.writeOsmiumWayNodeList cfg s way.nodes b
  let numUniquePoints := osm2ttl.numUniquePoints way
  let wkt : osm2ttl.IRI := { pfx := bytes "geo", value := bytes "wktLiteral" }
  let geometry : Res (List osm2ttl.Triple) :=
    if numUniquePoints > 3 ∧ osm2ttl.is_closed way then
      .ok (osm2ttl.writeTriple s { pfx := bytes "geo", value := bytes "hasGeometry" }
        (.literal { value := .polygon way, datatype := some wkt }))
    else if numUniquePoints > 1 then
      .ok (osm2ttl.writeTriple s { pfx := bytes "geo", value := bytes "hasGeometry" }
        (.literal { value := .linestring way, datatype := some wkt }))
    else
      match way.nodes.get? 0 with
      | some n =>
        .ok (osm2ttl.writeTriple s { pfx := bytes "geo", value := bytes "hasGeometry" }
          (.literal { value := .point n, datatype := some wkt }))
      | none => .error .out_of_range
  let t5 :=
    if cfg.metaData then
      osm2ttl.writeTriple s { pfx := bytes "osmway", value := bytes "is_closed" }
        (.literal
          { value := .text (if osm2ttl.is_closed way then bytes "yes" else bytes "no")
            datatype := none }) ++
      osm2ttl.writeTriple s { pfx := bytes "osmway", value := bytes "nodeCount" }
        (.literal { value := .text (to_string way.nodes.length), datatype := none }) ++
      osm2ttl.writeTriple s { pfx := bytes "osmway", value := bytes "uniqueNodeCount" }
        (.literal { value := .text (to_string numUniquePoints), datatype := none })
    else []
  let t6 :=
    if cfg.addEnvelope then
      osm2ttl.writeTriple s { pfx := bytes "osm", value := bytes "envelope" }
        (.literal { value := .envelope way, datatype := none })
    else []
  match geometry with
  | .ok t4 => .ok (t1 ++ t2 ++ t3 ++ t4 ++ t5 ++ t6)
  | .error e => .error e

/-- The key `k` with every ASCII space replaced by `_`. -/
def osm2ttl.replaceSpaces (k : List Nat) : List Nat :=
  k.map (fun c => if c = 0x20 then 0x5F else c)

/-- The node counts as a new position in the loop of `writeOsmiumWay`: its
location differs from that of the node before it (from the undefined location
for the first node). -/
def osm2ttl.changes : osm2ttl.Location → List osm2ttl.NodeRef → Nat
  | _, [] => 0
  | prev, n :: r =>
    (if n.location ≠ prev then 1 else 0) + osm2ttl.changes n.location r

/-! ## Lemmas -/

theorem foldl_quote (s : List Nat) (acc : List Nat) :
    s.foldl (fun tmp c =>
      if c = 0x22 then tmp ++ [0x5C, 0x22]
      else if c = 0x5C then tmp ++ [0x5C, 0x5C]
      else if c = 0x0A then tmp ++ [0x5C, 0x6E]
      else if c = 0x0D then tmp ++ [0x5C, 0x72]
      else tmp ++ [c]) acc = acc ++ quoteBody s := by
  induction s generalizing acc with
  | nil => simp [quoteBody]
  | cons c s ih =>
    simp only [List.foldl_cons, quoteBody, quoteEscape]
    rw [ih]
    split_ifs <;> simp

theorem STRING_LITERAL_QUOTE_eq (s : List Nat) :
    STRING_LITERAL_QUOTE s = [0x22] ++ quoteBody s ++ [0x22] := by
  unfold STRING_LITERAL_QUOTE
  simp only [foldl_quote]

theorem quoteBody_no_LF_CR (s : List Nat) : 0x0A ∉ quoteBody s ∧ 0x0D ∉ quoteBody s := by
  induction s with
  | nil => simp [quoteBody]
  | cons c s ih =>
    obtain ⟨h1, h2⟩ := ih
    simp only [quoteBody, quoteEscape]
    split_ifs <;> simp_all
    omega

theorem escapedBody_quoteBody (s : List Nat) : escapedBody (quoteBody s) = true := by
  induction s with
  | nil => simp [quoteBody, escapedBody]
  | cons c s ih =>
    simp only [quoteBody, quoteEscape]
    split_ifs with h1 h2 h3 h4
    · simp [escapedBody, ih]
    · simp [escapedBody, ih]
    · simp [escapedBody, ih]
    · simp [escapedBody, ih]
    · cases hq : quoteBody s with
      | nil => simp [escapedBody, h1, h2, h3, h4]
      | cons d r =>
        rw [hq] at ih
        simp [escapedBody, h1, h2, h3, h4, ih]

theorem unescapeBody_quoteBody (s : List Nat) : unescapeBody (quoteBody s) = s := by
  induction s with
  | nil => simp [quoteBody, unescapeBody]
  | cons c s ih =>
    simp only [quoteBody, quoteEscape]
    split_ifs with h1 h2 h3 h4
    · simp [unescapeBody, ih, h1]
    · simp [unescapeBody, ih, h2]
    · simp [unescapeBody, ih, h3]
    · simp [unescapeBody, ih, h4]
    · cases hq : quoteBody s with
      | nil =>
        rw [hq] at ih
        simp [unescapeBody, ← ih]
      | cons d r =>
        rw [hq] at ih
        simp [unescapeBody, h2, ih]

theorem parseQuoted_STRING_LITERAL_QUOTE (s : List Nat) :
    parseQuoted (STRING_LITERAL_QUOTE s) = s := by
  rw [STRING_LITERAL_QUOTE_eq]
  simp [parseQuoted, unescapeBody_quoteBody]

/-! ## Claims -/

/-- C2: for every byte string s, STRING_LITERAL_QUOTE(s) is a double quote,
then for each byte of s in order its escape (backslash+quote for the quote, two
backslashes for the backslash, backslash+n for LF, backslash+r for CR, the byte
itself otherwise), then a closing double quote. The text between the outer
quotes contains no LF and no CR, and read from left to right every backslash
in it starts one of the four two-character escapes, no quote standing outside
such an escape. -/
theorem STRING_LITERAL_QUOTE_spec (s : List Nat) :
    STRING_LITERAL_QUOTE s = [0x22] ++ s.flatMap quoteEscape ++ [0x22] ∧
    0x0A ∉ s.flatMap quoteEscape ∧ 0x0D ∉ s.flatMap quoteEscape ∧
    escapedBody (s.flatMap quoteEscape) = true := by
  have hb : s.flatMap quoteEscape = quoteBody s := by
    induction s with
    | nil => rfl
    | cons c s ih => simp [quoteBody, ih]
  rw [hb]
  exact ⟨STRING_LITERAL_QUOTE_eq s, (quoteBody_no_LF_CR s).1, (quoteBody_no_LF_CR s).2,
    escapedBody_quoteBody s⟩

/-- C3: with parse the inverse reading of a quoted literal, for every byte
string s parse(STRING_LITERAL_QUOTE(s)) = s, hence
STRING_LITERAL_QUOTE(parse(STRING_LITERAL_QUOTE(s))) = STRING_LITERAL_QUOTE(s),
and STRING_LITERAL_QUOTE is injective. -/
theorem STRING_LITERAL_QUOTE_roundtrip :
    (∀ s : List Nat, parseQuoted (STRING_LITERAL_QUOTE s) = s) ∧
    (∀ s : List Nat,
      STRING_LITERAL_QUOTE (parseQuoted (STRING_LITERAL_QUOTE s)) = STRING_LITERAL_QUOTE s) ∧
    Function.Injective STRING_LITERAL_QUOTE := by
  refine ⟨parseQuoted_STRING_LITERAL_QUOTE, fun s => ?_, fun a b h => ?_⟩
  · rw [parseQuoted_STRING_LITERAL_QUOTE]
  · have := congrArg parseQuoted h
    simpa [parseQuoted_STRING_LITERAL_QUOTE] using this

set_option maxRecDepth 100000 in
theorem utf8Length_byte : ∀ b < 256, utf8Length b =
    (if b < 0x80 then .ok 1 else if 0xC0 ≤ b ∧ b < 0xE0 then .ok 2
     else if 0xE0 ≤ b ∧ b < 0xF0 then .ok 3 else if 0xF0 ≤ b ∧ b < 0xF8 then .ok 4
     else .error .domain_error) := by
  decide

theorem and_0x3F (x : Nat) : x &&& 0x3F = x % 64 := Nat.and_pow_two_sub_one_eq_mod x 6
theorem and_0x1F (x : Nat) : x &&& 0x1F = x % 32 := Nat.and_pow_two_sub_one_eq_mod x 5
theorem and_0x0F (x : Nat) : x &&& 0x0F = x % 16 := Nat.and_pow_two_sub_one_eq_mod x 4
theorem and_0x07 (x : Nat) : x &&& 0x07 = x % 8 := Nat.and_pow_two_sub_one_eq_mod x 3
theorem and_0x7F (x : Nat) : x &&& 0x7F = x % 128 := Nat.and_pow_two_sub_one_eq_mod x 7
theorem and_0xFF (x : Nat) : x &&& 0xFF = x % 256 := Nat.and_pow_two_sub_one_eq_mod x 8

theorem shl_or (a b i : Nat) (h : b < 2 ^ i) : (a <<< i) ||| b = a * 2 ^ i + b := by
  rw [Nat.shiftLeft_eq, Nat.mul_comm, Nat.mul_add_lt_is_or h]

@[simp] theorem Res.ok_bind {α β : Type} (a : α) (f : α → Res β) :
    (Res.ok a >>= f) = f a := rfl

@[simp] theorem Res.error_bind {α β : Type} (e : Err) (f : α → Res β) :
    ((Res.error e : Res α) >>= f) = Res.error e := rfl

@[simp] theorem Res.pure_eq {α : Type} (a : α) : (pure a : Res α) = Res.ok a := rfl

theorem utf8Length_range (b n : Nat) (hb : b < 256)
    (h : (n = 1 ∧ b < 0x80) ∨ (n = 2 ∧ 0xC0 ≤ b ∧ b < 0xE0) ∨
      (n = 3 ∧ 0xE0 ≤ b ∧ b < 0xF0) ∨ (n = 4 ∧ 0xF0 ≤ b ∧ b < 0xF8)) :
    utf8Length b = .ok n := by
  rw [utf8Length_byte b hb]
  rcases h with ⟨rfl, h⟩ | ⟨rfl, h⟩ | ⟨rfl, h⟩ | ⟨rfl, h⟩
  · simp [h]
  · rw [if_neg (by omega), if_pos h]
  · rw [if_neg (by omega), if_neg (by omega), if_pos h]
  · rw [if_neg (by omega), if_neg (by omega), if_neg (by omega), if_pos h]

/-- Decoding inverts encoding, for every codepoint up to 0x1FFFFF. -/
theorem utf8Codepoint_utf8Encode (c : Nat) (hc : c < 0x200000) :
    utf8Codepoint (utf8Encode c) = .ok c := by
  unfold utf8Encode
  split_ifs with h1 h2 h3
  · have hl : utf8Length c = .ok 1 := utf8Length_range c 1 (by omega) (by omega)
    simp only [utf8Codepoint, utf8Length_sv, hl, Res.ok_bind, charAt, List.get?]
    simp [and_0x7F]
    omega
  · have hl : utf8Length (0xC0 + c / 64) = .ok 2 :=
      utf8Length_range _ 2 (by omega) (by omega)
    simp only [utf8Codepoint, utf8Length_sv, hl, Res.ok_bind, charAt, List.get?]
    simp only [and_0x1F, and_0x3F]
    have e1 : (0xC0 + c / 64) % 32 = c / 64 := by omega
    have e2 : (0x80 + c % 64) % 64 = c % 64 := by omega
    simp [e1, e2]
    rw [shl_or _ _ 6 (by omega)]
    omega
  · have hl : utf8Length (0xE0 + c / 4096) = .ok 3 :=
      utf8Length_range _ 3 (by omega) (by omega)
    simp only [utf8Codepoint, utf8Length_sv, hl, Res.ok_bind, charAt, List.get?]
    simp only [and_0x0F, and_0x3F]
    have e1 : (0xE0 + c / 4096) % 16 = c / 4096 := by omega
    have e2 : (0x80 + c / 64 % 64) % 64 = c / 64 % 64 := by omega
    have e3 : (0x80 + c % 64) % 64 = c % 64 := by omega
    simp [e1, e2, e3]
    rw [Nat.lor_assoc, shl_or _ _ 6 (by omega), shl_or _ _ 12 (by omega)]
    omega
  · have hl : utf8Length (0xF0 + c / 262144) = .ok 4 :=
      utf8Length_range _ 4 (by omega) (by omega)
    simp only [utf8Codepoint, utf8Length_sv, hl, Res.ok_bind, charAt, List.get?]
    simp only [and_0x07, and_0x3F]
    have e1 : (0xF0 + c / 262144) % 8 = c / 262144 := by omega
    have e2 : (0x80 + c / 4096 % 64) % 64 = c / 4096 % 64 := by omega
    have e3 : (0x80 + c / 64 % 64) % 64 = c / 64 % 64 := by omega
    have e4 : (0x80 + c % 64) % 64 = c % 64 := by omega
    simp [e1, e2, e3, e4]
    rw [Nat.lor_assoc, Nat.lor_assoc, shl_or _ _ 6 (by omega), shl_or _ _ 12 (by omega),
      shl_or _ _ 18 (by omega)]
    omega

theorem utf8Encode_length_pos (c : Nat) : 1 ≤ (utf8Encode c).length := by
  unfold utf8Encode
  split_ifs <;> simp

theorem utf8Encode_ascii (c : Nat) (h : c < 0x80) : utf8Encode c = [c] := by
  simp [utf8Encode, h]

theorem utf8Encode_multi (c : Nat) (h1 : 0x80 ≤ c) (h2 : c < 0x110000) :
    ∃ b t, utf8Encode c = b :: t ∧ 0xC0 ≤ b ∧ b < 0xF8 ∧ utf8Length b = .ok (t.length + 1) := by
  unfold utf8Encode
  split_ifs with h3 h4 h5
  · omega
  · exact ⟨_, _, rfl, by omega, by omega, utf8Length_range _ 2 (by omega) (by omega)⟩
  · exact ⟨_, _, rfl, by omega, by omega, utf8Length_range _ 3 (by omega) (by omega)⟩
  · exact ⟨_, _, rfl, by omega, by omega, utf8Length_range _ 4 (by omega) (by omega)⟩

theorem isScalar_lt (c : Nat) (h : isScalar c) : c < 0x110000 := by
  unfold isScalar at h; omega

theorem Scalars_cons (c : Nat) (cs : List Nat) (h : Scalars (c :: cs)) :
    isScalar c ∧ Scalars cs := by
  unfold Scalars at *
  exact ⟨h c (by simp), fun x hx => h x (by simp [hx])⟩

theorem scan_utf8 (body : List Nat → Nat → Res (List Nat × Nat))
    (f : Bool → Nat → Bool → Res (List Nat)) (size : Nat)
    (hbody : ∀ (c : Nat) (cs : List Nat) (pos : Nat), isScalar c → Scalars cs →
      pos + (utf8 (c :: cs)).length = size →
      body (utf8 (c :: cs)) pos =
        (f (decide (pos = 0)) c cs.isEmpty).bind
          (fun chunk => .ok (chunk, (utf8Encode c).length))) :
    ∀ (cs : List Nat) (fuel pos : Nat) (tmp : List Nat), Scalars cs →
      (utf8 cs).length ≤ fuel → pos + (utf8 cs).length = size →
      scan body fuel (utf8 cs) pos tmp = charScan f (decide (pos = 0)) cs tmp := by
  intro cs
  induction cs with
  | nil =>
    intro fuel pos tmp _ _ _
    cases fuel <;> simp [utf8, scan, charScan]
  | cons c cs ih =>
    intro fuel pos tmp hs hf hp
    obtain ⟨hc, hcs⟩ := Scalars_cons c cs hs
    have hlen := utf8Encode_length_pos c
    have hb := hbody c cs pos hc hcs hp
    have hu : utf8 (c :: cs) = utf8Encode c ++ utf8 cs := rfl
    rw [hu, List.length_append] at hf hp
    obtain ⟨b, r, hbr⟩ : ∃ b r, utf8 (c :: cs) = b :: r := by
      cases h : utf8 (c :: cs) with
      | nil => rw [hu] at h; simp at h; rw [h.1] at hlen; simp at hlen
      | cons b r => exact ⟨b, r, rfl⟩
    obtain ⟨fuel, rfl⟩ : ∃ k, fuel = k + 1 := ⟨fuel - 1, by omega⟩
    rw [hbr] at hb ⊢
    rw [scan, hb, charScan]
    cases hfc : f (decide (pos = 0)) c cs.isEmpty with
    | error e => simp [Res.bind]
    | ok chunk =>
      simp only [Res.bind]
      rw [← hbr, hu, List.drop_left]
      have := ih fuel (pos + (utf8Encode c).length) (tmp ++ chunk) hcs (by omega) (by omega)
      rw [this]
      have hd : decide (pos + (utf8Encode c).length = 0) = false :=
        decide_eq_false (by omega)
      rw [hd]

set_option maxRecDepth 100000 in
theorem charToU32_ascii : ∀ c < 128, charToU32 c = c := by decide

set_option maxRecDepth 100000 in
theorem UCHAR_byte : ∀ n < 256, UCHAR n = [0x5C, 0x75] ++ hex4 n := by decide

set_option maxRecDepth 100000 in
theorem encodePERCENT_byte : ∀ n < 256, encodePERCENT n = 0x25 :: hex2 n := by decide

theorem schar_ascii (c : Nat) (h : c < 128) : schar c = (c : Int) := by
  simp [schar, h]

theorem schar_high (b : Nat) (h : 128 ≤ b) : schar b = (b : Int) - 256 := by
  have : ¬ b < 128 := by omega
  simp [schar, this]

theorem iriForbiddenChar_ascii (c : Nat) (h : c < 128) :
    iriForbiddenChar c = decide (isIRIREFForbidden c) := by
  unfold iriForbiddenChar isIRIREFForbidden
  rw [schar_ascii c h]
  simp only [decide_eq_decide]
  omega

theorem iriForbiddenChar_high (b : Nat) (h1 : 128 ≤ b) (h2 : b < 256) :
    iriForbiddenChar b = false := by
  unfold iriForbiddenChar
  rw [schar_high b h1]
  simp only [decide_eq_false_iff_not]
  omega

theorem not_forbidden_high (c : Nat) (h : 0x80 ≤ c) : ¬ isIRIREFForbidden c := by
  unfold isIRIREFForbidden; omega

theorem take_utf8Encode (c : Nat) (cs : List Nat) :
    (utf8 (c :: cs)).take (utf8Encode c).length = utf8Encode c := by
  show (utf8Encode c ++ utf8 cs).take _ = _
  exact List.take_left _ _

theorem encodeIRIREF_body_char (c : Nat) (cs : List Nat) (pos : Nat) (hc : isScalar c) :
    encodeIRIREF.body (utf8 (c :: cs)) pos =
      (Res.ok (iriEscapeUCHAR c)).bind (fun chunk => .ok (chunk, (utf8Encode c).length)) := by
  have hlt := isScalar_lt c hc
  by_cases h : c < 0x80
  · have hu : utf8 (c :: cs) = c :: utf8 cs := by
      show utf8Encode c ++ utf8 cs = _
      rw [utf8Encode_ascii c h]; rfl
    rw [hu, utf8Encode_ascii c h]
    simp only [encodeIRIREF.body, iriForbiddenChar_ascii c h, iriEscapeUCHAR, Res.bind]
    by_cases hf : isIRIREFForbidden c
    · simp [hf, UCHAR_char, charToU32_ascii c h, UCHAR_byte c (by omega)]
    · have hl : utf8Length c = .ok 1 := utf8Length_range c 1 (by omega) (by omega)
      simp [hf, hl, utf8Encode_ascii c h]
  · obtain ⟨b, t, hbt, hb1, hb2, hl⟩ := utf8Encode_multi c (by omega) hlt
    have ht := take_utf8Encode c cs
    have hu : utf8 (c :: cs) = b :: (t ++ utf8 cs) := by
      show utf8Encode c ++ utf8 cs = _
      rw [hbt]; rfl
    rw [hbt] at ht
    rw [hu] at ht ⊢
    simp only [encodeIRIREF.body, iriForbiddenChar_high b (by omega) (by omega), iriEscapeUCHAR,
      Res.bind, if_neg (not_forbidden_high c (by omega)), hl, Res.ok_bind, hbt]
    simp only [List.length_cons] at ht
    simp [ht]

theorem encodeIRIREF_bodyQLEVER_char (c : Nat) (cs : List Nat) (pos : Nat) (hc : isScalar c) :
    encodeIRIREF.bodyQLEVER (utf8 (c :: cs)) pos =
      (Res.ok (iriEscapePERCENT c)).bind (fun chunk => .ok (chunk, (utf8Encode c).length)) := by
  have hlt := isScalar_lt c hc
  by_cases h : c < 0x80
  · have hu : utf8 (c :: cs) = c :: utf8 cs := by
      show utf8Encode c ++ utf8 cs = _
      rw [utf8Encode_ascii c h]; rfl
    have hl : utf8Length c = .ok 1 := utf8Length_range c 1 (by omega) (by omega)
    have hcp : utf8Codepoint [c] = .ok c := by
      have := utf8Codepoint_utf8Encode c (by omega)
      rwa [utf8Encode_ascii c h] at this
    rw [hu, utf8Encode_ascii c h]
    simp only [encodeIRIREF.bodyQLEVER, iriForbiddenChar_ascii c h, iriEscapePERCENT, Res.bind,
      hl, Res.ok_bind]
    by_cases hf : isIRIREFForbidden c
    · simp [hf, encodePERCENT_sv, hcp, encodePERCENT_byte c (by omega)]
    · simp [hf, utf8Encode_ascii c h]
  · obtain ⟨b, t, hbt, hb1, hb2, hl⟩ := utf8Encode_multi c (by omega) hlt
    have ht := take_utf8Encode c cs
    have hu : utf8 (c :: cs) = b :: (t ++ utf8 cs) := by
      show utf8Encode c ++ utf8 cs = _
      rw [hbt]; rfl
    rw [hbt] at ht
    rw [hu] at ht ⊢
    simp only [encodeIRIREF.bodyQLEVER, iriForbiddenChar_high b (by omega) (by omega),
      iriEscapePERCENT, Res.bind, if_neg (not_forbidden_high c (by omega)), hl, Res.ok_bind, hbt]
    simp only [List.length_cons] at ht
    simp [ht]

theorem charScan_total (g : Nat → List Nat) (cs : List Nat) (first : Bool) (tmp : List Nat) :
    charScan (fun _ c _ => .ok (g c)) first cs tmp = .ok (tmp ++ cs.flatMap g) := by
  induction cs generalizing first tmp with
  | nil => simp [charScan]
  | cons c cs ih => simp [charScan, Res.bind, ih]

theorem encodeIRIREF_generic_utf8 (cs : List Nat) (hs : Scalars cs) :
    scan encodeIRIREF.body (utf8 cs).length (utf8 cs) 0 [] =
      .ok (cs.flatMap iriEscapeUCHAR) := by
  have := scan_utf8 encodeIRIREF.body (fun _ c _ => .ok (iriEscapeUCHAR c)) (utf8 cs).length
    (fun c cs pos hc _ _ => encodeIRIREF_body_char c cs pos hc) cs (utf8 cs).length 0 []
    hs (le_refl _) (by simp)
  rw [this, charScan_total]
  simp

theorem encodeIRIREF_QLEVER_utf8 (cs : List Nat) (hs : Scalars cs) :
    encodeIRIREF .QLEVER (utf8 cs) = .ok (cs.flatMap iriEscapePERCENT) := by
  have := scan_utf8 encodeIRIREF.bodyQLEVER (fun _ c _ => .ok (iriEscapePERCENT c))
    (utf8 cs).length
    (fun c cs pos hc _ _ => encodeIRIREF_bodyQLEVER_char c cs pos hc) cs (utf8 cs).length 0 []
    hs (le_refl _) (by simp)
  show scan encodeIRIREF.bodyQLEVER (utf8 cs).length (utf8 cs) 0 [] = _
  rw [this, charScan_total]
  simp

theorem encodeIRIREF_UCHAR_utf8 (T : Format) (hT : T = .NT ∨ T = .TTL) (cs : List Nat)
    (hs : Scalars cs) : encodeIRIREF T (utf8 cs) = .ok (cs.flatMap iriEscapeUCHAR) := by
  rcases hT with rfl | rfl
  · exact encodeIRIREF_generic_utf8 cs hs
  · exact encodeIRIREF_generic_utf8 cs hs

/-- C1: for the NT and TTL formats and every well-formed UTF-8 string (the
UTF-8 text of scalar values cs), encodeIRIREF returns the concatenation,
character by character, of backslash, u and four zero-padded lower-case
hexadecimal digits for each IRIREF-forbidden character and of the unchanged
UTF-8 bytes of every other character; IRIREF(p, v) is the text
< + encodeIRIREF(p) + encodeIRIREF(v) + >. -/
theorem encodeIRIREF_UCHAR_spec (T : Format) (hT : T = .NT ∨ T = .TTL) :
    (∀ cs : List Nat, Scalars cs →
      encodeIRIREF T (utf8 cs) = .ok (cs.flatMap iriEscapeUCHAR)) ∧
    (∀ ps vs : List Nat, Scalars ps → Scalars vs →
      IRIREF T (utf8 ps) (utf8 vs) =
        .ok ([0x3C] ++ ps.flatMap iriEscapeUCHAR ++ vs.flatMap iriEscapeUCHAR ++ [0x3E])) ∧
    (∀ p v a b : List Nat, encodeIRIREF T p = .ok a → encodeIRIREF T v = .ok b →
      IRIREF T p v = .ok ([0x3C] ++ a ++ b ++ [0x3E])) := by
  refine ⟨fun cs hs => encodeIRIREF_UCHAR_utf8 T hT cs hs, fun ps vs hp hv => ?_,
    fun p v a b ha hb => ?_⟩
  · simp [IRIREF, encodeIRIREF_UCHAR_utf8 T hT ps hp, encodeIRIREF_UCHAR_utf8 T hT vs hv]
  · simp [IRIREF, ha, hb]

theorem encodeIRIREF_UCHAR_spec_witness :
    (Format.NT = .NT ∨ Format.NT = .TTL) ∧
    Scalars [0x61, 0x20, 0xE9] ∧
    encodeIRIREF .NT (utf8 [0x61, 0x20, 0xE9]) =
      .ok ([0x61, 0x20, 0xE9].flatMap iriEscapeUCHAR) :=
  ⟨Or.inl rfl, by decide,
    (encodeIRIREF_UCHAR_spec .NT (Or.inl rfl)).1 [0x61, 0x20, 0xE9] (by decide)⟩

theorem utf8_eq_nil (cs : List Nat) : utf8 cs = [] ↔ cs = [] := by
  cases cs with
  | nil => simp [utf8]
  | cons c cs =>
    have := utf8Encode_length_pos c
    simp only [utf8, List.append_eq_nil, reduceCtorEq, iff_false, not_and]
    intro h
    rw [h] at this
    simp at this

theorem utf8_length_pos (c : Nat) (cs : List Nat) : 1 ≤ (utf8 (c :: cs)).length := by
  have := utf8Encode_length_pos c
  simp only [utf8, List.length_append]
  omega

theorem encodePERCENT_char_ascii (c : Nat) (h : c < 128) :
    encodePERCENT_char c = 0x25 :: hex2 c := by
  rw [encodePERCENT_char, charToU32_ascii c h, encodePERCENT_byte c (by omega)]

theorem encodePN_LOCAL_body_flags (c size pos size' pos' : Nat) (r r' : List Nat)
    (h : c < 0x80) (h1 : pos > 0 ↔ pos' > 0) (h2 : pos < size - 1 ↔ pos' < size' - 1) :
    encodePN_LOCAL.body size (c :: r) pos = encodePN_LOCAL.body size' (c :: r') pos' := by
  have hn : (c : Int) ≥ 0x00 := Int.ofNat_nonneg c
  simp only [encodePN_LOCAL.body, schar_ascii c h, h1, h2, if_pos hn]

set_option maxRecDepth 100000 in
theorem encodePN_LOCAL_body_rep : ∀ c < 128, ∀ b1 b2 : Bool,
    encodePN_LOCAL.body ((if b1 then 0 else 1) + (if b2 then 1 else 2))
      (c :: (if b2 then [] else [0])) (if b1 then 0 else 1) =
      .ok (pnLocalAscii b1 b2 c, 1) := by
  decide

theorem encodePN_LOCAL_body_ascii (c size pos : Nat) (r : List Nat) (h : c < 0x80)
    (hp : pos + (r.length + 1) = size) :
    encodePN_LOCAL.body size (c :: r) pos =
      .ok (pnLocalAscii (decide (pos = 0)) r.isEmpty c, 1) := by
  rw [← encodePN_LOCAL_body_rep c h (decide (pos = 0)) r.isEmpty]
  apply encodePN_LOCAL_body_flags c _ _ _ _ _ _ h
  · by_cases hpos : pos = 0 <;> simp [hpos]
    omega
  · cases r with
    | nil => by_cases hpos : pos = 0 <;> simp [hpos] <;> simp at hp <;> omega
    | cons x xs => by_cases hpos : pos = 0 <;> simp [hpos] <;> simp at hp <;> omega

theorem base_code_iff (c : Nat) (h : 0x80 ≤ c) :
    ((c ≥ 0xC0 ∧ c ≤ 0xD6) ∨ (c ≥ 0xD8 ∧ c ≤ 0xF6) ∨
      (c ≥ 0xF8 ∧ c ≤ 0x2FF) ∨ (c ≥ 0x370 ∧ c ≤ 0x37D) ∨
      (c ≥ 0x37F ∧ c ≤ 0x1FFF) ∨ (c ≥ 0x200C ∧ c ≤ 0x200D) ∨
      (c ≥ 0x2070 ∧ c ≤ 0x218F) ∨ (c ≥ 0x2C00 ∧ c ≤ 0x2FEF) ∨
      (c ≥ 0x3001 ∧ c ≤ 0xD7FF) ∨ (c ≥ 0xF900 ∧ c ≤ 0xFDCF) ∨
      (c ≥ 0xFDF0 ∧ c ≤ 0xFFFD) ∨ (c ≥ 0x10000 ∧ c ≤ 0xEFFFF)) ↔ isPN_CHARS_BASE c := by
  unfold isPN_CHARS_BASE
  constructor
  · intro hA
    exact Or.inr (Or.inr hA)
  · rintro (hA | hA | hA)
    · omega
    · omega
    · exact hA

theorem extra_code_iff (c : Nat) :
    (c = 0xB7 ∨ (c ≥ 0x300 ∧ c ≤ 0x36F) ∨ (c ≥ 0x203F ∧ c ≤ 0x2040)) ↔ isPN_CHARS_extra c :=
  Iff.rfl

theorem encodePN_LOCAL_body_multi (c size pos : Nat) (cs : List Nat) (hc : isScalar c)
    (h : 0x80 ≤ c) :
    encodePN_LOCAL.body size (utf8 (c :: cs)) pos =
      (pnLocalChar (decide (pos = 0)) c cs.isEmpty).bind
        (fun chunk => .ok (chunk, (utf8Encode c).length)) := by
  have hlt := isScalar_lt c hc
  obtain ⟨b, t, hbt, hb1, hb2, hl⟩ := utf8Encode_multi c h hlt
  have ht := take_utf8Encode c cs
  have hcp := utf8Codepoint_utf8Encode c (by omega)
  have hu : utf8 (c :: cs) = b :: (t ++ utf8 cs) := by
    show utf8Encode c ++ utf8 cs = _
    rw [hbt]; rfl
  rw [hbt] at ht hcp
  rw [hu] at ht ⊢
  simp only [List.length_cons] at ht
  have hs := schar_high b (by omega)
  have c1 : ¬ (schar b = 0x3A ∨ schar b = 0x5F ∨ (schar b ≥ 0x41 ∧ schar b ≤ 0x5A) ∨
      (schar b ≥ 0x61 ∧ schar b ≤ 0x7A) ∨ (schar b ≥ 0x30 ∧ schar b ≤ 0x39)) := by omega
  have c2 : ¬ (schar b = 0x2E ∧ pos > 0 ∧ pos < size - 1) := by omega
  have c3 : ¬ (schar b = 0x2D ∧ pos > 0) := by omega
  have c4 : ¬ (schar b = 0x21 ∨ (schar b ≥ 0x23 ∧ schar b ≤ 0x2F) ∨ schar b = 0x3B ∨
      schar b = 0x3D ∨ schar b = 0x3F ∨ schar b = 0x40 ∨ schar b = 0x7E) := by omega
  have c5 : ¬ (schar b ≥ 0x00) := by omega
  have hnot : ¬ c < 0x80 := by omega
  have hfirst : pos > 0 ↔ decide (pos = 0) = false := by
    simp; omega
  simp only [encodePN_LOCAL.body, if_neg c1, if_neg c2, if_neg c3, if_neg c4, if_neg c5, hl,
    Res.ok_bind, ht, hcp, base_code_iff c h, extra_code_iff c, pnLocalChar, if_neg hnot, hbt,
    Res.pure_eq, List.length_cons]
  by_cases hA : isPN_CHARS_BASE c
  · simp only [if_pos hA, if_pos (Or.inl hA), Res.bind]
  · by_cases hB : pos > 0 ∧ isPN_CHARS_extra c
    · have hB2 : decide (pos = 0) = false ∧ isPN_CHARS_extra c := ⟨hfirst.1 hB.1, hB.2⟩
      simp only [if_neg hA, if_pos hB, if_pos (Or.inr hB2), Res.bind]
    · have hAB : ¬ (isPN_CHARS_BASE c ∨ decide (pos = 0) = false ∧ isPN_CHARS_extra c) := by
        rintro (h1 | h1)
        · exact hA h1
        · exact hB ⟨hfirst.2 h1.1, h1.2⟩
      simp only [if_neg hA, if_neg hB, if_neg hAB, Res.bind]

theorem encodePN_LOCAL_body_char (c size pos : Nat) (cs : List Nat) (hc : isScalar c)
    (hp : pos + (utf8 (c :: cs)).length = size) :
    encodePN_LOCAL.body size (utf8 (c :: cs)) pos =
      (pnLocalChar (decide (pos = 0)) c cs.isEmpty).bind
        (fun chunk => .ok (chunk, (utf8Encode c).length)) := by
  by_cases h : c < 0x80
  · have hu : utf8 (c :: cs) = c :: utf8 cs := by
      show utf8Encode c ++ utf8 cs = _
      rw [utf8Encode_ascii c h]; rfl
    rw [hu] at hp ⊢
    rw [encodePN_LOCAL_body_ascii c size pos (utf8 cs) h (by simpa using hp)]
    have he : (utf8 cs).isEmpty = cs.isEmpty := by
      cases cs with
      | nil => rfl
      | cons x xs =>
        have := utf8_length_pos x xs
        cases hx : utf8 (x :: xs) with
        | nil => rw [hx] at this; simp at this
        | cons y ys => rfl
    simp [pnLocalChar, h, he, Res.bind, utf8Encode_ascii c h]
  · exact encodePN_LOCAL_body_multi c size pos cs hc (by omega)

theorem encodePN_LOCAL_utf8 (cs : List Nat) (hs : Scalars cs) :
    encodePN_LOCAL (utf8 cs) = charScan pnLocalChar true cs [] := by
  have := scan_utf8 (encodePN_LOCAL.body (utf8 cs).length) pnLocalChar (utf8 cs).length
    (fun c cs pos hc _ hp => encodePN_LOCAL_body_char c _ pos cs hc hp) cs (utf8 cs).length 0 []
    hs (le_refl _) (by simp)
  simpa [encodePN_LOCAL] using this

theorem encodePN_PREFIX_body_flags (c size pos size' pos' : Nat) (r r' : List Nat)
    (h : c < 0x80) (h1 : pos > 0 ↔ pos' > 0) (h2 : pos < size - 1 ↔ pos' < size' - 1) :
    encodePN_PREFIX.body size (c :: r) pos = encodePN_PREFIX.body size' (c :: r') pos' := by
  have hl : utf8Length c = .ok 1 := utf8Length_range c 1 (by omega) (by omega)
  have t1 : ∀ l : List Nat, List.take 1 (c :: l) = [c] := fun _ => rfl
  simp only [encodePN_PREFIX.body, schar_ascii c h, h1, h2, hl, Res.ok_bind, t1]

set_option maxRecDepth 100000 in
theorem encodePN_PREFIX_body_rep : ∀ c < 128, ∀ b1 b2 : Bool,
    encodePN_PREFIX.body ((if b1 then 0 else 1) + (if b2 then 1 else 2))
      (c :: (if b2 then [] else [0])) (if b1 then 0 else 1) =
      (pnPrefixChar b1 c b2).bind (fun chunk => .ok (chunk, 1)) := by
  decide

theorem encodePN_PREFIX_body_ascii (c size pos : Nat) (r : List Nat) (h : c < 0x80)
    (hp : pos + (r.length + 1) = size) :
    encodePN_PREFIX.body size (c :: r) pos =
      (pnPrefixChar (decide (pos = 0)) c r.isEmpty).bind (fun chunk => .ok (chunk, 1)) := by
  rw [← encodePN_PREFIX_body_rep c h (decide (pos = 0)) r.isEmpty]
  apply encodePN_PREFIX_body_flags c _ _ _ _ _ _ h
  · by_cases hpos : pos = 0 <;> simp [hpos]
    omega
  · cases r with
    | nil => by_cases hpos : pos = 0 <;> simp [hpos] <;> simp at hp <;> omega
    | cons x xs => by_cases hpos : pos = 0 <;> simp [hpos] <;> simp at hp <;> omega

theorem isPN_CHARS_multi (c : Nat) (h : 0x80 ≤ c) (last : Bool) :
    (isPN_CHARS c ∨ (c = 0x2E ∧ last = false)) ↔ (isPN_CHARS_BASE c ∨ isPN_CHARS_extra c) := by
  unfold isPN_CHARS isPN_CHARS_U
  constructor
  · rintro (((h1 | h1) | h1 | h1 | h1) | h1)
    · exact Or.inl h1
    · omega
    · omega
    · omega
    · exact Or.inr h1
    · omega
  · rintro (h1 | h1)
    · exact Or.inl (Or.inl (Or.inl h1))
    · exact Or.inl (Or.inr (Or.inr (Or.inr h1)))

theorem encodePN_PREFIX_body_multi (c size pos : Nat) (cs : List Nat) (hc : isScalar c)
    (h : 0x80 ≤ c) :
    encodePN_PREFIX.body size (utf8 (c :: cs)) pos =
      (pnPrefixChar (decide (pos = 0)) c cs.isEmpty).bind
        (fun chunk => .ok (chunk, (utf8Encode c).length)) := by
  have hlt := isScalar_lt c hc
  obtain ⟨b, t, hbt, hb1, hb2, hl⟩ := utf8Encode_multi c h hlt
  have ht := take_utf8Encode c cs
  have hcp := utf8Codepoint_utf8Encode c (by omega)
  have hu : utf8 (c :: cs) = b :: (t ++ utf8 cs) := by
    show utf8Encode c ++ utf8 cs = _
    rw [hbt]; rfl
  rw [hbt] at ht hcp
  rw [hu] at ht ⊢
  simp only [List.length_cons] at ht
  have hs := schar_high b (by omega)
  have c1 : ¬ ((schar b ≥ 0x41 ∧ schar b ≤ 0x5A) ∨ (schar b ≥ 0x61 ∧ schar b ≤ 0x7A)) := by
    omega
  have c2 : ¬ (pos > 0 ∧ ((schar b ≥ 0x30 ∧ schar b ≤ 0x39) ∨ schar b = 0x5F ∨
      schar b = 0x2D)) := by omega
  have c3 : ¬ (pos > 0 ∧ (schar b = 0x2E ∧ pos < size - 1)) := by omega
  have hfirst : pos > 0 ↔ decide (pos = 0) = false := by
    simp; omega
  simp only [encodePN_PREFIX.body, if_neg c1, if_neg c2, if_neg c3, hl,
    Res.ok_bind, ht, hcp, base_code_iff c h, extra_code_iff c, pnPrefixChar, hbt,
    Res.pure_eq, List.length_cons, isPN_CHARS_multi c h]
  by_cases hA : isPN_CHARS_BASE c
  · simp only [if_pos hA, if_pos (Or.inl hA), Res.bind]
  · by_cases hB : pos > 0 ∧ isPN_CHARS_extra c
    · have hB2 : decide (pos = 0) = false ∧ (isPN_CHARS_BASE c ∨ isPN_CHARS_extra c) :=
        ⟨hfirst.1 hB.1, Or.inr hB.2⟩
      simp only [if_neg hA, if_pos hB, if_pos (Or.inr hB2), Res.bind]
    · have hAB : ¬ (isPN_CHARS_BASE c ∨
          decide (pos = 0) = false ∧ (isPN_CHARS_BASE c ∨ isPN_CHARS_extra c)) := by
        rintro (h1 | ⟨h1, h2 | h2⟩)
        · exact hA h1
        · exact hA h2
        · exact hB ⟨hfirst.2 h1, h2⟩
      simp only [if_neg hA, if_neg hB, if_neg hAB, Res.bind]

theorem utf8_isEmpty (cs : List Nat) : (utf8 cs).isEmpty = cs.isEmpty := by
  cases cs with
  | nil => rfl
  | cons x xs =>
    have := utf8_length_pos x xs
    cases hx : utf8 (x :: xs) with
    | nil => rw [hx] at this; simp at this
    | cons y ys => rfl

theorem encodePN_PREFIX_body_char (c size pos : Nat) (cs : List Nat) (hc : isScalar c)
    (hp : pos + (utf8 (c :: cs)).length = size) :
    encodePN_PREFIX.body size (utf8 (c :: cs)) pos =
      (pnPrefixChar (decide (pos = 0)) c cs.isEmpty).bind
        (fun chunk => .ok (chunk, (utf8Encode c).length)) := by
  by_cases h : c < 0x80
  · have hu : utf8 (c :: cs) = c :: utf8 cs := by
      show utf8Encode c ++ utf8 cs = _
      rw [utf8Encode_ascii c h]; rfl
    rw [hu] at hp ⊢
    rw [encodePN_PREFIX_body_ascii c size pos (utf8 cs) h (by simpa using hp)]
    simp [utf8_isEmpty, utf8Encode_ascii c h]
  · exact encodePN_PREFIX_body_multi c size pos cs hc (by omega)

theorem encodePN_PREFIX_utf8 (cs : List Nat) (hs : Scalars cs) :
    encodePN_PREFIX (utf8 cs) = charScan pnPrefixChar true cs [] := by
  have := scan_utf8 (encodePN_PREFIX.body (utf8 cs).length) pnPrefixChar (utf8 cs).length
    (fun c cs pos hc _ hp => encodePN_PREFIX_body_char c _ pos cs hc hp) cs (utf8 cs).length 0 []
    hs (le_refl _) (by simp)
  simpa [encodePN_PREFIX] using this

theorem charScan_pnLocalChar (cs : List Nat) (first : Bool) (tmp : List Nat) :
    charScan pnLocalChar first cs tmp =
      if pnLocalAccepts first cs then .ok (tmp ++ pnLocalText first cs)
      else .error .domain_error := by
  induction cs generalizing first tmp with
  | nil => simp [charScan, pnLocalAccepts, pnLocalText]
  | cons c cs ih =>
    simp only [charScan, pnLocalChar, pnLocalAccepts, pnLocalText, pnLocalEmit]
    by_cases h : c < 0x80
    · simp [Res.bind, ih, h]
    · by_cases h2 : isPN_CHARS_BASE c ∨ (first = false ∧ isPN_CHARS_extra c)
      · simp [Res.bind, ih, h, h2]
      · simp [Res.bind, h, h2]

theorem charScan_pnPrefixChar (cs : List Nat) (first : Bool) (tmp : List Nat) :
    charScan pnPrefixChar first cs tmp =
      if pnPrefixAccepts first cs then .ok (tmp ++ utf8 cs) else .error .domain_error := by
  induction cs generalizing first tmp with
  | nil => simp [charScan, pnPrefixAccepts, utf8]
  | cons c cs ih =>
    simp only [charScan, pnPrefixChar, pnPrefixAccepts, utf8]
    by_cases h2 : isPN_CHARS_BASE c ∨
        (first = false ∧ (isPN_CHARS c ∨ (c = 0x2E ∧ cs.isEmpty = false)))
    · rw [if_pos h2, decide_eq_true h2]
      simp [Res.bind, ih]
    · rw [if_neg h2, decide_eq_false h2]
      simp [Res.bind]

theorem utf8_ascii (s : List Nat) (h : ∀ b ∈ s, b < 0x80) : utf8 s = s := by
  induction s with
  | nil => rfl
  | cons b s ih =>
    have hb := h b (by simp)
    simp only [utf8, utf8Encode_ascii b hb]
    rw [ih (fun x hx => h x (by simp [hx]))]
    rfl

theorem Scalars_ascii (s : List Nat) (h : ∀ b ∈ s, b < 0x80) : Scalars s := by
  intro c hc
  have := h c hc
  unfold isScalar
  omega

theorem pnLocalAccepts_ascii (s : List Nat) (first : Bool) (h : ∀ b ∈ s, b < 0x80) :
    pnLocalAccepts first s = true := by
  induction s generalizing first with
  | nil => rfl
  | cons b s ih =>
    have hb := h b (by simp)
    simp [pnLocalAccepts, hb, ih false (fun x hx => h x (by simp [hx]))]

theorem utf8Encode_multi_iff (c : Nat) : 1 < (utf8Encode c).length ↔ 0x80 ≤ c := by
  unfold utf8Encode
  split_ifs <;> simp <;> omega

theorem pnLocalAccepts_false_iff (cs : List Nat) (first : Bool) :
    pnLocalAccepts first cs = false ↔
      ∃ pre c post, cs = pre ++ c :: post ∧ 0x80 ≤ c ∧ ¬ isPN_CHARS_BASE c ∧
        ¬ ((first = false ∨ pre ≠ []) ∧ isPN_CHARS_extra c) := by
  induction cs generalizing first with
  | nil => simp [pnLocalAccepts]
  | cons c cs ih =>
    simp only [pnLocalAccepts, Bool.and_eq_false_iff, decide_eq_false_iff_not]
    constructor
    · rintro (h | h)
      · refine ⟨[], c, cs, rfl, by omega, fun hb => h (Or.inr (Or.inl hb)), ?_⟩
        rintro ⟨hf | hf, he⟩
        · exact h (Or.inr (Or.inr ⟨hf, he⟩))
        · exact hf rfl
      · obtain ⟨pre, d, post, rfl, h1, h2, h3⟩ := (ih false).1 h
        refine ⟨c :: pre, d, post, rfl, h1, h2, ?_⟩
        rintro ⟨_, he⟩
        exact h3 ⟨Or.inl rfl, he⟩
    · rintro ⟨pre, d, post, heq, h1, h2, h3⟩
      cases pre with
      | nil =>
        simp only [List.nil_append, List.cons.injEq] at heq
        obtain ⟨rfl, rfl⟩ := heq
        left
        rintro (h | h | ⟨hf, he⟩)
        · omega
        · exact h2 h
        · exact h3 ⟨Or.inl hf, he⟩
      | cons x pre =>
        simp only [List.cons_append, List.cons.injEq] at heq
        obtain ⟨rfl, rfl⟩ := heq
        right
        refine (ih false).2 ⟨pre, d, post, rfl, h1, h2, ?_⟩
        rintro ⟨_, he⟩
        exact h3 ⟨Or.inr (by simp), he⟩

theorem utf8_length_ne_zero_iff (pre : List Nat) : (utf8 pre).length ≠ 0 ↔ pre ≠ [] := by
  rw [Ne, List.length_eq_zero, utf8_eq_nil]

/-- C4: for every well-formed UTF-8 string (char signed, 8 bits),
encodePN_LOCAL throws if and only if the string contains a multi-byte
character whose codepoint is neither in PN_CHARS_BASE nor, when the character
is not at byte position 0, one of U+00B7, U+0300..U+036F, U+203F..U+2040; in
every other case it returns; in particular it returns on every ASCII-only
input. -/
theorem encodePN_LOCAL_fails_iff (cs : List Nat) (hs : Scalars cs) :
    (encodePN_LOCAL (utf8 cs) = .error .domain_error ↔
      ∃ pre c post, cs = pre ++ c :: post ∧ 1 < (utf8Encode c).length ∧
        ¬ isPN_CHARS_BASE c ∧ ¬ ((utf8 pre).length ≠ 0 ∧ isPN_CHARS_extra c)) ∧
    (encodePN_LOCAL (utf8 cs) ≠ .error .domain_error →
      ∃ out, encodePN_LOCAL (utf8 cs) = .ok out) ∧
    (∀ s : List Nat, (∀ b ∈ s, b < 0x80) → ∃ out, encodePN_LOCAL s = .ok out) := by
  have key : ∀ cs : List Nat, Scalars cs → encodePN_LOCAL (utf8 cs) =
      if pnLocalAccepts true cs then .ok (pnLocalText true cs) else .error .domain_error := by
    intro cs hs
    rw [encodePN_LOCAL_utf8 cs hs, charScan_pnLocalChar]
    simp
  refine ⟨?_, ?_, ?_⟩
  · rw [key cs hs]
    have h := pnLocalAccepts_false_iff cs true
    simp only [utf8Encode_multi_iff, utf8_length_ne_zero_iff]
    simp only [Bool.true_eq_false, false_or] at h
    rw [← h]
    cases pnLocalAccepts true cs <;> simp
  · rw [key cs hs]
    cases pnLocalAccepts true cs <;> simp
  · intro s h
    have := key s (Scalars_ascii s h)
    rw [utf8_ascii s h, pnLocalAccepts_ascii s true h] at this
    exact ⟨_, this⟩

theorem encodePN_LOCAL_fails_iff_witness :
    Scalars [0x61, 0xB7, 0xD7] ∧
    (encodePN_LOCAL (utf8 [0x61, 0xB7, 0xD7]) = .error .domain_error ↔
      ∃ pre c post, [0x61, 0xB7, 0xD7] = pre ++ c :: post ∧ 1 < (utf8Encode c).length ∧
        ¬ isPN_CHARS_BASE c ∧ ¬ ((utf8 pre).length ≠ 0 ∧ isPN_CHARS_extra c)) :=
  ⟨by decide, (encodePN_LOCAL_fails_iff [0x61, 0xB7, 0xD7] (by decide)).1⟩

theorem not_isPN_CHARS_dot : ¬ isPN_CHARS 0x2E := by decide

theorem isPN_CHARS_BASE_sub (c : Nat) (h : isPN_CHARS_BASE c) : isPN_CHARS c :=
  Or.inl (Or.inl h)

theorem pnPrefixAccepts_tail_iff (rest : List Nat) :
    pnPrefixAccepts false rest = true ↔
      (∀ c ∈ rest, isPN_CHARS c ∨ c = 0x2E) ∧ rest.getLast? ≠ some 0x2E := by
  induction rest with
  | nil => simp [pnPrefixAccepts]
  | cons c cs ih =>
    simp only [pnPrefixAccepts, Bool.and_eq_true, decide_eq_true_eq, ih, true_and,
      List.mem_cons, forall_eq_or_imp]
    cases cs with
    | nil =>
      simp only [List.isEmpty_nil, Bool.true_eq_false, and_false, or_false, List.not_mem_nil,
        false_implies, implies_true, List.getLast?_nil, ne_eq, reduceCtorEq, not_false_eq_true,
        and_self, and_true, List.getLast?_singleton, Option.some.injEq, true_and]
      constructor
      · rintro (h | h)
        · exact ⟨Or.inl (isPN_CHARS_BASE_sub c h), fun hc => not_isPN_CHARS_dot
            (hc ▸ isPN_CHARS_BASE_sub c h)⟩
        · exact ⟨Or.inl h, fun hc => not_isPN_CHARS_dot (hc ▸ h)⟩
      · rintro ⟨h | h, h2⟩
        · exact Or.inr h
        · exact absurd h h2
    | cons d ds =>
      simp only [List.isEmpty_cons, and_true, List.getLast?_cons_cons]
      constructor
      · rintro ⟨h, h2, h3⟩
        refine ⟨⟨?_, h2⟩, h3⟩
        rcases h with h | h | h
        · exact Or.inl (isPN_CHARS_BASE_sub c h)
        · exact Or.inl h
        · exact Or.inr h
      · rintro ⟨⟨h, h2⟩, h3⟩
        refine ⟨?_, h2, h3⟩
        rcases h with h | h
        · exact Or.inr (Or.inl h)
        · exact Or.inr (Or.inr h)

theorem pnPrefixAccepts_iff (c0 : Nat) (rest : List Nat) :
    pnPrefixAccepts true (c0 :: rest) = true ↔
      isPN_CHARS_BASE c0 ∧ (∀ c ∈ rest, isPN_CHARS c ∨ c = 0x2E) ∧
        (c0 :: rest).getLast? ≠ some 0x2E := by
  simp only [pnPrefixAccepts, Bool.and_eq_true, decide_eq_true_eq, pnPrefixAccepts_tail_iff,
    Bool.true_eq_false, false_and, or_false]
  cases rest with
  | nil =>
    simp only [List.not_mem_nil, false_implies, implies_true, List.getLast?_nil, ne_eq,
      reduceCtorEq, not_false_eq_true, and_self, and_true, List.getLast?_singleton,
      Option.some.injEq, true_and, iff_self_and]
    intro h hc
    exact not_isPN_CHARS_dot (hc ▸ isPN_CHARS_BASE_sub c0 h)
  | cons d ds => simp only [List.getLast?_cons_cons]

theorem encodePN_PREFIX_closed (cs : List Nat) (hs : Scalars cs) :
    encodePN_PREFIX (utf8 cs) =
      if pnPrefixAccepts true cs then .ok (utf8 cs) else .error .domain_error := by
  rw [encodePN_PREFIX_utf8 cs hs, charScan_pnPrefixChar]
  simp

/-- C9: for every non-empty well-formed UTF-8 string, encodePN_PREFIX returns
if and only if the first character is in PN_CHARS_BASE, every later character
is in PN_CHARS or is a dot, and the last character is not a dot; otherwise it
throws std::domain_error. -/
theorem encodePN_PREFIX_succeeds_iff (c0 : Nat) (rest : List Nat)
    (hs : Scalars (c0 :: rest)) :
    ((∃ out, encodePN_PREFIX (utf8 (c0 :: rest)) = .ok out) ↔
      isPN_CHARS_BASE c0 ∧ (∀ c ∈ rest, isPN_CHARS c ∨ c = 0x2E) ∧
        (c0 :: rest).getLast? ≠ some 0x2E) ∧
    (¬ (isPN_CHARS_BASE c0 ∧ (∀ c ∈ rest, isPN_CHARS c ∨ c = 0x2E) ∧
        (c0 :: rest).getLast? ≠ some 0x2E) →
      encodePN_PREFIX (utf8 (c0 :: rest)) = .error .domain_error) := by
  rw [encodePN_PREFIX_closed _ hs, ← pnPrefixAccepts_iff]
  cases pnPrefixAccepts true (c0 :: rest) <;> simp

theorem encodePN_PREFIX_succeeds_iff_witness :
    Scalars [0x6F, 0x73, 0x6D, 0x2E, 0x32] ∧
    ((∃ out, encodePN_PREFIX (utf8 [0x6F, 0x73, 0x6D, 0x2E, 0x32]) = .ok out) ↔
      isPN_CHARS_BASE 0x6F ∧ (∀ c ∈ [0x73, 0x6D, 0x2E, 0x32], isPN_CHARS c ∨ c = 0x2E) ∧
        [0x6F, 0x73, 0x6D, 0x2E, 0x32].getLast? ≠ some 0x2E) :=
  ⟨by decide, (encodePN_PREFIX_succeeds_iff 0x6F [0x73, 0x6D, 0x2E, 0x32] (by decide)).1⟩

set_option maxRecDepth 100000 in
theorem hexDigit_isHEX : ∀ d < 16, isHEX (hexDigit d) ∧ ¬ isIRIREFForbidden (hexDigit d) := by
  decide

theorem hex2_ok (n : Nat) : ∀ b ∈ hex2 n, isHEX b ∧ ¬ isIRIREFForbidden b := by
  intro b hb
  simp only [hex2, List.mem_cons, List.mem_singleton, List.not_mem_nil, or_false] at hb
  rcases hb with rfl | rfl
  · exact hexDigit_isHEX _ (Nat.mod_lt _ (by decide))
  · exact hexDigit_isHEX _ (Nat.mod_lt _ (by decide))

theorem utf8Encode_not_forbidden (c : Nat) (h : ¬ isIRIREFForbidden c) :
    ∀ b ∈ utf8Encode c, ¬ isIRIREFForbidden b := by
  intro b hb
  unfold utf8Encode at hb
  split_ifs at hb <;>
    simp only [List.mem_cons, List.mem_singleton, List.not_mem_nil, or_false] at hb
  · rw [hb]; exact h
  all_goals
    unfold isIRIREFForbidden
    omega

theorem iriEscapePERCENT_not_forbidden (c : Nat) :
    ∀ b ∈ iriEscapePERCENT c, ¬ isIRIREFForbidden b := by
  intro b hb
  unfold iriEscapePERCENT at hb
  split_ifs at hb with h
  · simp only [List.mem_cons] at hb
    rcases hb with rfl | hb
    · decide
    · exact (hex2_ok c b hb).2
  · exact utf8Encode_not_forbidden c h b hb

/-- C8: for the QLEVER format and every well-formed UTF-8 string,
encodeIRIREF replaces each IRIREF-forbidden character by a percent sign
followed by the two hexadecimal digits of its byte and copies every other
character unchanged; a space becomes the three characters %20, and the
output contains no IRIREF-forbidden byte (so no backslash of an escape). -/
theorem encodeIRIREF_QLEVER_spec (cs : List Nat) (hs : Scalars cs) :
    encodeIRIREF .QLEVER (utf8 cs) = .ok (cs.flatMap iriEscapePERCENT) ∧
    iriEscapePERCENT 0x20 = [0x25, 0x32, 0x30] ∧
    (∀ b ∈ cs.flatMap iriEscapePERCENT, ¬ isIRIREFForbidden b) ∧
    0x5C ∉ cs.flatMap iriEscapePERCENT := by
  have hnf : ∀ b ∈ cs.flatMap iriEscapePERCENT, ¬ isIRIREFForbidden b := by
    intro b hb
    rw [List.mem_flatMap] at hb
    obtain ⟨c, _, hbc⟩ := hb
    exact iriEscapePERCENT_not_forbidden c b hbc
  refine ⟨encodeIRIREF_QLEVER_utf8 cs hs, by decide, hnf, fun h => ?_⟩
  exact hnf _ h (by decide)

theorem encodeIRIREF_QLEVER_spec_witness :
    Scalars [0x61, 0x20, 0xE9, 0x3C] ∧
    encodeIRIREF .QLEVER (utf8 [0x61, 0x20, 0xE9, 0x3C]) =
      .ok ([0x61, 0x20, 0xE9, 0x3C].flatMap iriEscapePERCENT) :=
  ⟨by decide, (encodeIRIREF_QLEVER_spec [0x61, 0x20, 0xE9, 0x3C] (by decide)).1⟩

theorem iriBodyOK_cons_plain (b : Nat) (r : List Nat) (hne : b ≠ 0x5C) :
    iriBodyOK (b :: r) = (decide (¬ isIRIREFForbidden b) && iriBodyOK r) := by
  conv_lhs => unfold iriBodyOK
  simp only [if_neg hne]

theorem iriBodyOK_append_plain (l r : List Nat) (h : ∀ b ∈ l, ¬ isIRIREFForbidden b) :
    iriBodyOK (l ++ r) = iriBodyOK r := by
  induction l with
  | nil => rfl
  | cons b l ih =>
    have hb := h b (by simp)
    have hne : b ≠ 0x5C := by
      rintro rfl
      exact hb (by decide)
    rw [List.cons_append, iriBodyOK_cons_plain _ _ hne, decide_eq_true hb, Bool.true_and]
    exact ih (fun x hx => h x (by simp [hx]))

theorem hex4_isHEX (n : Nat) :
    isHEX (hexDigit (n / 4096 % 16)) ∧ isHEX (hexDigit (n / 256 % 16)) ∧
      isHEX (hexDigit (n / 16 % 16)) ∧ isHEX (hexDigit (n % 16)) :=
  ⟨(hexDigit_isHEX _ (Nat.mod_lt _ (by decide))).1,
    (hexDigit_isHEX _ (Nat.mod_lt _ (by decide))).1,
    (hexDigit_isHEX _ (Nat.mod_lt _ (by decide))).1,
    (hexDigit_isHEX _ (Nat.mod_lt _ (by decide))).1⟩

theorem iriBodyOK_escapeUCHAR (cs : List Nat) :
    iriBodyOK (cs.flatMap iriEscapeUCHAR) = true := by
  induction cs with
  | nil => rfl
  | cons c cs ih =>
    simp only [List.flatMap_cons, iriEscapeUCHAR]
    split_ifs with h
    · obtain ⟨h1, h2, h3, h4⟩ := hex4_isHEX c
      simp [hex4, iriBodyOK, h1, h2, h3, h4, ih]
    · rw [iriBodyOK_append_plain _ _ (utf8Encode_not_forbidden c h)]
      exact ih

theorem escapeUCHAR_forbidden_only_backslash (cs : List Nat) :
    ∀ b ∈ cs.flatMap iriEscapeUCHAR, isIRIREFForbidden b → b = 0x5C := by
  intro b hb hf
  rw [List.mem_flatMap] at hb
  obtain ⟨c, _, hbc⟩ := hb
  unfold iriEscapeUCHAR at hbc
  split_ifs at hbc with h
  · simp only [hex4, List.cons_append, List.nil_append, List.mem_cons, List.mem_singleton,
      List.not_mem_nil, or_false] at hbc
    rcases hbc with rfl | rfl | rfl | rfl | rfl | rfl
    · rfl
    · exact absurd hf (by decide)
    · exact absurd hf (hexDigit_isHEX _ (Nat.mod_lt _ (by decide))).2
    · exact absurd hf (hexDigit_isHEX _ (Nat.mod_lt _ (by decide))).2
    · exact absurd hf (hexDigit_isHEX _ (Nat.mod_lt _ (by decide))).2
    · exact absurd hf (hexDigit_isHEX _ (Nat.mod_lt _ (by decide))).2
  · exact absurd hf (utf8Encode_not_forbidden c h b hbc)

/-- C7 (refuted as stated): formatIRI of the NT format returns, for the
unregistered prefix a and the local part consisting of one space, the text
< a backslash u 0 0 2 0 >, which has a backslash between the angle brackets; and for the
ill-formed prefix C3 3C it returns a text with a raw < between them. Neither
matches the pattern of the claim. -/
theorem formatIRI_NT_pattern_counterexample :
    (formatIRI_NT [] [0x61] (utf8 [0x20]) =
        .ok [0x3C, 0x61, 0x5C, 0x75, 0x30, 0x30, 0x32, 0x30, 0x3E] ∧
      iriPattern [0x3C, 0x61, 0x5C, 0x75, 0x30, 0x30, 0x32, 0x30, 0x3E] = false) ∧
    (formatIRI_NT [] [0xC3, 0x3C] (utf8 []) = .ok [0x3C, 0xC3, 0x3C, 0x3E] ∧
      iriPattern [0x3C, 0xC3, 0x3C, 0x3E] = false) := by
  decide

/-- C7 (amended): for the NT format, for every prefix table, every prefix p
whose namespace text (the namespace registered for p, or p itself when p is
not registered) is well-formed UTF-8 and every well-formed UTF-8 local v,
formatIRI(p, v) returns < + body + > where body is the escaped namespace
followed by the escaped local part; body contains no byte in 0x00..0x20 and
none of the characters < > " { } | ^ and backtick, and every backslash in it
starts an escape backslash, u, four hexadecimal digits. -/
theorem formatIRI_NT_shape (prefixes : PrefixTable) (p ns vs : List Nat)
    (hns : Scalars ns) (hvs : Scalars vs)
    (hp : prefixes.lookup p = some (utf8 ns) ∨ (prefixes.lookup p = none ∧ p = utf8 ns)) :
    formatIRI_NT prefixes p (utf8 vs) =
      .ok ([0x3C] ++ (ns ++ vs).flatMap iriEscapeUCHAR ++ [0x3E]) ∧
    iriBodyOK ((ns ++ vs).flatMap iriEscapeUCHAR) = true ∧
    (∀ b ∈ (ns ++ vs).flatMap iriEscapeUCHAR, isIRIREFForbidden b → b = 0x5C) := by
  refine ⟨?_, iriBodyOK_escapeUCHAR _, escapeUCHAR_forbidden_only_backslash _⟩
  have h1 := encodeIRIREF_UCHAR_utf8 .NT (Or.inl rfl) ns hns
  have h2 := encodeIRIREF_UCHAR_utf8 .NT (Or.inl rfl) vs hvs
  rcases hp with hp | ⟨hp, rfl⟩
  · simp [formatIRI_NT, hp, IRIREF, h1, h2]
  · simp [formatIRI_NT, hp, IRIREF, h1, h2]

theorem formatIRI_NT_shape_witness :
    Scalars [0x68, 0x3A, 0x2F] ∧ Scalars [0x34, 0x20, 0x32] ∧
    (List.lookup [0x6E] [([0x6E], utf8 [0x68, 0x3A, 0x2F])] = some (utf8 [0x68, 0x3A, 0x2F]) ∨
      (List.lookup [0x6E] [([0x6E], utf8 [0x68, 0x3A, 0x2F])] = none ∧
        [0x6E] = utf8 [0x68, 0x3A, 0x2F])) ∧
    formatIRI_NT [([0x6E], utf8 [0x68, 0x3A, 0x2F])] [0x6E] (utf8 [0x34, 0x20, 0x32]) =
      .ok ([0x3C] ++ ([0x68, 0x3A, 0x2F] ++ [0x34, 0x20, 0x32]).flatMap iriEscapeUCHAR ++
        [0x3E]) :=
  ⟨by decide, by decide, Or.inl (by decide),
    (formatIRI_NT_shape [([0x6E], utf8 [0x68, 0x3A, 0x2F])] [0x6E] [0x68, 0x3A, 0x2F]
      [0x34, 0x20, 0x32] (by decide) (by decide) (Or.inl (by decide))).1⟩

set_option maxRecDepth 100000 in
theorem fmtHex2_byte : ∀ n < 256, fmtHex 2 n = hex2 n := by decide

theorem encodePERCENT_loop_step (f cp : Nat) (buf : List Nat) (parts : List (List Nat))
    (hb : buf = [] ∨ buf.length = 3) :
    encodePERCENT.loop (f + 1) cp { buf := buf, pos := 0 } parts =
      if cp / 256 > 0 then
        encodePERCENT.loop f (cp / 256) { buf := 0x25 :: hex2 (cp % 256), pos := 0 }
          (parts ++ [0x25 :: hex2 (cp % 256)])
      else ({ buf := 0x25 :: hex2 (cp % 256), pos := 0 }, parts ++ [0x25 :: hex2 (cp % 256)]) := by
  have hx : fmtHex 2 (cp &&& 0xFF) = hex2 (cp % 256) := by
    rw [and_0xFF, fmtHex2_byte _ (Nat.mod_lt _ (by decide))]
  have hsh : cp >>> NUM_BITS_IN_BYTE = cp / 256 := by
    rw [Nat.shiftRight_eq_div_pow]
    rfl
  rcases hb with rfl | hb
  · simp [encodePERCENT.loop, hx, hsh, OStringStream.write, OStringStream.seekp0,
      OStringStream.str, hex2]
  · match buf, hb with
    | [a, b, c], _ =>
      simp [encodePERCENT.loop, hx, hsh, OStringStream.write, OStringStream.seekp0,
        OStringStream.str, hex2]

theorem encodePERCENT_bytes (cp : Nat) (h : cp < 4294967296) :
    encodePERCENT cp = (bytesBE cp).flatMap (fun b => 0x25 :: hex2 b) := by
  have hmod : cp % 4294967296 = cp := Nat.mod_eq_of_lt h
  unfold encodePERCENT
  rw [hmod]
  by_cases h1 : cp < 256
  · have e1 : ¬ cp / 256 > 0 := by omega
    have hd : bytesBE cp = [cp] := by
      unfold bytesBE
      split_ifs with h0
      · rw [h0]
      · rw [Nat.digits_def' (by decide) (by omega)]
        have : cp / 256 = 0 := by omega
        simp [this, Nat.mod_eq_of_lt h1]
    rw [encodePERCENT_loop_step 3 cp [] [] (Or.inl rfl), if_neg e1, hd]
    simp [OStringStream.write, OStringStream.str, hex2, Nat.mod_eq_of_lt h1]
  · by_cases h2 : cp < 65536
    · have e1 : cp / 256 > 0 := by omega
      have e2 : ¬ cp / 256 / 256 > 0 := by omega
      have hd : bytesBE cp = [cp / 256, cp % 256] := by
        unfold bytesBE
        rw [if_neg (by omega), Nat.digits_def' (by decide) (by omega),
          Nat.digits_def' (by decide) (by omega)]
        have : cp / 256 / 256 = 0 := by omega
        have h3 : cp / 256 % 256 = cp / 256 := by omega
        simp [this, h3]
      rw [encodePERCENT_loop_step 3 cp [] [] (Or.inl rfl), if_pos e1,
        encodePERCENT_loop_step 2 _ _ _ (Or.inr (by simp [hex2])), if_neg e2, hd]
      have h3 : cp / 256 % 256 = cp / 256 := by omega
      simp [OStringStream.write, OStringStream.str, hex2, h3]
    · by_cases h4 : cp < 16777216
      · have e1 : cp / 256 > 0 := by omega
        have e2 : cp / 256 / 256 > 0 := by omega
        have e3 : ¬ cp / 256 / 256 / 256 > 0 := by omega
        have h3 : cp / 256 / 256 % 256 = cp / 256 / 256 := by omega
        have hd : bytesBE cp = [cp / 256 / 256, cp / 256 % 256, cp % 256] := by
          unfold bytesBE
          rw [if_neg (by omega), Nat.digits_def' (by decide) (by omega),
            Nat.digits_def' (by decide) (by omega), Nat.digits_def' (by decide) (by omega)]
          have : cp / 256 / 256 / 256 = 0 := by omega
          simp [this, h3]
        rw [encodePERCENT_loop_step 3 cp [] [] (Or.inl rfl), if_pos e1,
          encodePERCENT_loop_step 2 _ _ _ (Or.inr (by simp [hex2])), if_pos e2,
          encodePERCENT_loop_step 1 _ _ _ (Or.inr (by simp [hex2])), if_neg e3, hd]
        simp [OStringStream.write, OStringStream.str, hex2, h3]
      · have e1 : cp / 256 > 0 := by omega
        have e2 : cp / 256 / 256 > 0 := by omega
        have e3 : cp / 256 / 256 / 256 > 0 := by omega
        have e4 : ¬ cp / 256 / 256 / 256 / 256 > 0 := by omega
        have h3 : cp / 256 / 256 / 256 % 256 = cp / 256 / 256 / 256 := by omega
        have hd : bytesBE cp =
            [cp / 256 / 256 / 256, cp / 256 / 256 % 256, cp / 256 % 256, cp % 256] := by
          unfold bytesBE
          rw [if_neg (by omega), Nat.digits_def' (by decide) (by omega),
            Nat.digits_def' (by decide) (by omega), Nat.digits_def' (by decide) (by omega),
            Nat.digits_def' (by decide) (by omega)]
          have : cp / 256 / 256 / 256 / 256 = 0 := by omega
          simp [this, h3]
        rw [encodePERCENT_loop_step 3 cp [] [] (Or.inl rfl), if_pos e1,
          encodePERCENT_loop_step 2 _ _ _ (Or.inr (by simp [hex2])), if_pos e2,
          encodePERCENT_loop_step 1 _ _ _ (Or.inr (by simp [hex2])), if_pos e3,
          encodePERCENT_loop_step 0 _ _ _ (Or.inr (by simp [hex2])), if_neg e4, hd]
        simp [OStringStream.write, OStringStream.str, hex2, h3]

/-- C10 (refuted as stated): for U+00E9 the code returns %e9 where the claim
prescribes %C3%A9, and for U+003C it returns %3c where the claim prescribes
%3C. -/
theorem encodePERCENT_utf8_upper_counterexample :
    (encodePERCENT 0xE9 = [0x25, 0x65, 0x39] ∧
      percentUtf8Upper 0xE9 = [0x25, 0x43, 0x33, 0x25, 0x41, 0x39] ∧
      encodePERCENT 0xE9 ≠ percentUtf8Upper 0xE9) ∧
    (encodePERCENT 0x3C = [0x25, 0x33, 0x63] ∧
      percentUtf8Upper 0x3C = [0x25, 0x33, 0x43] ∧
      encodePERCENT 0x3C ≠ percentUtf8Upper 0x3C) := by
  decide

/-- C10 (amended): for every 32-bit codepoint cp, encodePERCENT(cp) is the
concatenation, over the bytes of the number cp in base 256 taken most
significant byte first (the single byte 0 for cp = 0), of a percent sign
followed by the two lower-case hexadecimal digits of the byte; for an ASCII
codepoint this is the percent sign and the two lower-case hexadecimal digits
of its single UTF-8 byte. -/
theorem encodePERCENT_spec (cp : Nat) (h : cp < 4294967296) :
    encodePERCENT cp = (bytesBE cp).flatMap (fun b => 0x25 :: hex2 b) ∧
    (cp < 0x80 → utf8Encode cp = [cp] ∧ encodePERCENT cp = 0x25 :: hex2 cp) := by
  refine ⟨encodePERCENT_bytes cp h, fun h1 => ⟨utf8Encode_ascii cp h1, ?_⟩⟩
  exact encodePERCENT_byte cp (by omega)

theorem encodePERCENT_spec_witness :
    (0x20AC : Nat) < 4294967296 ∧
    encodePERCENT 0x20AC = (bytesBE 0x20AC).flatMap (fun b => 0x25 :: hex2 b) :=
  ⟨by decide, (encodePERCENT_spec 0x20AC (by decide)).1⟩

theorem utf8_append (a b : List Nat) : utf8 (a ++ b) = utf8 a ++ utf8 b := by
  induction a with
  | nil => rfl
  | cons c a ih => simp [utf8, ih]

set_option synthInstance.maxSize 1000 in
set_option synthInstance.maxHeartbeats 200000 in
set_option maxRecDepth 100000 in
theorem pnLocalAscii_shape : ∀ c < 128, ∀ f l : Bool,
    (pnLocalAscii f l c = [c] ∧ c ≠ 0x25 ∧ c ≠ 0x5C ∧ (c ≠ 0x2E ∨ (f = false ∧ l = false)) ∧
      (c = 0x2E ∨ isPN_CHARS c ∨ c = 0x3A) ∧
      (f = false ∨ isPN_CHARS_U c ∨ c = 0x3A ∨ (0x30 ≤ c ∧ c ≤ 0x39))) ∨
    (pnLocalAscii f l c = [0x5C, c] ∧ isPN_LOCAL_ESC c) ∨
    (pnLocalAscii f l c = 0x25 :: hex2 c) := by
  decide

set_option maxRecDepth 100000 in
theorem pnLocalAscii_bytes : ∀ c < 128, ∀ f l : Bool, ∀ b ∈ pnLocalAscii f l c, b < 0x80 := by
  decide

theorem pnLocalText_eq_utf8 (cs : List Nat) (first : Bool) :
    pnLocalText first cs = utf8 (pnLocalCps first cs) := by
  induction cs generalizing first with
  | nil => rfl
  | cons c cs ih =>
    simp only [pnLocalText, pnLocalCps, pnLocalEmit, utf8_append, ih]
    by_cases h : c < 0x80
    · simp only [if_pos h]
      rw [utf8_ascii _ (pnLocalAscii_bytes c h first cs.isEmpty)]
    · simp only [if_neg h, utf8, List.append_nil]

theorem Scalars_append (a b : List Nat) (ha : Scalars a) (hb : Scalars b) :
    Scalars (a ++ b) := by
  intro c hc
  rcases List.mem_append.1 hc with h | h
  · exact ha c h
  · exact hb c h

theorem Scalars_pnLocalCps (cs : List Nat) (first : Bool) (hs : Scalars cs) :
    Scalars (pnLocalCps first cs) := by
  induction cs generalizing first with
  | nil => intro c hc; simp [pnLocalCps] at hc
  | cons c cs ih =>
    obtain ⟨hc, hcs⟩ := Scalars_cons c cs hs
    simp only [pnLocalCps]
    apply Scalars_append _ _ _ (ih false hcs)
    by_cases h : c < 0x80
    · simp only [if_pos h]
      exact Scalars_ascii _ (pnLocalAscii_bytes c h first cs.isEmpty)
    · simp only [if_neg h]
      intro x hx
      simp only [List.mem_singleton] at hx
      rw [hx]; exact hc

theorem pnLocalTail_pct (h1 h2 : Nat) (r : List Nat) :
    pnLocalTail (0x25 :: h1 :: h2 :: r) = (decide (isHEX h1 ∧ isHEX h2) && pnLocalTail r) := by
  conv_lhs => unfold pnLocalTail
  simp

theorem pnLocalTail_esc (e : Nat) (r : List Nat) :
    pnLocalTail (0x5C :: e :: r) = (decide (isPN_LOCAL_ESC e) && pnLocalTail r) := by
  conv_lhs => unfold pnLocalTail
  simp

theorem pnLocalTail_dot (r : List Nat) :
    pnLocalTail (0x2E :: r) = (!r.isEmpty && pnLocalTail r) := by
  conv_lhs => unfold pnLocalTail
  simp

theorem pnLocalTail_plain (c : Nat) (r : List Nat) (h1 : c ≠ 0x25) (h2 : c ≠ 0x5C)
    (h3 : c ≠ 0x2E) :
    pnLocalTail (c :: r) = (decide (isPN_CHARS c ∨ c = 0x3A) && pnLocalTail r) := by
  conv_lhs => unfold pnLocalTail
  simp only [if_neg h1, if_neg h2, if_neg h3]

theorem pnLocalCps_isEmpty (cs : List Nat) (first : Bool) (h : cs.isEmpty = false) :
    (pnLocalCps first cs).isEmpty = false := by
  cases cs with
  | nil => simp at h
  | cons c cs =>
    simp only [pnLocalCps]
    by_cases hc : c < 0x80
    · rcases pnLocalAscii_shape c hc first cs.isEmpty with h1 | h1 | h1
      · simp [hc, h1.1]
      · simp [hc, h1.1]
      · simp [hc, h1]
    · simp [hc]

theorem pnLocalTail_cps (cs : List Nat) (h : pnLocalAccepts false cs = true) :
    pnLocalTail (pnLocalCps false cs) = true := by
  induction cs with
  | nil => rfl
  | cons c cs ih =>
    simp only [pnLocalAccepts, Bool.and_eq_true, decide_eq_true_eq] at h
    obtain ⟨hc, hcs⟩ := h
    have ih := ih hcs
    simp only [pnLocalCps]
    by_cases hlt : c < 0x80
    · simp only [if_pos hlt]
      rcases pnLocalAscii_shape c hlt false cs.isEmpty with h1 | h1 | h1
      · obtain ⟨he, n1, n2, hdot, hplain, _⟩ := h1
        rw [he]
        by_cases hd : c = 0x2E
        · subst hd
          have hl : cs.isEmpty = false := by
            rcases hdot with hdot | hdot
            · exact absurd rfl hdot
            · exact hdot.2
          simp [pnLocalTail_dot, ih, pnLocalCps_isEmpty cs false hl]
        · have hp : isPN_CHARS c ∨ c = 0x3A := by
            rcases hplain with hplain | hplain
            · exact absurd hplain hd
            · exact hplain
          simp [pnLocalTail_plain c _ n1 n2 hd, hp, ih]
      · rw [h1.1]
        simp [pnLocalTail_esc, h1.2, ih]
      · rw [h1]
        have hh := hex2_ok c
        simp only [hex2, List.mem_cons, List.mem_singleton, List.not_mem_nil, or_false,
          forall_eq_or_imp, forall_eq] at hh
        simp [hex2, pnLocalTail_pct, hh.1.1, hh.2.1, ih]
    · simp only [if_neg hlt]
      have hm : isPN_CHARS c := by
        rcases hc with hc | hc | ⟨_, hc⟩
        · exact absurd hc hlt
        · exact isPN_CHARS_BASE_sub c hc
        · exact Or.inr (Or.inr (Or.inr hc))
      simp [pnLocalTail_plain c _ (by omega) (by omega) (by omega), hm, ih]

theorem matchPN_LOCAL_cps (c : Nat) (cs : List Nat) (h : pnLocalAccepts true (c :: cs) = true) :
    matchPN_LOCAL (pnLocalCps true (c :: cs)) = true := by
  simp only [pnLocalAccepts, Bool.and_eq_true, decide_eq_true_eq] at h
  obtain ⟨hc, hcs⟩ := h
  have ih := pnLocalTail_cps cs hcs
  simp only [pnLocalCps]
  by_cases hlt : c < 0x80
  · simp only [if_pos hlt]
    rcases pnLocalAscii_shape c hlt true cs.isEmpty with h1 | h1 | h1
    · obtain ⟨he, n1, n2, hdot, _, hfirst⟩ := h1
      rw [he]
      have hf : isPN_CHARS_U c ∨ c = 0x3A ∨ (0x30 ≤ c ∧ c ≤ 0x39) := by
        rcases hfirst with hfirst | hfirst
        · simp at hfirst
        · exact hfirst
      simp [matchPN_LOCAL, n1, n2, hf, ih]
    · rw [h1.1]
      simp [matchPN_LOCAL, h1.2, ih]
    · rw [h1]
      have hh := hex2_ok c
      simp only [hex2, List.mem_cons, List.mem_singleton, List.not_mem_nil, or_false,
        forall_eq_or_imp, forall_eq] at hh
      simp [hex2, matchPN_LOCAL, hh.1.1, hh.2.1, ih]
  · simp only [if_neg hlt]
    have hm : isPN_CHARS_U c := by
      rcases hc with hc | hc | ⟨hc, _⟩
      · exact absurd hc hlt
      · exact Or.inl hc
      · simp at hc
    have n1 : c ≠ 0x25 := by omega
    have n2 : c ≠ 0x5C := by omega
    simp [matchPN_LOCAL, n1, n2, hm, ih]

theorem pnPrefixTail_of_accepts (cs : List Nat) (h : pnPrefixAccepts false cs = true) :
    pnPrefixTail cs = true := by
  induction cs with
  | nil => rfl
  | cons c cs ih =>
    simp only [pnPrefixAccepts, Bool.and_eq_true, decide_eq_true_eq] at h
    obtain ⟨hc, hcs⟩ := h
    have ih := ih hcs
    simp only [pnPrefixTail]
    by_cases hd : c = 0x2E
    · subst hd
      rcases hc with hc | ⟨_, hc | ⟨_, hc⟩⟩
      · exact absurd (isPN_CHARS_BASE_sub _ hc) not_isPN_CHARS_dot
      · exact absurd hc not_isPN_CHARS_dot
      · simp [hc, ih]
    · have hm : isPN_CHARS c := by
        rcases hc with hc | ⟨_, hc | ⟨hc, _⟩⟩
        · exact isPN_CHARS_BASE_sub c hc
        · exact hc
        · exact absurd hc hd
      simp [hd, hm, ih]

theorem matchPN_PREFIX_of_accepts (c : Nat) (cs : List Nat)
    (h : pnPrefixAccepts true (c :: cs) = true) : matchPN_PREFIX (c :: cs) = true := by
  simp only [pnPrefixAccepts, Bool.and_eq_true, decide_eq_true_eq] at h
  obtain ⟨hc, hcs⟩ := h
  have hb : isPN_CHARS_BASE c := by
    rcases hc with hc | ⟨hc, _⟩
    · exact hc
    · simp at hc
  simp [matchPN_PREFIX, hb, pnPrefixTail_of_accepts cs hcs]

theorem encodePN_LOCAL_closed (cs : List Nat) (hs : Scalars cs) :
    encodePN_LOCAL (utf8 cs) =
      if pnLocalAccepts true cs then .ok (pnLocalText true cs) else .error .domain_error := by
  rw [encodePN_LOCAL_utf8 cs hs, charScan_pnLocalChar]
  simp

/-- C6 (refuted as stated): for the non-empty label consisting of the two
bytes C3 41, which is not well-formed UTF-8, and the local part a,
PrefixedName succeeds and returns the bytes C3 41 3A 61; this text is not the
UTF-8 text of any X : Y with X matching PN_PREFIX and Y matching PN_LOCAL. -/
theorem PrefixedName_label_counterexample :
    PrefixedName [0xC3, 0x41] (utf8 [0x61]) = .ok [0xC3, 0x41, 0x3A, 0x61] ∧
    ¬ ∃ xs ys : List Nat, [0xC3, 0x41, 0x3A, 0x61] = utf8 xs ++ [0x3A] ++ utf8 ys ∧
      matchPN_PREFIX xs = true ∧ matchPN_LOCAL ys = true := by
  refine ⟨by decide, ?_⟩
  rintro ⟨xs, ys, h, hx, _⟩
  cases xs with
  | nil => simp [matchPN_PREFIX] at hx
  | cons x xs =>
    simp only [utf8, utf8Encode] at h
    split_ifs at h <;> simp at h <;> omega

/-- C6 (amended): for the TTL and QLEVER formats, for every non-empty
well-formed UTF-8 label p and every non-empty well-formed UTF-8 local v such
that PrefixedName(p, v) returns, the result is X : Y where X is the UTF-8
text of codepoints matching the Turtle production PN_PREFIX and Y is the
UTF-8 text of codepoints matching the Turtle production PN_LOCAL. -/
theorem PrefixedName_shape (ps vs out : List Nat) (hps : Scalars ps) (hvs : Scalars vs)
    (hp : ps ≠ []) (hv : vs ≠ []) (h : PrefixedName (utf8 ps) (utf8 vs) = .ok out) :
    ∃ xs ys : List Nat, Scalars xs ∧ Scalars ys ∧ out = utf8 xs ++ [0x3A] ++ utf8 ys ∧
      matchPN_PREFIX xs = true ∧ matchPN_LOCAL ys = true := by
  simp only [PrefixedName, encodePN_PREFIX_closed ps hps, encodePN_LOCAL_closed vs hvs] at h
  cases hA : pnPrefixAccepts true ps with
  | false => simp [hA] at h
  | true =>
    cases hB : pnLocalAccepts true vs with
    | false => simp [hA, hB] at h
    | true =>
      simp only [hA, hB, if_true, Res.ok_bind, Res.pure_eq, Res.ok.injEq] at h
      refine ⟨ps, pnLocalCps true vs, hps, Scalars_pnLocalCps vs true hvs, ?_, ?_, ?_⟩
      · rw [← h, pnLocalText_eq_utf8]
      · cases ps with
        | nil => exact absurd rfl hp
        | cons c cs => exact matchPN_PREFIX_of_accepts c cs hA
      · cases vs with
        | nil => exact absurd rfl hv
        | cons c cs => exact matchPN_LOCAL_cps c cs hB

theorem PrefixedName_shape_witness :
    Scalars [0x6F, 0x73, 0x6D] ∧ Scalars [0x2E, 0x61, 0x20, 0xE9] ∧
    [0x6F, 0x73, 0x6D] ≠ ([] : List Nat) ∧ [0x2E, 0x61, 0x20, 0xE9] ≠ ([] : List Nat) ∧
    PrefixedName (utf8 [0x6F, 0x73, 0x6D]) (utf8 [0x2E, 0x61, 0x20, 0xE9]) =
      .ok [0x6F, 0x73, 0x6D, 0x3A, 0x5C, 0x2E, 0x61, 0x25, 0x32, 0x30, 0xC3, 0xA9] ∧
    ∃ xs ys : List Nat, Scalars xs ∧ Scalars ys ∧
      [0x6F, 0x73, 0x6D, 0x3A, 0x5C, 0x2E, 0x61, 0x25, 0x32, 0x30, 0xC3, 0xA9] =
        utf8 xs ++ [0x3A] ++ utf8 ys ∧
      matchPN_PREFIX xs = true ∧ matchPN_LOCAL ys = true :=
  ⟨by decide, by decide, by decide, by decide, by decide,
    PrefixedName_shape [0x6F, 0x73, 0x6D] [0x2E, 0x61, 0x20, 0xE9] _ (by decide) (by decide)
      (by decide) (by decide) (by decide)⟩

set_option maxRecDepth 100000 in
theorem hexDigit_lower : ∀ d < 16, isLowerHex (hexDigit d) ∧ hexVal (hexDigit d) = d := by
  decide

theorem hexNumeral_1 (n : Nat) (h : n < 16) : hexNumeral n = [hexDigit n] := by
  simp [hexNumeral, hexNumeralAux, h]

theorem hexNumeral_2 (n : Nat) (h1 : 16 ≤ n) (h : n < 256) :
    hexNumeral n = [hexDigit (n / 16), hexDigit (n % 16)] := by
  have a1 : ¬ n < 16 := by omega
  have a2 : n / 16 < 16 := by omega
  simp [hexNumeral, hexNumeralAux, a1, a2]

theorem hexNumeral_3 (n : Nat) (h1 : 256 ≤ n) (h : n < 4096) :
    hexNumeral n = [hexDigit (n / 16 / 16), hexDigit (n / 16 % 16), hexDigit (n % 16)] := by
  have a1 : ¬ n < 16 := by omega
  have a2 : ¬ n / 16 < 16 := by omega
  have a3 : n / 16 / 16 < 16 := by omega
  simp [hexNumeral, hexNumeralAux, a1, a2, a3]

theorem hexNumeral_4 (n : Nat) (h1 : 4096 ≤ n) (h : n < 65536) :
    hexNumeral n = [hexDigit (n / 16 / 16 / 16), hexDigit (n / 16 / 16 % 16),
      hexDigit (n / 16 % 16), hexDigit (n % 16)] := by
  have a1 : ¬ n < 16 := by omega
  have a2 : ¬ n / 16 < 16 := by omega
  have a3 : ¬ n / 16 / 16 < 16 := by omega
  have a4 : n / 16 / 16 / 16 < 16 := by omega
  simp [hexNumeral, hexNumeralAux, a1, a2, a3, a4]

theorem hexNumeral_5 (n : Nat) (h1 : 65536 ≤ n) (h : n < 1048576) :
    hexNumeral n = [hexDigit (n / 16 / 16 / 16 / 16), hexDigit (n / 16 / 16 / 16 % 16),
      hexDigit (n / 16 / 16 % 16), hexDigit (n / 16 % 16), hexDigit (n % 16)] := by
  have a1 : ¬ n < 16 := by omega
  have a2 : ¬ n / 16 < 16 := by omega
  have a3 : ¬ n / 16 / 16 < 16 := by omega
  have a4 : ¬ n / 16 / 16 / 16 < 16 := by omega
  have a5 : n / 16 / 16 / 16 / 16 < 16 := by omega
  simp [hexNumeral, hexNumeralAux, a1, a2, a3, a4, a5]

theorem hexNumeral_6 (n : Nat) (h1 : 1048576 ≤ n) (h : n < 16777216) :
    hexNumeral n = [hexDigit (n / 16 / 16 / 16 / 16 / 16), hexDigit (n / 16 / 16 / 16 / 16 % 16),
      hexDigit (n / 16 / 16 / 16 % 16), hexDigit (n / 16 / 16 % 16), hexDigit (n / 16 % 16),
      hexDigit (n % 16)] := by
  have a1 : ¬ n < 16 := by omega
  have a2 : ¬ n / 16 < 16 := by omega
  have a3 : ¬ n / 16 / 16 < 16 := by omega
  have a4 : ¬ n / 16 / 16 / 16 < 16 := by omega
  have a5 : ¬ n / 16 / 16 / 16 / 16 < 16 := by omega
  have a6 : n / 16 / 16 / 16 / 16 / 16 < 16 := by omega
  simp [hexNumeral, hexNumeralAux, a1, a2, a3, a4, a5, a6]

theorem hexDigit_zero : hexDigit 0 = 0x30 := by decide

theorem fmtHex4_eq (n : Nat) (h : n ≤ 0xFFFF) : fmtHex 4 n = hex4 n := by
  unfold fmtHex hex4
  by_cases h1 : n < 16
  · rw [hexNumeral_1 n h1]
    have e1 : n / 4096 % 16 = 0 := by omega
    have e2 : n / 256 % 16 = 0 := by omega
    have e3 : n / 16 % 16 = 0 := by omega
    have e4 : n % 16 = n := by omega
    simp [e1, e2, e3, e4, hexDigit_zero, List.replicate]
  · by_cases h2 : n < 256
    · rw [hexNumeral_2 n (by omega) h2]
      have e1 : n / 4096 % 16 = 0 := by omega
      have e2 : n / 256 % 16 = 0 := by omega
      have e3 : n / 16 % 16 = n / 16 := by omega
      simp [e1, e2, e3, hexDigit_zero, List.replicate]
    · by_cases h3 : n < 4096
      · rw [hexNumeral_3 n (by omega) h3]
        have e1 : n / 4096 % 16 = 0 := by omega
        have e2 : n / 256 % 16 = n / 16 / 16 := by omega
        simp [e1, e2, hexDigit_zero, List.replicate]
      · rw [hexNumeral_4 n (by omega) (by omega)]
        have e1 : n / 4096 % 16 = n / 16 / 16 / 16 := by omega
        have e2 : n / 256 % 16 = n / 16 / 16 % 16 := by omega
        simp [e1, e2]

theorem fmtHex8_eq (n : Nat) (h1 : 0xFFFF < n) (h : n ≤ 0x10FFFF) : fmtHex 8 n = hex8 n := by
  unfold fmtHex hex8
  have e1 : n / 268435456 % 16 = 0 := by omega
  have e2 : n / 16777216 % 16 = 0 := by omega
  have e4 : n / 65536 % 16 = n / 16 / 16 / 16 / 16 % 16 := by omega
  have e5 : n / 4096 % 16 = n / 16 / 16 / 16 % 16 := by omega
  have e6 : n / 256 % 16 = n / 16 / 16 % 16 := by omega
  by_cases h2 : n < 1048576
  · rw [hexNumeral_5 n (by omega) h2]
    have e3 : n / 1048576 % 16 = 0 := by omega
    have e7 : n / 16 / 16 / 16 / 16 % 16 = n / 16 / 16 / 16 / 16 := by omega
    simp [e1, e2, e3, e4, e5, e6, e7, hexDigit_zero, List.replicate]
  · rw [hexNumeral_6 n (by omega) (by omega)]
    have e3 : n / 1048576 % 16 = n / 16 / 16 / 16 / 16 / 16 := by omega
    simp [e1, e2, e3, e4, e5, e6, hexDigit_zero, List.replicate]

theorem readHex_hex4 (n : Nat) (h : n ≤ 0xFFFF) : readHex (hex4 n) = n := by
  simp only [readHex, hex4, List.foldl_cons, List.foldl_nil,
    (hexDigit_lower _ (Nat.mod_lt _ (by decide : 0 < 16))).2]
  omega

theorem readHex_hex8 (n : Nat) (h : n < 4294967296) : readHex (hex8 n) = n := by
  simp only [readHex, hex8, List.foldl_cons, List.foldl_nil,
    (hexDigit_lower _ (Nat.mod_lt _ (by decide : 0 < 16))).2]
  omega

theorem hex4_lower (n : Nat) : ∀ d ∈ hex4 n, isLowerHex d := by
  intro d hd
  simp only [hex4, List.mem_cons, List.mem_singleton, List.not_mem_nil, or_false] at hd
  rcases hd with rfl | rfl | rfl | rfl <;>
    exact (hexDigit_lower _ (Nat.mod_lt _ (by decide))).1

theorem hex8_lower (n : Nat) : ∀ d ∈ hex8 n, isLowerHex d := by
  intro d hd
  simp only [hex8, List.mem_cons, List.mem_singleton, List.not_mem_nil, or_false] at hd
  rcases hd with rfl | rfl | rfl | rfl | rfl | rfl | rfl | rfl <;>
    exact (hexDigit_lower _ (Nat.mod_lt _ (by decide))).1

/-- C11: for every codepoint cp <= 0xFFFF, UCHAR(cp) is backslash, u and
exactly four lower-case hexadecimal digits; for every cp with
0xFFFF < cp <= 0x10FFFF it is backslash, U and exactly eight lower-case
hexadecimal digits of which the first two are 00; in both cases the digits
are the zero-padded hexadecimal numeral of cp, and reading them back yields
cp. -/
theorem UCHAR_spec (cp : Nat) (h : cp ≤ 0x10FFFF) :
    (cp ≤ 0xFFFF →
      UCHAR cp = [0x5C, 0x75] ++ hex4 cp ∧ (hex4 cp).length = 4 ∧
      (∀ d ∈ hex4 cp, isLowerHex d) ∧ readHex (hex4 cp) = cp) ∧
    (0xFFFF < cp →
      UCHAR cp = [0x5C, 0x55] ++ hex8 cp ∧ (hex8 cp).length = 8 ∧
      (hex8 cp).take 2 = [0x30, 0x30] ∧
      (∀ d ∈ hex8 cp, isLowerHex d) ∧ readHex (hex8 cp) = cp) := by
  constructor
  · intro h1
    refine ⟨?_, rfl, hex4_lower cp, readHex_hex4 cp h1⟩
    have : ¬ cp > 0xFFFF := by omega
    simp only [UCHAR, if_neg this, fmtHex4_eq cp h1]
  · intro h1
    refine ⟨?_, rfl, ?_, hex8_lower cp, readHex_hex8 cp (by omega)⟩
    · have : cp > 0xFFFF := h1
      simp only [UCHAR, if_pos this, fmtHex8_eq cp h1 h]
    · have e1 : cp / 268435456 % 16 = 0 := by omega
      have e2 : cp / 16777216 % 16 = 0 := by omega
      simp [hex8, e1, e2, hexDigit_zero]

theorem UCHAR_spec_witness :
    (0x1F600 : Nat) ≤ 0x10FFFF ∧ (0xFFFF : Nat) < 0x1F600 ∧
    UCHAR 0x1F600 = [0x5C, 0x55] ++ hex8 0x1F600 :=
  ⟨by decide, by decide, ((UCHAR_spec 0x1F600 (by decide)).2 (by decide)).1⟩

theorem utf8Length_sv_append (c : Nat) (rest : List Nat) (h : c < 0x110000) :
    utf8Length_sv (utf8Encode c ++ rest) = .ok (utf8Encode c).length := by
  by_cases h1 : c < 0x80
  · rw [utf8Encode_ascii c h1]
    exact utf8Length_range c 1 (by omega) (by omega)
  · obtain ⟨b, t, hbt, _, _, hl⟩ := utf8Encode_multi c (by omega) h
    rw [hbt]
    simpa [utf8Length_sv] using hl

theorem utf8Codepoint_append (c : Nat) (rest : List Nat) (hc : c < 0x110000) :
    utf8Codepoint (utf8Encode c ++ rest) = .ok c := by
  have key := utf8Codepoint_utf8Encode c (by omega)
  unfold utf8Encode at key ⊢
  split_ifs at key ⊢ with h1 h2 h3
  · have hl : utf8Length c = .ok 1 := utf8Length_range c 1 (by omega) (by omega)
    simpa [utf8Codepoint, utf8Length_sv, charAt, hl] using key
  · have hl : utf8Length (0xC0 + c / 64) = .ok 2 :=
      utf8Length_range _ 2 (by omega) (by omega)
    simpa [utf8Codepoint, utf8Length_sv, charAt, hl] using key
  · have hl : utf8Length (0xE0 + c / 4096) = .ok 3 :=
      utf8Length_range _ 3 (by omega) (by omega)
    simpa [utf8Codepoint, utf8Length_sv, charAt, hl] using key
  · have hl : utf8Length (0xF0 + c / 262144) = .ok 4 :=
      utf8Length_range _ 4 (by omega) (by omega)
    simpa [utf8Codepoint, utf8Length_sv, charAt, hl] using key

/-- C12: for every Unicode scalar value cp, with b the UTF-8 encoding of cp,
utf8Length(b) is the number of bytes of b, which is 1, 2, 3 or 4, and
utf8Codepoint(b) = cp; the same holds when b is followed by further bytes. -/
theorem utf8_scanner_roundtrip (cp : Nat) (h : isScalar cp) :
    utf8Length_sv (utf8Encode cp) = .ok (utf8Encode cp).length ∧
    (1 ≤ (utf8Encode cp).length ∧ (utf8Encode cp).length ≤ 4) ∧
    utf8Codepoint (utf8Encode cp) = .ok cp ∧
    (∀ rest : List Nat,
      utf8Length_sv (utf8Encode cp ++ rest) = .ok (utf8Encode cp).length ∧
      utf8Codepoint (utf8Encode cp ++ rest) = .ok cp) := by
  have hlt := isScalar_lt cp h
  refine ⟨?_, ⟨utf8Encode_length_pos cp, ?_⟩, utf8Codepoint_utf8Encode cp (by omega),
    fun rest => ⟨utf8Length_sv_append cp rest hlt, utf8Codepoint_append cp rest hlt⟩⟩
  · simpa using utf8Length_sv_append cp [] hlt
  · unfold utf8Encode
    split_ifs <;> simp

theorem utf8_scanner_roundtrip_witness :
    isScalar 0x20AC ∧ utf8Codepoint (utf8Encode 0x20AC) = .ok 0x20AC :=
  ⟨by decide, (utf8_scanner_roundtrip 0x20AC (by decide)).2.2.1⟩

/-- C13: for every byte c, utf8Length(c) returns 1 when c is 0x00..0x7F, 2
when c is 0xC0..0xDF, 3 when c is 0xE0..0xEF, 4 when c is 0xF0..0xF7, and
throws exactly when c is a continuation byte 0x80..0xBF or one of 0xF8..0xFF;
whenever it returns the result is 1, 2, 3 or 4. -/
theorem utf8Length_spec (c : Nat) (h : c < 256) :
    (c ≤ 0x7F → utf8Length c = .ok 1) ∧
    (0xC0 ≤ c ∧ c ≤ 0xDF → utf8Length c = .ok 2) ∧
    (0xE0 ≤ c ∧ c ≤ 0xEF → utf8Length c = .ok 3) ∧
    (0xF0 ≤ c ∧ c ≤ 0xF7 → utf8Length c = .ok 4) ∧
    (utf8Length c = .error .domain_error ↔ (0x80 ≤ c ∧ c ≤ 0xBF) ∨ 0xF8 ≤ c) ∧
    ((∃ e, utf8Length c = .error e) ↔ (0x80 ≤ c ∧ c ≤ 0xBF) ∨ 0xF8 ≤ c) ∧
    (∀ n, utf8Length c = .ok n → n = 1 ∨ n = 2 ∨ n = 3 ∨ n = 4) := by
  have key := utf8Length_byte c h
  refine ⟨fun h1 => utf8Length_range c 1 h (by omega),
    fun h1 => utf8Length_range c 2 h (by omega),
    fun h1 => utf8Length_range c 3 h (by omega),
    fun h1 => utf8Length_range c 4 h (by omega), ?_, ?_, ?_⟩
  · rw [key]
    split_ifs <;> simp <;> omega
  · rw [key]
    split_ifs <;> simp <;> omega
  · intro n hn
    rw [key] at hn
    split_ifs at hn <;> simp at hn <;> omega

theorem utf8Length_spec_witness :
    (0xE2 : Nat) < 256 ∧ ((0xE0 : Nat) ≤ 0xE2 ∧ (0xE2 : Nat) ≤ 0xEF) ∧
    utf8Length 0xE2 = .ok 3 :=
  ⟨by decide, by decide, (utf8Length_spec 0xE2 (by decide)).2.2.1 (by decide)⟩

theorem unescapeUCHAR_esc (h1 h2 h3 h4 : Nat) (r : List Nat) :
    unescapeUCHAR (0x5C :: 0x75 :: h1 :: h2 :: h3 :: h4 :: r) =
      utf8Encode (readHex [h1, h2, h3, h4]) ++ unescapeUCHAR r := by
  conv_lhs => unfold unescapeUCHAR
  simp

theorem unescapeUCHAR_plain (c : Nat) (r : List Nat) (h : c ≠ 0x5C) :
    unescapeUCHAR (c :: r) = c :: unescapeUCHAR r := by
  conv_lhs => unfold unescapeUCHAR
  simp only [if_neg h]

theorem unescapeUCHAR_append_plain (l r : List Nat) (h : 0x5C ∉ l) :
    unescapeUCHAR (l ++ r) = l ++ unescapeUCHAR r := by
  induction l with
  | nil => rfl
  | cons b l ih =>
    have hb : b ≠ 0x5C := fun hb => h (by simp [hb])
    rw [List.cons_append, unescapeUCHAR_plain _ _ hb, ih (fun hx => h (by simp [hx]))]
    rfl

theorem forbidden_lt (c : Nat) (h : isIRIREFForbidden c) : c < 0x80 := by
  unfold isIRIREFForbidden at h; omega

theorem unescapeUCHAR_escape (cs : List Nat) :
    unescapeUCHAR (cs.flatMap iriEscapeUCHAR) = utf8 cs := by
  induction cs with
  | nil => rfl
  | cons c cs ih =>
    simp only [List.flatMap_cons, iriEscapeUCHAR, utf8]
    split_ifs with h
    · have hlt := forbidden_lt c h
      have hr : readHex (hex4 c) = c := readHex_hex4 c (by omega)
      simp only [hex4] at hr
      simp only [hex4, List.cons_append, List.nil_append, unescapeUCHAR_esc, hr, ih,
        utf8Encode_ascii c hlt]
    · have hn : 0x5C ∉ utf8Encode c := fun hm =>
        utf8Encode_not_forbidden c h _ hm (by decide)
      rw [unescapeUCHAR_append_plain _ _ hn, ih]

theorem unescapePERCENT_esc (h1 h2 : Nat) (r : List Nat) :
    unescapePERCENT (0x25 :: h1 :: h2 :: r) = readHex [h1, h2] :: unescapePERCENT r := by
  conv_lhs => unfold unescapePERCENT
  simp

theorem unescapePERCENT_plain (c : Nat) (r : List Nat) (h : c ≠ 0x25) :
    unescapePERCENT (c :: r) = c :: unescapePERCENT r := by
  conv_lhs => unfold unescapePERCENT
  simp only [if_neg h]

theorem unescapePERCENT_append_plain (l r : List Nat) (h : 0x25 ∉ l) :
    unescapePERCENT (l ++ r) = l ++ unescapePERCENT r := by
  induction l with
  | nil => rfl
  | cons b l ih =>
    have hb : b ≠ 0x25 := fun hb => h (by simp [hb])
    rw [List.cons_append, unescapePERCENT_plain _ _ hb, ih (fun hx => h (by simp [hx]))]
    rfl

theorem utf8Encode_no_percent (c : Nat) (h : c ≠ 0x25) : 0x25 ∉ utf8Encode c := by
  intro hb
  unfold utf8Encode at hb
  split_ifs at hb <;>
    simp only [List.mem_cons, List.mem_singleton, List.not_mem_nil, or_false] at hb <;> omega

theorem unescapePERCENT_escape (cs : List Nat) (hp : 0x25 ∉ cs) :
    unescapePERCENT (cs.flatMap iriEscapePERCENT) = utf8 cs := by
  induction cs with
  | nil => rfl
  | cons c cs ih =>
    have hc : c ≠ 0x25 := fun hc => hp (by simp [hc])
    have ih := ih (fun hx => hp (by simp [hx]))
    simp only [List.flatMap_cons, iriEscapePERCENT, utf8]
    split_ifs with h
    · have hlt := forbidden_lt c h
      have hr : readHex (hex2 c) = c := by
        simp only [readHex, hex2, List.foldl_cons, List.foldl_nil,
          (hexDigit_lower _ (Nat.mod_lt _ (by decide : 0 < 16))).2]
        omega
      simp only [hex2] at hr
      simp only [hex2, List.cons_append, List.nil_append, unescapePERCENT_esc, hr, ih,
        utf8Encode_ascii c hlt]
    · rw [unescapePERCENT_append_plain _ _ (utf8Encode_no_percent c hc), ih]

/-- C14: for the NT and TTL formats encodeIRIREF preserves round trip on
well-formed UTF-8: replacing each backslash-u escape of the output by the
character it names recovers the input, and so encodeIRIREF(s1) =
encodeIRIREF(s2) implies s1 = s2. -/
theorem encodeIRIREF_UCHAR_injective (T : Format) (hT : T = .NT ∨ T = .TTL) :
    (∀ cs : List Nat, Scalars cs →
      ∃ out, encodeIRIREF T (utf8 cs) = .ok out ∧ unescapeUCHAR out = utf8 cs) ∧
    (∀ cs1 cs2 : List Nat, Scalars cs1 → Scalars cs2 →
      encodeIRIREF T (utf8 cs1) = encodeIRIREF T (utf8 cs2) → utf8 cs1 = utf8 cs2) := by
  refine ⟨fun cs hs => ⟨_, encodeIRIREF_UCHAR_utf8 T hT cs hs, unescapeUCHAR_escape cs⟩,
    fun cs1 cs2 h1 h2 h => ?_⟩
  rw [encodeIRIREF_UCHAR_utf8 T hT cs1 h1, encodeIRIREF_UCHAR_utf8 T hT cs2 h2] at h
  have h3 := congrArg unescapeUCHAR (Res.ok.inj h)
  rwa [unescapeUCHAR_escape, unescapeUCHAR_escape] at h3

theorem encodeIRIREF_UCHAR_injective_witness :
    (Format.TTL = .NT ∨ Format.TTL = .TTL) ∧ Scalars [0x61, 0x5C, 0x20AC] ∧
    ∃ out, encodeIRIREF .TTL (utf8 [0x61, 0x5C, 0x20AC]) = .ok out ∧
      unescapeUCHAR out = utf8 [0x61, 0x5C, 0x20AC] :=
  ⟨Or.inr rfl, by decide,
    (encodeIRIREF_UCHAR_injective .TTL (Or.inr rfl)).1 [0x61, 0x5C, 0x20AC] (by decide)⟩

/-- C15 (refuted as stated): the QLEVER encodeIRIREF maps the well-formed
strings consisting of one space and of the three characters %20 to the same
text %20, because a percent sign of the input is copied unchanged. -/
theorem encodeIRIREF_QLEVER_injective_counterexample :
    Scalars [0x20] ∧ Scalars [0x25, 0x32, 0x30] ∧
    encodeIRIREF .QLEVER (utf8 [0x20]) = .ok [0x25, 0x32, 0x30] ∧
    encodeIRIREF .QLEVER (utf8 [0x25, 0x32, 0x30]) = .ok [0x25, 0x32, 0x30] ∧
    utf8 [0x20] ≠ utf8 [0x25, 0x32, 0x30] := by
  decide

/-- C15 (amended): for the QLEVER format, encodeIRIREF preserves round trip
on the well-formed UTF-8 strings that contain no percent sign: reading each
percent escape of the output back recovers the input, and for all such
strings s1 and s2, encodeIRIREF(s1) = encodeIRIREF(s2) implies s1 = s2. -/
theorem encodeIRIREF_QLEVER_injective (cs1 cs2 : List Nat) (h1 : Scalars cs1)
    (h2 : Scalars cs2) (p1 : 0x25 ∉ cs1) (p2 : 0x25 ∉ cs2) :
    (∃ out, encodeIRIREF .QLEVER (utf8 cs1) = .ok out ∧ unescapePERCENT out = utf8 cs1) ∧
    (encodeIRIREF .QLEVER (utf8 cs1) = encodeIRIREF .QLEVER (utf8 cs2) →
      utf8 cs1 = utf8 cs2) := by
  refine ⟨⟨_, encodeIRIREF_QLEVER_utf8 cs1 h1, unescapePERCENT_escape cs1 p1⟩, fun h => ?_⟩
  rw [encodeIRIREF_QLEVER_utf8 cs1 h1, encodeIRIREF_QLEVER_utf8 cs2 h2] at h
  have h3 := congrArg unescapePERCENT (Res.ok.inj h)
  rwa [unescapePERCENT_escape _ p1, unescapePERCENT_escape _ p2] at h3

theorem encodeIRIREF_QLEVER_injective_witness :
    Scalars [0x61, 0x20, 0xE9] ∧ Scalars [0x62] ∧ 0x25 ∉ [0x61, 0x20, 0xE9] ∧
    0x25 ∉ [0x62] ∧
    ∃ out, encodeIRIREF .QLEVER (utf8 [0x61, 0x20, 0xE9]) = .ok out ∧
      unescapePERCENT out = utf8 [0x61, 0x20, 0xE9] :=
  ⟨by decide, by decide, by decide, by decide,
    (encodeIRIREF_QLEVER_injective [0x61, 0x20, 0xE9] [0x62] (by decide) (by decide)
      (by decide) (by decide)).1⟩

theorem generateLangTag_loop_of_match (s : List Nat) :
    ∀ (rest : List Nat) (pos : Nat) (ad seg first : Bool),
      matchLangTagAux rest seg first = true → (first = false → ad = true) →
      (pos = 0 → s = rest ∧ seg = false) →
      generateLangTag.loop s rest pos ad = true := by
  intro rest
  induction rest with
  | nil => intro pos ad seg first _ _ _; rfl
  | cons c r ih =>
    intro pos ad seg first hm had hpos
    unfold matchLangTagAux at hm
    unfold generateLangTag.loop
    by_cases hl : (0x41 ≤ c ∧ c ≤ 0x5A) ∨ (0x61 ≤ c ∧ c ≤ 0x7A)
    · rw [if_pos hl] at hm
      have hc : schar c = (c : Int) := schar_ascii c (by omega)
      have h0 : ¬ (pos = 0 ∧ Option.map schar s.head? = some 0x2D) := by
        rintro ⟨h1, h2⟩
        rw [(hpos h1).1] at h2
        simp only [List.head?_cons, Option.map_some', Option.some.injEq] at h2
        omega
      have h1 : (schar c ≥ 0x61 ∧ schar c ≤ 0x7A) ∨ (schar c ≥ 0x41 ∧ schar c ≤ 0x5A) ∨
          (schar c ≥ 0x30 ∧ schar c ≤ 0x39 ∧ ad = true) := by omega
      rw [if_neg h0, if_pos h1]
      exact ih (pos + 1) ad true first hm had (by omega)
    · rw [if_neg hl] at hm
      by_cases hd : 0x30 ≤ c ∧ c ≤ 0x39
      · rw [if_pos hd] at hm
        simp only [Bool.and_eq_true, Bool.not_eq_true'] at hm
        have hc : schar c = (c : Int) := schar_ascii c (by omega)
        have h0 : ¬ (pos = 0 ∧ Option.map schar s.head? = some 0x2D) := by
          rintro ⟨h1, h2⟩
          rw [(hpos h1).1] at h2
          simp only [List.head?_cons, Option.map_some', Option.some.injEq] at h2
          omega
        have h1 : (schar c ≥ 0x61 ∧ schar c ≤ 0x7A) ∨ (schar c ≥ 0x41 ∧ schar c ≤ 0x5A) ∨
            (schar c ≥ 0x30 ∧ schar c ≤ 0x39 ∧ ad = true) :=
          Or.inr (Or.inr ⟨by omega, by omega, had hm.1⟩)
        rw [if_neg h0, if_pos h1]
        exact ih (pos + 1) ad true first hm.2 had (by omega)
      · rw [if_neg hd] at hm
        by_cases hm2 : c = 0x2D
        · rw [if_pos hm2] at hm
          simp only [Bool.and_eq_true] at hm
          have hc : schar c = (c : Int) := schar_ascii c (by omega)
          have h0 : ¬ (pos = 0 ∧ Option.map schar s.head? = some 0x2D) := by
            rintro ⟨h1, _⟩
            have := (hpos h1).2
            rw [this] at hm
            exact absurd hm.1 (by decide)
          have h1 : ¬ ((schar c ≥ 0x61 ∧ schar c ≤ 0x7A) ∨ (schar c ≥ 0x41 ∧ schar c ≤ 0x5A) ∨
              (schar c ≥ 0x30 ∧ schar c ≤ 0x39 ∧ ad = true)) := by omega
          have h2 : schar c = 0x2D := by omega
          rw [if_neg h0, if_neg h1, if_pos h2]
          exact ih (pos + 1) true false false hm.2 (fun _ => rfl) (by omega)
        · rw [if_neg hm2] at hm
          exact absurd hm (by decide)

theorem generateLangTag_of_match (T : Format) (s : List Nat) (h : matchLangTag s = true) :
    generateLangTag T s = .ok ([0x40] ++ s) := by
  unfold generateLangTag
  rw [generateLangTag_loop_of_match s s 0 false false true h (by decide) (fun _ => ⟨rfl, rfl⟩)]
  rfl

theorem generateLangTag_result (T : Format) (s out : List Nat)
    (h : generateLangTag T s = .ok out) : out = [0x40] ++ s := by
  unfold generateLangTag at h
  split_ifs at h
  exact (Res.ok.inj h).symm

/-- C16 (code evaluated at the failing inputs): generateLangTag returns for the
empty string, for a tag with a trailing minus and for a tag with two adjacent
minus signs, none of which matches ALPHA+ ('-' (ALPHA|DIGIT)+)*; the results
are @, @en- and @en--us. -/
theorem generateLangTag_accepts_empty_segment :
    (generateLangTag .TTL (bytes "") = .ok (bytes "@") ∧ matchLangTag (bytes "") = false) ∧
    (generateLangTag .TTL (bytes "en-") = .ok (bytes "@en-") ∧
      matchLangTag (bytes "en-") = false) ∧
    (generateLangTag .TTL (bytes "en--us") = .ok (bytes "@en--us") ∧
      matchLangTag (bytes "en--us") = false) := by
  decide

theorem lookup_constructor_node (L : Labels)
    (h : L.NAMESPACE__OSM_NODE ∉ [L.NAMESPACE__GEOSPARQL, L.NAMESPACE__WIKIDATA_ENTITY,
      L.NAMESPACE__XML_SCHEMA, L.NAMESPACE__RDF, L.NAMESPACE__OPENGIS, L.NAMESPACE__OSM2RDF,
      L.NAMESPACE__OSM2RDF_GEOM, L.NAMESPACE__OSM]) :
    (constructorPrefixes L).lookup L.NAMESPACE__OSM_NODE =
      some (bytes "https://www.openstreetmap.org/node/") := by
  simp only [List.mem_cons, List.mem_singleton, List.not_mem_nil, or_false, not_or] at h
  obtain ⟨h1, h2, h3, h4, h5, h6, h7, h8⟩ := h
  simp only [constructorPrefixes, List.lookup, beq_eq_false_iff_ne.2 h1,
    beq_eq_false_iff_ne.2 h2, beq_eq_false_iff_ne.2 h3, beq_eq_false_iff_ne.2 h4,
    beq_eq_false_iff_ne.2 h5, beq_eq_false_iff_ne.2 h6, beq_eq_false_iff_ne.2 h7,
    beq_eq_false_iff_ne.2 h8, beq_self_eq_true]

theorem IRIREF_ok (T : Format) (p v a b : List Nat) (ha : encodeIRIREF T p = .ok a)
    (hb : encodeIRIREF T v = .ok b) : IRIREF T p v = .ok ([0x3C] ++ a ++ b ++ [0x3E]) := by
  simp [IRIREF, ha, hb]

theorem IRIREF_shape (T : Format) (p v out : List Nat) (h : IRIREF T p v = .ok out) :
    ∃ body, out = [0x3C] ++ body ++ [0x3E] := by
  unfold IRIREF at h
  cases ha : encodeIRIREF T p with
  | error e => simp [ha] at h
  | ok a =>
    cases hb : encodeIRIREF T v with
    | error e => simp [ha, hb] at h
    | ok b =>
      simp only [ha, hb, Res.ok_bind, Res.pure_eq, Res.ok.injEq] at h
      exact ⟨a ++ b, by rw [← h]; simp⟩

theorem formatIRI_NT_eq (prefixes : PrefixTable) (p v : List Nat) :
    formatIRI .NT prefixes p v = IRIREF .NT (resolvePrefix prefixes p) v := by
  simp only [formatIRI, formatIRI_NT, resolvePrefix]
  cases prefixes.lookup p <;> rfl

theorem matchPN_PREFIX_head (xs : List Nat) (h : matchPN_PREFIX xs = true) (r : List Nat) :
    (utf8 xs ++ r).head? ≠ some 0x3C := by
  cases xs with
  | nil => simp [matchPN_PREFIX] at h
  | cons x xs =>
    simp only [matchPN_PREFIX, Bool.and_eq_true, decide_eq_true_eq] at h
    have hx := h.1
    unfold isPN_CHARS_BASE at hx
    simp only [utf8, utf8Encode]
    split_ifs <;> simp <;> omega

/-- C17: for the NT format, for every prefix table, every p and every v,
formatIRI(p, v) is < + encodeIRIREF(resolvePrefix(p)) + encodeIRIREF(v) + >:
a registered label is replaced by its namespace IRI and an unregistered p is
used as the namespace itself. A returned text starts with < and ends with >
and is never a PrefixedName. With the constructor's table,
generateIRI(label of the OSM-node namespace, 42) is
<https://www.openstreetmap.org/node/42>. -/
theorem formatIRI_NT_spec (prefixes : PrefixTable) (p v : List Nat) :
    formatIRI .NT prefixes p v = IRIREF .NT (resolvePrefix prefixes p) v ∧
    (∀ ns, prefixes.lookup p = some ns → resolvePrefix prefixes p = ns) ∧
    (prefixes.lookup p = none → resolvePrefix prefixes p = p) ∧
    (∀ a b : List Nat, encodeIRIREF .NT (resolvePrefix prefixes p) = .ok a →
      encodeIRIREF .NT v = .ok b →
      formatIRI .NT prefixes p v = .ok ([0x3C] ++ a ++ b ++ [0x3E])) ∧
    (∀ out : List Nat, formatIRI .NT prefixes p v = .ok out →
      out.head? = some 0x3C ∧ out.getLast? = some 0x3E ∧
      ¬ ∃ xs ys : List Nat, out = utf8 xs ++ [0x3A] ++ utf8 ys ∧ matchPN_PREFIX xs = true) ∧
    (∀ L : Labels,
      L.NAMESPACE__OSM_NODE ∉ [L.NAMESPACE__GEOSPARQL, L.NAMESPACE__WIKIDATA_ENTITY,
        L.NAMESPACE__XML_SCHEMA, L.NAMESPACE__RDF, L.NAMESPACE__OPENGIS,
        L.NAMESPACE__OSM2RDF, L.NAMESPACE__OSM2RDF_GEOM, L.NAMESPACE__OSM] →
      generateIRI_u64 .NT (constructorPrefixes L) L.NAMESPACE__OSM_NODE 42 =
        .ok (bytes "<https://www.openstreetmap.org/node/42>")) := by
  refine ⟨formatIRI_NT_eq prefixes p v, fun ns h => by simp [resolvePrefix, h],
    fun h => by simp [resolvePrefix, h], fun a b ha hb => ?_, fun out h => ?_, fun L hL => ?_⟩
  · rw [formatIRI_NT_eq]
    exact IRIREF_ok _ _ _ a b ha hb
  · rw [formatIRI_NT_eq] at h
    obtain ⟨body, rfl⟩ := IRIREF_shape _ _ _ _ h
    refine ⟨by simp, ?_, ?_⟩
    · exact List.getLast?_concat _
    rintro ⟨xs, ys, heq, hx⟩
    have := matchPN_PREFIX_head xs hx ([0x3A] ++ utf8 ys)
    rw [← List.append_assoc, ← heq] at this
    simp at this
  · have hl := lookup_constructor_node L hL
    simp only [generateIRI_u64, generateIRIUnsafe, formatIRIUnsafe, formatIRI, formatIRI_NT, hl]
    decide

theorem formatIRI_NT_spec_witness :
    specLabels.NAMESPACE__OSM_NODE ∉ [specLabels.NAMESPACE__GEOSPARQL,
      specLabels.NAMESPACE__WIKIDATA_ENTITY, specLabels.NAMESPACE__XML_SCHEMA,
      specLabels.NAMESPACE__RDF, specLabels.NAMESPACE__OPENGIS, specLabels.NAMESPACE__OSM2RDF,
      specLabels.NAMESPACE__OSM2RDF_GEOM, specLabels.NAMESPACE__OSM] ∧
    generateIRI_u64 .NT (constructorPrefixes specLabels) specLabels.NAMESPACE__OSM_NODE 42 =
      .ok (bytes "<https://www.openstreetmap.org/node/42>") :=
  ⟨by decide, (formatIRI_NT_spec [] [] []).2.2.2.2.2 specLabels (by decide)⟩

theorem PrefixedName_ok (p v a b : List Nat) (ha : encodePN_PREFIX p = .ok a)
    (hb : encodePN_LOCAL v = .ok b) : PrefixedName p v = .ok (a ++ [0x3A] ++ b) := by
  simp [PrefixedName, ha, hb]

theorem PrefixedName_error (p v : List Nat)
    (h : (∃ e, encodePN_PREFIX p = .error e) ∨ (∃ e, encodePN_LOCAL v = .error e)) :
    ∃ e, PrefixedName p v = .error e := by
  unfold PrefixedName
  cases ha : encodePN_PREFIX p with
  | error e => exact ⟨e, rfl⟩
  | ok a =>
    rcases h with ⟨e, he⟩ | ⟨e, he⟩
    · rw [ha] at he; cases he
    · exact ⟨e, by simp [he]⟩

theorem formatIRI_registered (T : Format) (hT : T = .TTL ∨ T = .QLEVER)
    (prefixes : PrefixTable) (p v ns : List Nat) (h : prefixes.lookup p = some ns) :
    formatIRI T prefixes p v = PrefixedName p v := by
  rcases hT with rfl | rfl <;> simp [formatIRI, h]

theorem formatIRI_unregistered (T : Format) (hT : T = .TTL ∨ T = .QLEVER)
    (prefixes : PrefixTable) (p v : List Nat) (h : prefixes.lookup p = none) :
    formatIRI T prefixes p v = IRIREF T p v := by
  rcases hT with rfl | rfl <;> simp [formatIRI, h]

theorem formatIRIUnsafe_registered (T : Format) (hT : T = .TTL ∨ T = .QLEVER)
    (prefixes : PrefixTable) (p v ns : List Nat) (h : prefixes.lookup p = some ns) :
    formatIRIUnsafe T prefixes p v = .ok (PrefixedNameUnsafe p v) := by
  rcases hT with rfl | rfl <;> simp [formatIRIUnsafe, h]

theorem formatIRIUnsafe_unregistered (T : Format) (hT : T = .TTL ∨ T = .QLEVER)
    (prefixes : PrefixTable) (p v : List Nat) (h : prefixes.lookup p = none) :
    formatIRIUnsafe T prefixes p v = IRIREF T p v := by
  rcases hT with rfl | rfl <;> simp [formatIRIUnsafe, h]

/-- C18: for the TTL and QLEVER formats, for every prefix table, p and v: if p
is a registered label then formatIRI(p, v) is
encodePN_PREFIX(p) + : + encodePN_LOCAL(v), a text in which the namespace IRI
does not appear (for example osmnode:42), and it throws when one of the two
encoders throws; if p is not registered then formatIRI(p, v) is
< + encodeIRIREF(p) + encodeIRIREF(v) + >. -/
theorem formatIRI_TTL_QLEVER_spec (T : Format) (hT : T = .TTL ∨ T = .QLEVER)
    (prefixes : PrefixTable) (p v : List Nat) :
    (∀ ns, prefixes.lookup p = some ns →
      formatIRI T prefixes p v = PrefixedName p v ∧
      (∀ a b : List Nat, encodePN_PREFIX p = .ok a → encodePN_LOCAL v = .ok b →
        formatIRI T prefixes p v = .ok (a ++ [0x3A] ++ b)) ∧
      ((∃ e, encodePN_PREFIX p = .error e) ∨ (∃ e, encodePN_LOCAL v = .error e) →
        ∃ e, formatIRI T prefixes p v = .error e)) ∧
    (prefixes.lookup p = none →
      formatIRI T prefixes p v = IRIREF T p v ∧
      (∀ a b : List Nat, encodeIRIREF T p = .ok a → encodeIRIREF T v = .ok b →
        formatIRI T prefixes p v = .ok ([0x3C] ++ a ++ b ++ [0x3E]))) ∧
    formatIRI T (constructorPrefixes specLabels) (bytes "osmnode") (bytes "42") =
      .ok (bytes "osmnode:42") := by
  refine ⟨fun ns h => ?_, fun h => ?_, ?_⟩
  · have e := formatIRI_registered T hT prefixes p v ns h
    refine ⟨e, fun a b ha hb => ?_, fun herr => ?_⟩
    · rw [e]; exact PrefixedName_ok p v a b ha hb
    · rw [e]; exact PrefixedName_error p v herr
  · have e := formatIRI_unregistered T hT prefixes p v h
    refine ⟨e, fun a b ha hb => ?_⟩
    rw [e]; exact IRIREF_ok T p v a b ha hb
  · rcases hT with rfl | rfl <;> decide

theorem formatIRI_TTL_QLEVER_spec_witness :
    (Format.TTL = .TTL ∨ Format.TTL = .QLEVER) ∧
    List.lookup (bytes "osmway") (constructorPrefixes specLabels) =
      some (bytes "https://www.openstreetmap.org/way/") ∧
    formatIRI .TTL (constructorPrefixes specLabels) (bytes "osmway") (bytes "a b") =
      PrefixedName (bytes "osmway") (bytes "a b") :=
  ⟨Or.inl rfl, by decide,
    ((formatIRI_TTL_QLEVER_spec .TTL (Or.inl rfl) (constructorPrefixes specLabels)
      (bytes "osmway") (bytes "a b")).1 (bytes "https://www.openstreetmap.org/way/")
      (by decide)).1⟩

theorem scan_congr (body1 body2 : List Nat → Nat → Res (List Nat × Nat)) (P : Nat → Prop)
    (hb : ∀ rest pos, (∀ b ∈ rest, P b) → body1 rest pos = body2 rest pos) :
    ∀ (fuel : Nat) (rest : List Nat) (pos : Nat) (tmp : List Nat), (∀ b ∈ rest, P b) →
      scan body1 fuel rest pos tmp = scan body2 fuel rest pos tmp := by
  intro fuel
  induction fuel with
  | zero =>
    intro rest pos tmp _
    cases rest <;> rfl
  | succ f ih =>
    intro rest pos tmp hP
    cases rest with
    | nil => rfl
    | cons c r =>
      simp only [scan]
      rw [hb (c :: r) pos hP]
      cases body2 (c :: r) pos with
      | error e => rfl
      | ok x =>
        obtain ⟨chunk, n⟩ := x
        exact ih _ _ _ (fun b hb2 => hP b (List.mem_of_mem_drop hb2))

theorem iriForbiddenChar_byte (b : Nat) (h : b < 256) (hf : ¬ isIRIREFForbidden b) :
    iriForbiddenChar b = false := by
  by_cases h1 : b < 128
  · rw [iriForbiddenChar_ascii b h1]
    exact decide_eq_false hf
  · exact iriForbiddenChar_high b (by omega) h

theorem encodeIRIREF_bodies_agree (rest : List Nat) (pos : Nat)
    (h : ∀ b ∈ rest, b < 256 ∧ ¬ isIRIREFForbidden b) :
    encodeIRIREF.body rest pos = encodeIRIREF.bodyQLEVER rest pos := by
  cases rest with
  | nil => rfl
  | cons c r =>
    have hc := h c (by simp)
    have hf := iriForbiddenChar_byte c hc.1 hc.2
    simp only [encodeIRIREF.body, encodeIRIREF.bodyQLEVER, hf, Bool.false_eq_true, if_false,
      and_false]

theorem encodeIRIREF_TTL_eq_QLEVER (s : List Nat)
    (h : ∀ b ∈ s, b < 256 ∧ ¬ isIRIREFForbidden b) :
    encodeIRIREF .TTL s = encodeIRIREF .QLEVER s := by
  simp only [encodeIRIREF]
  exact scan_congr _ _ (fun b => b < 256 ∧ ¬ isIRIREFForbidden b)
    (fun rest pos hr => encodeIRIREF_bodies_agree rest pos hr) _ _ _ _ h

theorem IRIREF_TTL_eq_QLEVER (p v : List Nat)
    (h : ∀ b ∈ p ++ v, b < 256 ∧ ¬ isIRIREFForbidden b) :
    IRIREF .TTL p v = IRIREF .QLEVER p v := by
  simp only [IRIREF]
  rw [encodeIRIREF_TTL_eq_QLEVER p (fun b hb => h b (List.mem_append_left _ hb)),
    encodeIRIREF_TTL_eq_QLEVER v (fun b hb => h b (List.mem_append_right _ hb))]

/-- C19 (refuted as stated): formatIRIUnsafe does not agree on all inputs. For
the unregistered prefix a and the local part consisting of one space the TTL
writer returns the text with the escape backslash u 0 0 2 0 and the QLEVER
writer the text with the escape %20. -/
theorem formatIRIUnsafe_formats_counterexample :
    formatIRIUnsafe .TTL [] (bytes "a") (bytes " ") =
      .ok [0x3C, 0x61, 0x5C, 0x75, 0x30, 0x30, 0x32, 0x30, 0x3E] ∧
    formatIRIUnsafe .QLEVER [] (bytes "a") (bytes " ") = .ok (bytes "<a%20>") ∧
    formatIRIUnsafe .TTL [] (bytes "a") (bytes " ") ≠
      formatIRIUnsafe .QLEVER [] (bytes "a") (bytes " ") := by
  decide

/-- C19 (amended): the QLEVER writer differs from the TTL writer only in
IRIREF escaping: over the same prefix table, for every p and v, formatIRI of
TTL and of QLEVER return the same text or both throw whenever p is a
registered label, and also whenever p is unregistered and neither p nor v
contains an IRIREF-forbidden byte; formatIRIUnsafe agrees under the same two
conditions; generateLiteral and generateLangTag agree on all inputs. -/
theorem formats_TTL_QLEVER_agree (prefixes : PrefixTable) (p v : List Nat) :
    (prefixes.lookup p ≠ none →
      formatIRI .TTL prefixes p v = formatIRI .QLEVER prefixes p v ∧
      formatIRIUnsafe .TTL prefixes p v = formatIRIUnsafe .QLEVER prefixes p v) ∧
    (prefixes.lookup p = none → (∀ b ∈ p ++ v, b < 256 ∧ ¬ isIRIREFForbidden b) →
      formatIRI .TTL prefixes p v = formatIRI .QLEVER prefixes p v ∧
      formatIRIUnsafe .TTL prefixes p v = formatIRIUnsafe .QLEVER prefixes p v) ∧
    (∀ s : List Nat, generateLiteral .TTL v s = generateLiteral .QLEVER v s) ∧
    generateLangTag .TTL v = generateLangTag .QLEVER v := by
  refine ⟨fun h => ?_, fun h hb => ?_, fun s => rfl, rfl⟩
  · cases hl : prefixes.lookup p with
    | none => exact absurd hl h
    | some ns =>
      rw [formatIRI_registered .TTL (Or.inl rfl) _ _ _ ns hl,
        formatIRI_registered .QLEVER (Or.inr rfl) _ _ _ ns hl,
        formatIRIUnsafe_registered .TTL (Or.inl rfl) _ _ _ ns hl,
        formatIRIUnsafe_registered .QLEVER (Or.inr rfl) _ _ _ ns hl]
      exact ⟨rfl, rfl⟩
  · rw [formatIRI_unregistered .TTL (Or.inl rfl) _ _ _ h,
      formatIRI_unregistered .QLEVER (Or.inr rfl) _ _ _ h,
      formatIRIUnsafe_unregistered .TTL (Or.inl rfl) _ _ _ h,
      formatIRIUnsafe_unregistered .QLEVER (Or.inr rfl) _ _ _ h]
    exact ⟨IRIREF_TTL_eq_QLEVER p v hb, IRIREF_TTL_eq_QLEVER p v hb⟩

theorem formats_TTL_QLEVER_agree_witness :
    List.lookup (bytes "http://x/") (constructorPrefixes specLabels) = none ∧
    (∀ b ∈ bytes "http://x/" ++ [0x61, 0xC3, 0xA9], b < 256 ∧ ¬ isIRIREFForbidden b) ∧
    formatIRI .TTL (constructorPrefixes specLabels) (bytes "http://x/") [0x61, 0xC3, 0xA9] =
      formatIRI .QLEVER (constructorPrefixes specLabels) (bytes "http://x/")
        [0x61, 0xC3, 0xA9] :=
  ⟨by decide, by decide,
    ((formats_TTL_QLEVER_agree (constructorPrefixes specLabels) (bytes "http://x/")
      [0x61, 0xC3, 0xA9]).2.1 (by decide) (by decide)).1⟩

theorem scan_copy (body : List Nat → Nat → Res (List Nat × Nat))
    (hb : ∀ rest pos chunk n, body rest pos = .ok (chunk, n) → chunk = rest.take n) :
    ∀ (fuel : Nat) (rest : List Nat) (pos : Nat) (tmp out : List Nat),
      scan body fuel rest pos tmp = .ok out → out = tmp ++ rest := by
  intro fuel
  induction fuel with
  | zero =>
    intro rest pos tmp out h
    cases rest with
    | nil => simp only [scan, Res.ok.injEq] at h; simp [← h]
    | cons c r => simp [scan] at h
  | succ f ih =>
    intro rest pos tmp out h
    cases rest with
    | nil => simp only [scan, Res.ok.injEq] at h; simp [← h]
    | cons c r =>
      simp only [scan] at h
      cases hbody : body (c :: r) pos with
      | error e => simp [hbody] at h
      | ok x =>
        obtain ⟨chunk, n⟩ := x
        simp only [hbody] at h
        have := ih _ _ _ _ h
        rw [this, hb _ _ _ _ hbody, List.append_assoc, List.take_append_drop]

theorem encodePN_PREFIX_body_copy (size : Nat) (rest : List Nat) (pos : Nat)
    (chunk : List Nat) (n : Nat) (h : encodePN_PREFIX.body size rest pos = .ok (chunk, n)) :
    chunk = rest.take n := by
  cases rest with
  | nil =>
    simp only [encodePN_PREFIX.body, Res.ok.injEq, Prod.mk.injEq] at h
    rw [← h.1, ← h.2]; rfl
  | cons c r =>
    simp only [encodePN_PREFIX.body] at h
    split_ifs at h
    · simp only [Res.ok.injEq, Prod.mk.injEq] at h
      rw [← h.1, ← h.2]; rfl
    · simp only [Res.ok.injEq, Prod.mk.injEq] at h
      rw [← h.1, ← h.2]; rfl
    · simp only [Res.ok.injEq, Prod.mk.injEq] at h
      rw [← h.1, ← h.2]; rfl
    · cases hl : utf8Length c with
      | error e => simp [hl] at h
      | ok len =>
        simp only [hl, Res.ok_bind] at h
        cases hcp : utf8Codepoint (List.take len (c :: r)) with
        | error e => simp [hcp] at h
        | ok cp =>
          simp only [hcp, Res.ok_bind, Res.pure_eq] at h
          split_ifs at h
          · simp only [Res.ok.injEq, Prod.mk.injEq] at h
            rw [← h.1, ← h.2]
          · simp only [Res.ok.injEq, Prod.mk.injEq] at h
            rw [← h.1, ← h.2]

theorem encodePN_PREFIX_copy (s out : List Nat) (h : encodePN_PREFIX s = .ok out) :
    out = s := by
  have := scan_copy _ (encodePN_PREFIX_body_copy s.length) _ _ _ _ _ h
  simpa using this

theorem to_stringAux_digits : ∀ (f n : Nat) (acc : List Nat), (∀ b ∈ acc, isDigit b) →
    ∀ b ∈ to_stringAux f n acc, isDigit b := by
  intro f
  induction f with
  | zero => intro n acc h; exact h
  | succ f ih =>
    intro n acc h
    simp only [to_stringAux]
    split_ifs with h1
    · intro b hb
      simp only [List.mem_cons] at hb
      rcases hb with rfl | hb
      · unfold isDigit; omega
      · exact h b hb
    · apply ih
      intro b hb
      simp only [List.mem_cons] at hb
      rcases hb with rfl | hb
      · unfold isDigit; omega
      · exact h b hb

theorem to_string_digits (n : Nat) : ∀ b ∈ to_string n, isDigit b :=
  to_stringAux_digits 20 n [] (fun _ h => by simp at h)

theorem lookup_cons_eq (q k v : List Nat) (r : PrefixTable) :
    List.lookup q ((k, v) :: r) = if q = k then some v else List.lookup q r := by
  simp only [List.lookup_cons]
  by_cases h : q = k
  · simp [h]
  · have : (q == k) = false := by simpa using h
    simp [h, this]

theorem lookup_mapAssign (m : PrefixTable) (k v q : List Nat) :
    (mapAssign m k v).lookup q = if q = k then some v else m.lookup q := by
  induction m with
  | nil => simp [mapAssign, lookup_cons_eq]
  | cons e r ih =>
    obtain ⟨k1, v1⟩ := e
    unfold mapAssign
    by_cases h : k1 = k
    · subst h
      simp only [if_true, lookup_cons_eq]
      split_ifs <;> rfl
    · simp only [if_neg h, lookup_cons_eq, ih]
      by_cases hq : q = k1
      · have : q ≠ k := fun h2 => h (hq ▸ h2)
        simp [hq, h]
      · simp [hq]

theorem mapAssign_absent (m : PrefixTable) (k v : List Nat) (h : m.lookup k = none) :
    mapAssign m k v = m ++ [(k, v)] := by
  induction m with
  | nil => rfl
  | cons e r ih =>
    obtain ⟨k1, v1⟩ := e
    rw [lookup_cons_eq] at h
    by_cases hk : k = k1
    · simp [hk] at h
    · rw [if_neg hk] at h
      unfold mapAssign
      rw [if_neg (fun h2 => hk h2.symm), ih h]
      rfl

theorem lookup_none_iff (m : PrefixTable) (k : List Nat) :
    m.lookup k = none ↔ k ∉ m.map Prod.fst := by
  induction m with
  | nil => simp
  | cons e r ih =>
    obtain ⟨k1, v1⟩ := e
    rw [lookup_cons_eq]
    by_cases hk : k = k1
    · simp [hk]
    · simp [hk, ih]

theorem mapKeysNodup_append (m : PrefixTable) (k v : List Nat) (hm : mapKeysNodup m)
    (h : m.lookup k = none) : mapKeysNodup (m ++ [(k, v)]) := by
  unfold mapKeysNodup at *
  rw [List.map_append, List.nodup_append]
  refine ⟨hm, by simp, ?_⟩
  intro a ha hb
  simp at hb
  subst hb
  exact (lookup_none_iff m a).1 h ha

theorem addPrefix_fst (w : Writer) (pfx value : List Nat) :
    (addPrefix w pfx value).1 = true ↔ w._prefixes.lookup pfx = none := by
  unfold addPrefix
  cases h : w._prefixes.lookup pfx <;> simp

theorem addPrefix_bound (w : Writer) (pfx value ns : List Nat)
    (h : w._prefixes.lookup pfx = some ns) : addPrefix w pfx value = (false, w) := by
  unfold addPrefix
  rw [h]

theorem addPrefix_unbound (w : Writer) (pfx value : List Nat)
    (h : w._prefixes.lookup pfx = none) :
    addPrefix w pfx value = (true, { w with _prefixes := w._prefixes ++ [(pfx, value)] }) := by
  unfold addPrefix
  rw [h, mapAssign_absent _ _ _ h]

theorem lookup_append_single (m : PrefixTable) (k v q : List Nat)
    (h : m.lookup k = none) :
    (m ++ [(k, v)]).lookup q = if q = k then some v else m.lookup q := by
  rw [← mapAssign_absent m k v h, lookup_mapAssign]

/-- C21: `addPrefix(label, iri)` returns true exactly when `label` was not bound
before the call. When it returns false the writer, and with it the prefix
table, is unchanged. When it returns true the new table is the old table with
the one entry `(label, iri)` added: looking up `label` gives `iri`, looking up
any other key gives what it gave before, and no other member of the writer
changes. -/
theorem addPrefix_spec (w : Writer) (label iri : List Nat) :
    ((addPrefix w label iri).1 = true ↔ w._prefixes.lookup label = none) ∧
    ((addPrefix w label iri).1 = false →
      (addPrefix w label iri).2 = w ∧
      (addPrefix w label iri).2._prefixes.lookup label = w._prefixes.lookup label) ∧
    ((addPrefix w label iri).1 = true →
      (addPrefix w label iri).2._prefixes = w._prefixes ++ [(label, iri)] ∧
      (∀ k, (addPrefix w label iri).2._prefixes.lookup k =
        if k = label then some iri else w._prefixes.lookup k) ∧
      (mapKeysNodup w._prefixes → mapKeysNodup (addPrefix w label iri).2._prefixes) ∧
      (addPrefix w label iri).2._out = w._out ∧
      (addPrefix w label iri).2._numOuts = w._numOuts ∧
      (addPrefix w label iri).2._blankNodeCount = w._blankNodeCount ∧
      (addPrefix w label iri).2._headerLines = w._headerLines ∧
      (addPrefix w label iri).2._lineCount = w._lineCount) := by
  refine ⟨addPrefix_fst w label iri, ?_, ?_⟩
  · intro h
    cases hl : w._prefixes.lookup label with
    | none => rw [addPrefix_unbound w label iri hl] at h; simp at h
    | some ns => rw [addPrefix_bound w label iri ns hl]; exact ⟨rfl, hl⟩
  · intro h
    have hl := (addPrefix_fst w label iri).1 h
    rw [addPrefix_unbound w label iri hl]
    exact ⟨rfl, fun k => lookup_append_single _ _ _ _ hl,
      fun hm => mapKeysNodup_append _ _ _ hm hl, rfl, rfl, rfl, rfl, rfl⟩

theorem addPrefix_spec_witness :
    (addPrefix (Writer.new specLabels ⟨fun _ => []⟩ 1) (bytes "ex") (bytes "http://e/")).2._prefixes.lookup
        (bytes "ex") = some (bytes "http://e/") ∧
    (addPrefix (Writer.new specLabels ⟨fun _ => []⟩ 1) (bytes "osm") (bytes "http://e/")).2._prefixes.lookup
        (bytes "osm") = some (bytes "https://www.openstreetmap.org/") := by
  have h1 := (addPrefix_spec (Writer.new specLabels ⟨fun _ => []⟩ 1) (bytes "ex")
    (bytes "http://e/")).2.2 (by decide)
  have h2 := (addPrefix_spec (Writer.new specLabels ⟨fun _ => []⟩ 1) (bytes "osm")
    (bytes "http://e/")).2.1 (by decide)
  refine ⟨?_, ?_⟩
  · rw [h1.2.1]; simp
  · rw [h2.2]; decide

/-- C22: after a call `addPrefix(L, I)` that returns true, `resolvePrefix(L)` is
`I`; a second call `addPrefix(L, J)` returns false and `resolvePrefix(L)` is
still `I`; and for a label that is not bound `resolvePrefix` returns its
argument. -/
theorem addPrefix_resolvePrefix (w : Writer) (L I J : List Nat) :
    ((addPrefix w L I).1 = true →
      resolvePrefix (addPrefix w L I).2._prefixes L = I ∧
      (addPrefix (addPrefix w L I).2 L J).1 = false ∧
      resolvePrefix (addPrefix (addPrefix w L I).2 L J).2._prefixes L = I) ∧
    (w._prefixes.lookup L = none → resolvePrefix w._prefixes L = L) := by
  refine ⟨?_, ?_⟩
  · intro h
    have hl := (addPrefix_fst w L I).1 h
    have hnew : (addPrefix w L I).2._prefixes.lookup L = some I := by
      rw [addPrefix_unbound w L I hl]
      simp [lookup_append_single _ _ _ _ hl]
    have h2 := addPrefix_bound (addPrefix w L I).2 L J I hnew
    refine ⟨?_, ?_, ?_⟩
    · unfold resolvePrefix; rw [hnew]
    · rw [h2]
    · rw [h2]; unfold resolvePrefix; rw [hnew]
  · intro h
    unfold resolvePrefix; rw [h]

theorem addPrefix_resolvePrefix_witness :
    (resolvePrefix (addPrefix (Writer.new specLabels ⟨fun _ => []⟩ 1) (bytes "ex")
        (bytes "http://e/")).2._prefixes (bytes "ex") = bytes "http://e/" ∧
      (addPrefix (addPrefix (Writer.new specLabels ⟨fun _ => []⟩ 1) (bytes "ex")
        (bytes "http://e/")).2 (bytes "ex") (bytes "http://f/")).1 = false ∧
      resolvePrefix (addPrefix (addPrefix (Writer.new specLabels ⟨fun _ => []⟩ 1) (bytes "ex")
        (bytes "http://e/")).2 (bytes "ex") (bytes "http://f/")).2._prefixes (bytes "ex") =
          bytes "http://e/") ∧
    resolvePrefix (Writer.new specLabels ⟨fun _ => []⟩ 1)._prefixes (bytes "ex") = bytes "ex" :=
  ⟨(addPrefix_resolvePrefix (Writer.new specLabels ⟨fun _ => []⟩ 1) (bytes "ex")
      (bytes "http://e/") (bytes "http://f/")).1 (by decide),
   (addPrefix_resolvePrefix (Writer.new specLabels ⟨fun _ => []⟩ 1) (bytes "ex")
      (bytes "http://e/") (bytes "http://f/")).2 (by decide)⟩

/-- C29 (counterexample): for `v = "a"` and the empty suffix `generateLiteral`
returns the three bytes `"a"`, whereas a quote, `STRING_LITERAL_QUOTE("a")`, a
quote and the suffix are five bytes. -/
theorem generateLiteral_extra_quotes_counterexample :
    generateLiteral .TTL [0x61] [] = [0x22, 0x61, 0x22] ∧
    generateLiteral .TTL [0x61] [] ≠ [0x22] ++ STRING_LITERAL_QUOTE [0x61] ++ [0x22] ++ [] := by
  decide

/-- C29 (amended): for every lexical form `v` and suffix `s`, in every format,
`generateLiteral(v, s)` is `STRING_LITERAL_QUOTE(v)` followed by `s`, and
`STRING_LITERAL_QUOTE(v)` already is a double quote, the escaped form of `v`
and a double quote; so the result has exactly one pair of quotes around the
escaped text. -/
theorem generateLiteral_spec (T : Format) (v s : List Nat) :
    generateLiteral T v s = STRING_LITERAL_QUOTE v ++ s ∧
    generateLiteral T v s = [0x22] ++ quoteBody v ++ [0x22] ++ s ∧
    (generateLiteral T v s).length = (quoteBody v).length + 2 + s.length := by
  refine ⟨rfl, ?_, ?_⟩
  · unfold generateLiteral; rw [STRING_LITERAL_QUOTE_eq]
  · unfold generateLiteral; rw [STRING_LITERAL_QUOTE_eq]; simp; omega

theorem generateLiteral_spec_witness :
    generateLiteral .NT ([0x61, 0x22, 0x62]) (bytes "@en") = [0x22, 0x61, 0x5C, 0x22, 0x62, 0x22, 0x40, 0x65, 0x6E] := by
  rw [(generateLiteral_spec .NT ([0x61, 0x22, 0x62]) (bytes "@en")).2.1]; decide

theorem quoteEscape_length (c : Nat) : 1 ≤ (quoteEscape c).length := by
  unfold quoteEscape; split_ifs <;> simp

theorem quoteBody_length_ge (v : List Nat) : v.length ≤ (quoteBody v).length := by
  induction v with
  | nil => simp [quoteBody]
  | cons c r ih =>
    have := quoteEscape_length c
    simp only [quoteBody, List.length_append, List.length_cons]; omega

theorem quoteBody_plain (v : List Nat)
    (h : 0x22 ∉ v ∧ 0x5C ∉ v ∧ 0x0A ∉ v ∧ 0x0D ∉ v) : quoteBody v = v := by
  induction v with
  | nil => rfl
  | cons c r ih =>
    simp only [List.mem_cons, not_or] at h
    obtain ⟨⟨h1, h1r⟩, ⟨h2, h2r⟩, ⟨h3, h3r⟩, ⟨h4, h4r⟩⟩ := h
    have e : quoteEscape c = [c] := by
      unfold quoteEscape
      rw [if_neg (Ne.symm h1), if_neg (Ne.symm h2), if_neg (Ne.symm h3), if_neg (Ne.symm h4)]
    simp only [quoteBody, e, ih ⟨h1r, h2r, h3r, h4r⟩]; rfl

theorem quoteBody_length_gt (v : List Nat)
    (h : 0x22 ∈ v ∨ 0x5C ∈ v ∨ 0x0A ∈ v ∨ 0x0D ∈ v) : v.length < (quoteBody v).length := by
  induction v with
  | nil => simp at h
  | cons c r ih =>
    simp only [quoteBody, List.length_append, List.length_cons]
    by_cases hc : c = 0x22 ∨ c = 0x5C ∨ c = 0x0A ∨ c = 0x0D
    · have e : (quoteEscape c).length = 2 := by
        unfold quoteEscape
        rcases hc with h | h | h | h <;> subst h <;> simp
      have := quoteBody_length_ge r
      omega
    · have hr : 0x22 ∈ r ∨ 0x5C ∈ r ∨ 0x0A ∈ r ∨ 0x0D ∈ r := by
        simp only [List.mem_cons] at h
        rcases h with h | h | h | h
        · rcases h with h | h
          · exact absurd (Or.inl h.symm) hc
          · exact Or.inl h
        · rcases h with h | h
          · exact absurd (Or.inr (Or.inl h.symm)) hc
          · exact Or.inr (Or.inl h)
        · rcases h with h | h
          · exact absurd (Or.inr (Or.inr (Or.inl h.symm))) hc
          · exact Or.inr (Or.inr (Or.inl h))
        · rcases h with h | h
          · exact absurd (Or.inr (Or.inr (Or.inr h.symm))) hc
          · exact Or.inr (Or.inr (Or.inr h))
      have := ih hr
      have := quoteEscape_length c
      omega

theorem generateLiteralUnsafe_eq (T : Format) (v s : List Nat) :
    generateLiteralUnsafe T v s = [0x22] ++ v ++ [0x22] ++ s := by
  unfold generateLiteralUnsafe; simp

/-- C30: `generateLiteralUnsafe(v, s)` is a quote, the bytes of `v` as they
are, a quote, and `s`. For every suffix `s` and every `v` that contains none of
the bytes quote, backslash, LF, CR it equals `generateLiteral(v, s)`; for every
`v` that contains one of these bytes the two results differ (the safe result is
longer). -/
theorem generateLiteralUnsafe_spec (T : Format) (v s : List Nat) :
    generateLiteralUnsafe T v s = [0x22] ++ v ++ [0x22] ++ s ∧
    ((0x22 ∉ v ∧ 0x5C ∉ v ∧ 0x0A ∉ v ∧ 0x0D ∉ v) →
      generateLiteralUnsafe T v s = generateLiteral T v s) ∧
    ((0x22 ∈ v ∨ 0x5C ∈ v ∨ 0x0A ∈ v ∨ 0x0D ∈ v) →
      generateLiteralUnsafe T v s ≠ generateLiteral T v s ∧
      (generateLiteralUnsafe T v s).length < (generateLiteral T v s).length) := by
  refine ⟨generateLiteralUnsafe_eq T v s, ?_, ?_⟩
  · intro h
    rw [generateLiteralUnsafe_eq]
    unfold generateLiteral
    rw [STRING_LITERAL_QUOTE_eq, quoteBody_plain v h]
  · intro h
    have hl : (generateLiteralUnsafe T v s).length < (generateLiteral T v s).length := by
      rw [generateLiteralUnsafe_eq]
      unfold generateLiteral
      rw [STRING_LITERAL_QUOTE_eq]
      have := quoteBody_length_gt v h
      simp; omega
    exact ⟨fun e => by rw [e] at hl; exact lt_irrefl _ hl, hl⟩

theorem generateLiteralUnsafe_spec_witness :
    generateLiteralUnsafe .TTL (bytes "yes") [] = generateLiteral .TTL (bytes "yes") [] ∧
    generateLiteralUnsafe .TTL ([0x61, 0x22, 0x62]) [] ≠ generateLiteral .TTL ([0x61, 0x22, 0x62]) [] :=
  ⟨(generateLiteralUnsafe_spec .TTL (bytes "yes") []).2.1 (by decide),
   ((generateLiteralUnsafe_spec .TTL ([0x61, 0x22, 0x62]) []).2.2 (by decide)).1⟩

theorem Output.write_write (o : Output) (t : Nat) (a b : List Nat) :
    (o.write t a).write t b = o.write t (a ++ b) := by
  simp [Output.write, List.append_assoc]

theorem Output.write_nil (o : Output) (t : Nat) : o.write t [] = o := by
  cases o; simp [Output.write]

theorem Output.write_stream_same (o : Output) (t : Nat) (a : List Nat) :
    (o.write t a).stream t = o.stream t ++ a := by
  simp [Output.write]

theorem Output.write_stream_other (o : Output) (t u : Nat) (a : List Nat) (h : u ≠ t) :
    (o.write t a).stream u = o.stream u := by
  simp [Output.write, Function.update_noteq h]

theorem incr_eq (a : List Nat) (t : Nat) (h : t < a.length) :
    incr a t = .ok (addAt a t 1) := by
  unfold incr addAt
  have : a.get? t = some (a.getD t 0) := by
    simp [List.getD, List.getElem?_eq_getElem h]
  rw [this]

theorem incr_error (a : List Nat) (t : Nat) (h : a.length ≤ t) :
    incr a t = .error .out_of_range := by
  unfold incr
  have : a.get? t = none := by simp [h]
  rw [this]

theorem addAt_length (a : List Nat) (t n : Nat) : (addAt a t n).length = a.length := by
  simp [addAt]

theorem addAt_getD_same (a : List Nat) (t n : Nat) (h : t < a.length) :
    (addAt a t n).getD t 0 = (a.getD t 0 + n) % 18446744073709551616 := by
  simp [addAt, List.getD, h]

theorem addAt_getD_other (a : List Nat) (t u n : Nat) (h : u ≠ t) :
    (addAt a t n).getD u 0 = a.getD u 0 := by
  simp [addAt, List.getD, List.getElem?_set_ne (Ne.symm h)]

theorem addAt_addAt (a : List Nat) (t m n : Nat) (h : t < a.length) :
    addAt (addAt a t m) t n = addAt a t (m + n) := by
  unfold addAt
  rw [List.set_set]
  congr 1
  have : (a.set t ((a.getD t 0 + m) % 18446744073709551616)).getD t 0 =
      (a.getD t 0 + m) % 18446744073709551616 := by
    simp [List.getD, h]
  rw [this]
  omega

theorem addAt_zero (a : List Nat) (t : Nat) (h : ∀ x ∈ a, x < 18446744073709551616) :
    addAt a t 0 = a := by
  unfold addAt
  by_cases ht : t < a.length
  · have hx : a.getD t 0 = a[t] := by simp [List.getD, List.getElem?_eq_getElem ht]
    have hb := h a[t] (List.getElem_mem ht)
    rw [hx, Nat.add_zero, Nat.mod_eq_of_lt hb]
    apply List.ext_getElem?
    intro i
    by_cases hti : t = i
    · subst hti; simp [ht]
    · simp [List.getElem?_set_ne hti]
  · exact List.set_eq_of_length_le (not_lt.1 ht)

theorem addAt_bound (a : List Nat) (t n : Nat) (h : ∀ x ∈ a, x < 18446744073709551616) :
    ∀ x ∈ addAt a t n, x < 18446744073709551616 := by
  intro x hx
  unfold addAt at hx
  rcases List.mem_or_eq_of_mem_set hx with h1 | h1
  · exact h x h1
  · rw [h1]; exact Nat.mod_lt _ (by norm_num)

/-- The line `writeTriple` appends. -/
theorem writeTriple_eq (w : Writer) (t : Nat) (s p o : List Nat) (h : t < w._lineCount.length) :
    writeTriple w t s p o = .ok
      { w with
        _out := w._out.write t (s ++ [0x20] ++ p ++ [0x20] ++ o ++ [0x20, 0x2E, 0x0A])
        _lineCount := addAt w._lineCount t 1 } := by
  unfold writeTriple
  simp only [Output.writeNewLine, Output.write_write, incr_eq _ _ h]
  simp [Bind.bind, Res.bind, List.append_assoc]

theorem writeTriple_error (w : Writer) (t : Nat) (s p o : List Nat)
    (h : w._lineCount.length ≤ t) : writeTriple w t s p o = .error .out_of_range := by
  unfold writeTriple
  simp only [incr_error _ _ h]
  simp [Bind.bind, Res.bind]

/-- C26: called by a worker `t` that has a cell in `_lineCount`, `writeTriple(s,
p, o)` returns, appends exactly the bytes `s SP p SP o SP . LF` to the stream of
worker `t`, leaves the streams of the other workers as they are, adds one to
`_lineCount[t]` (a 64-bit increment; exactly one more whenever the cell is below
2^64 - 1), and changes no other cell of `_lineCount`, nor `_blankNodeCount`,
`_headerLines`, `_numOuts` or the prefix table. -/
theorem writeTriple_spec (w : Writer) (t : Nat) (s p o : List Nat)
    (h : t < w._lineCount.length) :
    ∃ w1, writeTriple w t s p o = .ok w1 ∧
      w1._out.stream t = w._out.stream t ++ (s ++ [0x20] ++ p ++ [0x20] ++ o ++ [0x20, 0x2E, 0x0A]) ∧
      (∀ u, u ≠ t → w1._out.stream u = w._out.stream u) ∧
      w1._lineCount.getD t 0 = (w._lineCount.getD t 0 + 1) % 18446744073709551616 ∧
      (w._lineCount.getD t 0 + 1 < 18446744073709551616 →
        w1._lineCount.getD t 0 = w._lineCount.getD t 0 + 1) ∧
      (∀ u, u ≠ t → w1._lineCount.getD u 0 = w._lineCount.getD u 0) ∧
      w1._lineCount.length = w._lineCount.length ∧
      w1._blankNodeCount = w._blankNodeCount ∧
      w1._headerLines = w._headerLines ∧
      w1._numOuts = w._numOuts ∧
      w1._prefixes = w._prefixes := by
  refine ⟨_, writeTriple_eq w t s p o h, Output.write_stream_same _ _ _,
    fun u hu => Output.write_stream_other _ _ _ _ hu, addAt_getD_same _ _ _ h, ?_,
    fun u hu => addAt_getD_other _ _ _ _ hu, addAt_length _ _ _, rfl, rfl, rfl, rfl⟩
  intro hb
  show (addAt w._lineCount t 1).getD t 0 = _
  rw [addAt_getD_same _ _ _ h, Nat.mod_eq_of_lt hb]

theorem writeTriple_spec_witness :
    ∃ w1, writeTriple (Writer.new specLabels ⟨fun _ => []⟩ 2) 1 (bytes "<s>") (bytes "<p>")
        (bytes "<o>") = .ok w1 ∧
      w1._out.stream 1 = bytes "<s> <p> <o> .\n" ∧ w1._lineCount.getD 1 0 = 1 ∧
      w1._lineCount.getD 0 0 = 0 := by
  obtain ⟨w1, h1, h2, _, _, h5, h6, _⟩ := writeTriple_spec (Writer.new specLabels ⟨fun _ => []⟩ 2)
    1 (bytes "<s>") (bytes "<p>") (bytes "<o>") (by decide)
  refine ⟨w1, h1, ?_, ?_, ?_⟩
  · rw [h2]; decide
  · rw [h5 (by decide)]; decide
  · rw [h6 0 (by decide)]; decide

theorem headerLine_eq (e : List Nat × List Nat) :
    bytes "@prefix" ++ [0x20] ++ (e.1 ++ bytes ":") ++ [0x20] ++
      (bytes "<" ++ e.2 ++ bytes ">") ++ [0x20, 0x2E, 0x0A] = headerLine e := by
  unfold headerLine
  have h1 : bytes "@prefix " = bytes "@prefix" ++ [0x20] := by decide
  have h2 : bytes ": <" = bytes ":" ++ [0x20] ++ bytes "<" := by decide
  have h3 : bytes "> .\n" = bytes ">" ++ [0x20, 0x2E, 0x0A] := by decide
  rw [h1, h2, h3]
  simp only [List.append_assoc]

theorem writeHeader_loop_eq (t : Nat) : ∀ (es : PrefixTable) (w : Writer),
    t < w._lineCount.length → t < w._headerLines.length →
    (∀ x ∈ w._lineCount, x < 18446744073709551616) →
    (∀ x ∈ w._headerLines, x < 18446744073709551616) →
    writeHeader.loop t es w = .ok
      { w with
        _out := w._out.write t (headerText es)
        _headerLines := addAt w._headerLines t es.length
        _lineCount := addAt w._lineCount t es.length } := by
  intro es
  induction es with
  | nil =>
    intro w _ _ hl hh
    simp only [writeHeader.loop, headerText, Output.write_nil, List.length_nil,
      addAt_zero _ _ hl, addAt_zero _ _ hh]
  | cons e r ih =>
    intro w h1 h2 hl hh
    obtain ⟨k, v⟩ := e
    unfold writeHeader.loop
    rw [writeTriple_eq w t _ _ _ h1]
    simp only [Bind.bind, Res.bind]
    rw [incr_eq _ _ h2]
    simp only []
    rw [ih _ (by simpa [addAt_length] using h1) (by simpa [addAt_length] using h2)
      (addAt_bound _ _ _ hl) (addAt_bound _ _ _ hh)]
    simp only [Output.write_write, addAt_addAt _ _ _ _ h1, addAt_addAt _ _ _ _ h2,
      headerText, List.length_cons, headerLine_eq (k, v)]
    simp [Nat.add_comm]

theorem mem_iff_lookup (m : PrefixTable) (hm : mapKeysNodup m) (L I : List Nat) :
    (L, I) ∈ m ↔ m.lookup L = some I := by
  induction m with
  | nil => simp
  | cons e r ih =>
    obtain ⟨k, v⟩ := e
    unfold mapKeysNodup at hm ih
    simp only [List.map_cons, List.nodup_cons] at hm
    rw [lookup_cons_eq, List.mem_cons]
    by_cases hk : L = k
    · subst hk
      rw [if_pos rfl]
      constructor
      · rintro (h | h)
        · simp only [Prod.mk.injEq] at h; rw [h.2]
        · exact absurd (List.mem_map_of_mem Prod.fst h) hm.1
      · intro h
        left
        simp only [Option.some.injEq] at h
        rw [h]
    · rw [if_neg hk, ← ih hm.2]
      constructor
      · rintro (h | h)
        · simp only [Prod.mk.injEq] at h; exact absurd h.1 hk
        · exact h
      · exact Or.inr

theorem mapIter_perm (m : PrefixTable) : (mapIter m).Perm m :=
  List.perm_insertionSort _ m

theorem writeHeader_eq (T : Format) (hT : T ≠ .NT) (w : Writer) (t : Nat)
    (h1 : t < w._lineCount.length) (h2 : t < w._headerLines.length)
    (hl : ∀ x ∈ w._lineCount, x < 18446744073709551616)
    (hh : ∀ x ∈ w._headerLines, x < 18446744073709551616) :
    writeHeader T w t = .ok
      { w with
        _out := w._out.write t (headerText (mapIter w._prefixes))
        _headerLines := addAt w._headerLines t w._prefixes.length
        _lineCount := addAt w._lineCount t w._prefixes.length } := by
  have hlen : (mapIter w._prefixes).length = w._prefixes.length := (mapIter_perm _).length_eq
  cases T with
  | NT => exact absurd rfl hT
  | TTL => unfold writeHeader; simp only []; rw [writeHeader_loop_eq t _ w h1 h2 hl hh, hlen]
  | QLEVER => unfold writeHeader; simp only []; rw [writeHeader_loop_eq t _ w h1 h2 hl hh, hlen]

/-- C27: for NT `writeHeader` returns the writer unchanged (nothing written, no
counter changed). For TTL and QLEVER, called by a worker `t` of a writer whose
arrays have a cell for `t`, it returns; it appends to the stream of worker `t`
exactly the lines `@prefix L: <I> .` LF of the entries of the prefix table (each
entry once, in the map's iteration order; with distinct keys the entries are
exactly the bindings `L -> I` that `resolvePrefix` sees), writes nothing to the
other streams, adds the number of entries to both `_headerLines[t]` and
`_lineCount[t]` (64-bit additions, exact when they do not pass 2^64 - 1) and
changes nothing else. -/
theorem writeHeader_spec (T : Format) (w : Writer) (t : Nat) :
    writeHeader .NT w t = .ok w ∧
    (T ≠ .NT → w.WF → t < w._numOuts →
      ∃ w1, writeHeader T w t = .ok w1 ∧
        w1._out.stream t = w._out.stream t ++ headerText (mapIter w._prefixes) ∧
        (mapIter w._prefixes).Perm w._prefixes ∧
        (mapKeysNodup w._prefixes → ∀ L I,
          (L, I) ∈ mapIter w._prefixes ↔ w._prefixes.lookup L = some I) ∧
        (∀ u, u ≠ t → w1._out.stream u = w._out.stream u) ∧
        w1._headerLines.getD t 0 =
          (w._headerLines.getD t 0 + w._prefixes.length) % 18446744073709551616 ∧
        w1._lineCount.getD t 0 =
          (w._lineCount.getD t 0 + w._prefixes.length) % 18446744073709551616 ∧
        (w._headerLines.getD t 0 + w._prefixes.length < 18446744073709551616 →
          w1._headerLines.getD t 0 = w._headerLines.getD t 0 + w._prefixes.length) ∧
        (w._lineCount.getD t 0 + w._prefixes.length < 18446744073709551616 →
          w1._lineCount.getD t 0 = w._lineCount.getD t 0 + w._prefixes.length) ∧
        (∀ u, u ≠ t → w1._headerLines.getD u 0 = w._headerLines.getD u 0 ∧
          w1._lineCount.getD u 0 = w._lineCount.getD u 0) ∧
        w1._blankNodeCount = w._blankNodeCount ∧
        w1._numOuts = w._numOuts ∧
        w1._prefixes = w._prefixes) := by
  refine ⟨rfl, ?_⟩
  intro hT hwf ht
  obtain ⟨_, hb2, hb3, _, hh, hl⟩ := hwf
  have h1 : t < w._lineCount.length := by omega
  have h2 : t < w._headerLines.length := by omega
  refine ⟨_, writeHeader_eq T hT w t h1 h2 hl hh, Output.write_stream_same _ _ _,
    mapIter_perm _, ?_, fun u hu => Output.write_stream_other _ _ _ _ hu,
    addAt_getD_same _ _ _ h2, addAt_getD_same _ _ _ h1, ?_, ?_,
    fun u hu => ⟨addAt_getD_other _ _ _ _ hu, addAt_getD_other _ _ _ _ hu⟩, rfl, rfl, rfl⟩
  · intro hm L I
    rw [(mapIter_perm w._prefixes).mem_iff]
    exact mem_iff_lookup _ hm L I
  · intro hb
    show (addAt w._headerLines t _).getD t 0 = _
    rw [addAt_getD_same _ _ _ h2, Nat.mod_eq_of_lt hb]
  · intro hb
    show (addAt w._lineCount t _).getD t 0 = _
    rw [addAt_getD_same _ _ _ h1, Nat.mod_eq_of_lt hb]

theorem writeHeader_spec_witness :
    ∃ w1, writeHeader .TTL (addPrefix (Writer.mk [] ⟨fun _ => []⟩ 1 [0] [0] [0]) (bytes "ex")
        (bytes "http://e/")).2 0 = .ok w1 ∧
      w1._out.stream 0 = bytes "@prefix ex: <http://e/> .\n" ∧
      w1._headerLines.getD 0 0 = 1 ∧ w1._lineCount.getD 0 0 = 1 := by
  obtain ⟨w1, h1, h2, _, _, _, _, _, h8, h9, _⟩ :=
    (writeHeader_spec .TTL (addPrefix (Writer.mk [] ⟨fun _ => []⟩ 1 [0] [0] [0]) (bytes "ex")
        (bytes "http://e/")).2 0).2 (by decide) (by decide) (by decide)
  refine ⟨w1, h1, ?_, ?_, ?_⟩
  · rw [h2]; decide
  · rw [h8 (by decide)]; decide
  · rw [h9 (by decide)]; decide

theorem generateBlankNode_eq (w : Writer) (t : Nat) (h : t < w._blankNodeCount.length) :
    generateBlankNode w t = .ok
      (bytes "_:" ++ to_string t ++ bytes "_" ++ to_string (w._blankNodeCount.getD t 0),
       { w with _blankNodeCount := addAt w._blankNodeCount t 1 }) := by
  unfold generateBlankNode addAt
  have : w._blankNodeCount.get? t = some (w._blankNodeCount.getD t 0) := by
    simp [List.getD, List.getElem?_eq_getElem h]
  rw [this]

theorem Writer.new_WF (L : Labels) (out : Output) (n : Nat) : (Writer.new L out n).WF := by
  unfold Writer.WF Writer.new
  simp only [List.length_replicate, List.mem_replicate, true_and]
  refine ⟨?_, ?_, ?_⟩ <;> intro x hx <;> rw [hx.2] <;> norm_num

theorem lookup_some_mem (m : PrefixTable) (L I : List Nat) (h : m.lookup L = some I) :
    (L, I) ∈ m := by
  induction m with
  | nil => simp at h
  | cons e r ih =>
    obtain ⟨k, v⟩ := e
    rw [lookup_cons_eq] at h
    by_cases hk : L = k
    · rw [if_pos hk] at h
      simp only [Option.some.injEq] at h
      rw [hk, h]; exact List.mem_cons_self _ _
    · rw [if_neg hk] at h
      exact List.mem_cons_of_mem _ (ih h)

theorem addPrefix_keeps (w : Writer) (pfx value lab N : List Nat)
    (h : w._prefixes.lookup lab = some N) :
    (addPrefix w pfx value).2._prefixes.lookup lab = some N := by
  cases hl : w._prefixes.lookup pfx with
  | some ns => rw [addPrefix_bound w pfx value ns hl]; exact h
  | none =>
    rw [addPrefix_unbound w pfx value hl]
    show List.lookup lab (w._prefixes ++ [(pfx, value)]) = some N
    rw [lookup_append_single _ _ _ _ hl]
    have : lab ≠ pfx := by
      intro e; rw [e, hl] at h; exact absurd h (by simp)
    rw [if_neg this, h]

theorem addPrefix_frame (w : Writer) (pfx value : List Nat) :
    (addPrefix w pfx value).2._numOuts = w._numOuts ∧
    (addPrefix w pfx value).2._blankNodeCount = w._blankNodeCount ∧
    (addPrefix w pfx value).2._headerLines = w._headerLines ∧
    (addPrefix w pfx value).2._lineCount = w._lineCount ∧
    (addPrefix w pfx value).2._out = w._out := by
  unfold addPrefix
  cases w._prefixes.lookup pfx <;> exact ⟨rfl, rfl, rfl, rfl, rfl⟩

theorem step_ok (T : Format) (w : Writer) (op : Op) (hwf : w.WF)
    (ht : ∀ t, op.thread = some t → t < w._numOuts) :
    ∃ w1, step T w op = .ok w1 ∧ w1.WF ∧ w1._numOuts = w._numOuts ∧
      (∀ lab N, w._prefixes.lookup lab = some N → w1._prefixes.lookup lab = some N) := by
  obtain ⟨hb1, hb2, hb3, hb, hh, hl⟩ := hwf
  cases op with
  | addPrefix pfx value =>
    obtain ⟨f1, f2, f3, f4, _⟩ := addPrefix_frame w pfx value
    refine ⟨_, rfl, ?_, f1, fun lab N h => addPrefix_keeps w pfx value lab N h⟩
    unfold Writer.WF
    rw [f1, f2, f3, f4]
    exact ⟨hb1, hb2, hb3, hb, hh, hl⟩
  | writeHeader t =>
    have htn := ht t rfl
    by_cases hT : T = .NT
    · subst hT
      exact ⟨w, rfl, ⟨hb1, hb2, hb3, hb, hh, hl⟩, rfl, fun _ _ h => h⟩
    · refine ⟨_, writeHeader_eq T hT w t (by omega) (by omega) hl hh, ?_, rfl, fun _ _ h => h⟩
      exact ⟨hb1, by simpa [addAt_length] using hb2, by simpa [addAt_length] using hb3, hb,
        addAt_bound _ _ _ hh, addAt_bound _ _ _ hl⟩
  | writeTriple t s p o =>
    have htn := ht t rfl
    refine ⟨_, writeTriple_eq w t s p o (by omega), ?_, rfl, fun _ _ h => h⟩
    exact ⟨hb1, hb2, by simpa [addAt_length] using hb3, hb, hh, addAt_bound _ _ _ hl⟩
  | generateBlankNode t =>
    have htn := ht t rfl
    refine ⟨{ w with _blankNodeCount := addAt w._blankNodeCount t 1 }, ?_, ?_, rfl,
      fun _ _ h => h⟩
    · show (match generateBlankNode w t with
        | .ok r => Res.ok r.2
        | .error e => Res.error e) = _
      rw [generateBlankNode_eq w t (by omega)]
    · exact ⟨by simpa [addAt_length] using hb1, hb2, hb3, addAt_bound _ _ _ hb, hh, hl⟩
  | resolvePrefix p => exact ⟨w, rfl, ⟨hb1, hb2, hb3, hb, hh, hl⟩, rfl, fun _ _ h => h⟩
  | generateIRI p v => exact ⟨w, rfl, ⟨hb1, hb2, hb3, hb, hh, hl⟩, rfl, fun _ _ h => h⟩
  | generateIRI_u64 p v => exact ⟨w, rfl, ⟨hb1, hb2, hb3, hb, hh, hl⟩, rfl, fun _ _ h => h⟩
  | generateIRIUnsafe p v => exact ⟨w, rfl, ⟨hb1, hb2, hb3, hb, hh, hl⟩, rfl, fun _ _ h => h⟩
  | generateLangTag s => exact ⟨w, rfl, ⟨hb1, hb2, hb3, hb, hh, hl⟩, rfl, fun _ _ h => h⟩
  | generateLiteral v s => exact ⟨w, rfl, ⟨hb1, hb2, hb3, hb, hh, hl⟩, rfl, fun _ _ h => h⟩
  | generateLiteralUnsafe v s =>
    exact ⟨w, rfl, ⟨hb1, hb2, hb3, hb, hh, hl⟩, rfl, fun _ _ h => h⟩

theorem run_ok (T : Format) : ∀ (ops : List Op) (w : Writer), w.WF →
    (∀ op ∈ ops, ∀ t, op.thread = some t → t < w._numOuts) →
    ∃ w1, run T ops w = .ok w1 ∧ w1.WF ∧ w1._numOuts = w._numOuts ∧
      (∀ lab N, w._prefixes.lookup lab = some N → w1._prefixes.lookup lab = some N) := by
  intro ops
  induction ops with
  | nil => intro w hwf _; exact ⟨w, rfl, hwf, rfl, fun _ _ h => h⟩
  | cons op ops ih =>
    intro w hwf ht
    obtain ⟨w1, h1, hwf1, hn1, hp1⟩ := step_ok T w op hwf (ht op (List.mem_cons_self _ _))
    obtain ⟨w2, h2, hwf2, hn2, hp2⟩ := ih w1 hwf1 (fun o ho t hot => by
      rw [hn1]; exact ht o (List.mem_cons_of_mem _ ho) t hot)
    refine ⟨w2, ?_, hwf2, by rw [hn2, hn1], fun lab N h => hp2 lab N (hp1 lab N h)⟩
    unfold run
    rw [h1]
    exact h2

theorem run_append (T : Format) : ∀ (ops1 ops2 : List Op) (w w1 : Writer),
    run T ops1 w = .ok w1 → run T (ops1 ++ ops2) w = run T ops2 w1 := by
  intro ops1
  induction ops1 with
  | nil => intro ops2 w w1 h; simp only [run, Res.ok.injEq] at h; rw [h]; rfl
  | cons op ops ih =>
    intro ops2 w w1 h
    simp only [List.cons_append]
    have e1 : run T (op :: (ops ++ ops2)) w = (match step T w op with
      | .ok w1 => run T (ops ++ ops2) w1
      | .error e => .error e) := rfl
    have e2 : run T (op :: ops) w = (match step T w op with
      | .ok w1 => run T ops w1
      | .error e => .error e) := rfl
    rw [e1]
    rw [e2] at h
    cases hs : step T w op with
    | ok w0 => rw [hs] at h; simp only [] at h ⊢; exact ih ops2 w0 w1 h
    | error e => rw [hs] at h; simp at h

/-- C23: start from the writer the constructor leaves, with any labels, any
sink and any number of workers, and make any sequence of calls of `addPrefix`,
`resolvePrefix`, `writeHeader`, `writeTriple` and the `generate` functions by
workers that exist. The run returns, and a label that is bound to a namespace
`N` at some point of it is bound to `N` at every later point: no call
overwrites or removes a binding, and `resolvePrefix` keeps returning `N`. -/
theorem prefix_binding_stable (T : Format) (L : Labels) (out : Output) (numOuts : Nat)
    (ops1 ops2 : List Op)
    (h : ∀ op ∈ ops1 ++ ops2, ∀ t, op.thread = some t → t < numOuts) :
    ∃ w1 w2, run T ops1 (Writer.new L out numOuts) = .ok w1 ∧
      run T (ops1 ++ ops2) (Writer.new L out numOuts) = .ok w2 ∧
      ∀ lab N, w1._prefixes.lookup lab = some N →
        w2._prefixes.lookup lab = some N ∧ resolvePrefix w2._prefixes lab = N := by
  obtain ⟨w1, h1, hwf1, hn1, _⟩ := run_ok T ops1 (Writer.new L out numOuts)
    (Writer.new_WF L out numOuts)
    (fun op ho t hot => h op (List.mem_append_left _ ho) t hot)
  obtain ⟨w2, h2, _, _, hp2⟩ := run_ok T ops2 w1 hwf1 (fun op ho t hot => by
    rw [hn1]; exact h op (List.mem_append_right _ ho) t hot)
  refine ⟨w1, w2, h1, ?_, ?_⟩
  · rw [run_append T ops1 ops2 _ w1 h1]; exact h2
  · intro lab N hl
    have := hp2 lab N hl
    refine ⟨this, ?_⟩
    unfold resolvePrefix
    rw [this]

theorem prefix_binding_stable_witness :
    ∃ w1 w2, run .TTL [Op.addPrefix (bytes "ex") (bytes "http://e/"), Op.writeHeader 0]
        (Writer.new specLabels ⟨fun _ => []⟩ 1) = .ok w1 ∧
      run .TTL ([Op.addPrefix (bytes "ex") (bytes "http://e/"), Op.writeHeader 0] ++
        [Op.addPrefix (bytes "ex") (bytes "http://f/"), Op.writeTriple 0 [] [] [],
         Op.generateBlankNode 0]) (Writer.new specLabels ⟨fun _ => []⟩ 1) = .ok w2 ∧
      ∀ lab N, w1._prefixes.lookup lab = some N →
        w2._prefixes.lookup lab = some N ∧ resolvePrefix w2._prefixes lab = N :=
  prefix_binding_stable .TTL specLabels ⟨fun _ => []⟩ 1
    [Op.addPrefix (bytes "ex") (bytes "http://e/"), Op.writeHeader 0]
    [Op.addPrefix (bytes "ex") (bytes "http://f/"), Op.writeTriple 0 [] [] [],
     Op.generateBlankNode 0] (by decide)

theorem headerText_mem (es : PrefixTable) (e : List Nat × List Nat) (h : e ∈ es) :
    ∃ a b, headerText es = a ++ headerLine e ++ b := by
  induction es with
  | nil => simp at h
  | cons x r ih =>
    rcases List.mem_cons.1 h with h1 | h1
    · subst h1
      exact ⟨[], headerText r, by simp [headerText]⟩
    · obtain ⟨a, b, hab⟩ := ih h1
      exact ⟨headerLine x ++ a, b, by simp [headerText, hab, List.append_assoc]⟩

theorem writeHeader_ok (T : Format) (w : Writer) (t : Nat) (hwf : w.WF) (ht : t < w._numOuts) :
    ∃ w1, writeHeader T w t = .ok w1 ∧ w1._prefixes = w._prefixes ∧
      (T ≠ .NT → w1._out.stream t = w._out.stream t ++ headerText (mapIter w._prefixes)) := by
  by_cases hT : T = .NT
  · subst hT
    exact ⟨w, rfl, rfl, fun h => absurd rfl h⟩
  · obtain ⟨_, hb2, hb3, _, hh, hl⟩ := hwf
    exact ⟨_, writeHeader_eq T hT w t (by omega) (by omega) hl hh, rfl,
      fun _ => Output.write_stream_same _ _ _⟩

/-- C24 (counterexample): in the TTL writer the constructor leaves, worker 0
writes the header and then `addPrefix("x", "http://x/")` is called. The call
returns true and binds `x`; `formatIRI("x", "a")` then emits the prefixed name
`x:a`, and the header that was written has no line for `x`. -/
theorem addPrefix_after_header_counterexample :
    ∃ w1, writeHeader .TTL (Writer.new specLabels ⟨fun _ => []⟩ 1) 0 = .ok w1 ∧
      (addPrefix w1 (bytes "x") (bytes "http://x/")).1 = true ∧
      (addPrefix w1 (bytes "x") (bytes "http://x/")).2._prefixes.lookup (bytes "x") =
        some (bytes "http://x/") ∧
      formatIRI .TTL (addPrefix w1 (bytes "x") (bytes "http://x/")).2._prefixes
        (bytes "x") (bytes "a") = .ok (bytes "x:a") ∧
      w1._out.stream 0 = headerText (mapIter (Writer.new specLabels ⟨fun _ => []⟩ 1)._prefixes) ∧
      headerLine (bytes "x", bytes "http://x/") ∉
        (mapIter (Writer.new specLabels ⟨fun _ => []⟩ 1)._prefixes).map headerLine := by
  obtain ⟨w1, h1, h2, h3⟩ := writeHeader_ok .TTL (Writer.new specLabels ⟨fun _ => []⟩ 1) 0
    (Writer.new_WF _ _ _) (by decide)
  have hl : w1._prefixes.lookup (bytes "x") = none := by rw [h2]; decide
  have ha := addPrefix_unbound w1 (bytes "x") (bytes "http://x/") hl
  refine ⟨w1, h1, by rw [ha], ?_, ?_, ?_, by decide⟩
  · rw [ha]
    show List.lookup _ (w1._prefixes ++ _) = _
    rw [lookup_append_single _ _ _ _ hl, if_pos rfl]
  · rw [ha]
    show formatIRI .TTL (w1._prefixes ++ _) _ _ = _
    rw [h2]
    decide
  · rw [h3 (by decide)]
    rfl

/-- C24 (amended): `addPrefix` is not gated by the header. For every format,
every writer whose arrays have a cell for worker `t`: `writeHeader` returns and
leaves the prefix table as it is, so afterwards `addPrefix(L, I)` still returns
true exactly for the labels that are unbound, and then binds `L` to `I`. In TTL
and QLEVER the header text written contains the line `@prefix L: <I> .` of every
label `L` that is bound (to `I`) when `writeHeader` is called; so a label that
`formatIRI` emits in a prefixed name has its line in the header provided it was
registered before the call of `writeHeader`. -/
theorem addPrefix_not_gated (T : Format) (w : Writer) (t : Nat) (hwf : w.WF)
    (ht : t < w._numOuts) :
    ∃ w1, writeHeader T w t = .ok w1 ∧ w1._prefixes = w._prefixes ∧
      (∀ L I, (addPrefix w1 L I).1 = true ↔ w._prefixes.lookup L = none) ∧
      (∀ L I, (addPrefix w1 L I).1 = true →
        (addPrefix w1 L I).2._prefixes.lookup L = some I) ∧
      (T ≠ .NT →
        w1._out.stream t = w._out.stream t ++ headerText (mapIter w._prefixes) ∧
        ∀ L I, w._prefixes.lookup L = some I →
          ∃ a b, headerText (mapIter w._prefixes) = a ++ headerLine (L, I) ++ b) := by
  obtain ⟨w1, h1, h2, h3⟩ := writeHeader_ok T w t hwf ht
  refine ⟨w1, h1, h2, ?_, ?_, ?_⟩
  · intro L I
    rw [addPrefix_fst, h2]
  · intro L I h
    have hl := (addPrefix_fst w1 L I).1 h
    rw [addPrefix_unbound w1 L I hl]
    show List.lookup _ (w1._prefixes ++ _) = _
    rw [lookup_append_single _ _ _ _ hl, if_pos rfl]
  · intro hT
    refine ⟨h3 hT, fun L I hl => headerText_mem _ _ ?_⟩
    rw [(mapIter_perm w._prefixes).mem_iff]
    exact lookup_some_mem _ _ _ hl

theorem addPrefix_not_gated_witness :
    ∃ w1, writeHeader .QLEVER (Writer.new specLabels ⟨fun _ => []⟩ 1) 0 = .ok w1 ∧
      w1._prefixes = (Writer.new specLabels ⟨fun _ => []⟩ 1)._prefixes ∧
      ((addPrefix w1 (bytes "x") (bytes "http://x/")).1 = true ↔
        (Writer.new specLabels ⟨fun _ => []⟩ 1)._prefixes.lookup (bytes "x") = none) := by
  obtain ⟨w1, h1, h2, h3, _⟩ := addPrefix_not_gated .QLEVER
    (Writer.new specLabels ⟨fun _ => []⟩ 1) 0 (by decide) (by decide)
  exact ⟨w1, h1, h2, h3 _ _⟩

theorem to_stringAux_foldl : ∀ (f n : Nat) (acc : List Nat), n < 10 ^ f →
    (to_stringAux f n acc).foldl (fun a c => 10 * a + (c - 0x30)) 0 =
      acc.foldl (fun a c => 10 * a + (c - 0x30)) n := by
  intro f
  induction f with
  | zero =>
    intro n acc h
    have : n = 0 := by simpa using h
    subst this
    rfl
  | succ f ih =>
    intro n acc h
    unfold to_stringAux
    by_cases h10 : n < 10
    · rw [if_pos h10]
      simp only [List.foldl_cons]
      congr 1
      omega
    · rw [if_neg h10]
      have hlt : n / 10 < 10 ^ f := by
        rw [Nat.div_lt_iff_lt_mul (by norm_num)]
        calc n < 10 ^ (f + 1) := h
          _ = 10 ^ f * 10 := by ring
      rw [ih (n / 10) _ hlt]
      simp only [List.foldl_cons]
      congr 1
      omega

theorem readDec_to_string (n : Nat) (h : n < 100000000000000000000) :
    readDec (to_string n) = n := by
  unfold readDec to_string
  rw [to_stringAux_foldl 20 n [] (by norm_num; exact h)]
  rfl

theorem to_string_inj (n m : Nat) (hn : n < 100000000000000000000)
    (hm : m < 100000000000000000000) (h : to_string n = to_string m) : n = m := by
  rw [← readDec_to_string n hn, ← readDec_to_string m hm, h]

theorem underscore_not_mem_to_string (n : Nat) : 0x5F ∉ to_string n := by
  intro h
  have := to_string_digits n _ h
  unfold isDigit at this
  omega

theorem blankLabel_inj (t n u m : Nat) (ht : t < 100000000000000000000)
    (hn : n < 100000000000000000000) (hu : u < 100000000000000000000)
    (hm : m < 100000000000000000000)
    (h : bytes "_:" ++ to_string t ++ bytes "_" ++ to_string n =
      bytes "_:" ++ to_string u ++ bytes "_" ++ to_string m) : t = u ∧ n = m := by
  have hb : bytes "_" = [0x5F] := by decide
  rw [hb, List.append_assoc, List.append_assoc, List.append_assoc, List.append_assoc] at h
  have h2 := List.append_cancel_left h
  simp only [List.singleton_append] at h2
  have h3 := (List.append_cons_inj_of_not_mem (underscore_not_mem_to_string t)
    (underscore_not_mem_to_string n)).1 h2
  exact ⟨to_string_inj t u ht hu h3.1, to_string_inj n m hn hm h3.2.2⟩

theorem blankRun_nodup : ∀ (ts : List Nat) (w : Writer), w.WF →
    w._numOuts ≤ 2147483648 →
    (∀ t ∈ ts, t < w._numOuts) →
    (∀ t, t < w._numOuts → w._blankNodeCount.getD t 0 + ts.count t < 18446744073709551616) →
    ∃ ls, blankRun ts w = .ok ls ∧ ls.length = ts.length ∧ ls.Nodup ∧
      ∀ l ∈ ls, ∃ t n, l = bytes "_:" ++ to_string t ++ bytes "_" ++ to_string n ∧
        t < w._numOuts ∧ w._blankNodeCount.getD t 0 ≤ n ∧ n < 18446744073709551616 := by
  intro ts
  induction ts with
  | nil => intro w _ _ _ _; exact ⟨[], rfl, rfl, List.nodup_nil, fun l hl => by simp at hl⟩
  | cons t ts ih =>
    intro w hwf hN hts hc
    obtain ⟨hb1, hb2, hb3, hb, hh, hl⟩ := hwf
    have ht : t < w._numOuts := hts t (List.mem_cons_self _ _)
    have htl : t < w._blankNodeCount.length := by omega
    have hct := hc t ht
    rw [List.count_cons_self] at hct
    have hwf1 : ({ w with _blankNodeCount := addAt w._blankNodeCount t 1 } : Writer).WF :=
      ⟨by simpa [addAt_length] using hb1, hb2, hb3, addAt_bound _ _ _ hb, hh, hl⟩
    obtain ⟨ls, h1, h2, h3, h4⟩ := ih { w with _blankNodeCount := addAt w._blankNodeCount t 1 }
      hwf1 hN (fun u hu => hts u (List.mem_cons_of_mem _ hu)) (by
        intro u hu
        show (addAt w._blankNodeCount t 1).getD u 0 + _ < _
        by_cases hut : u = t
        · subst hut
          rw [addAt_getD_same _ _ _ htl]
          have := Nat.mod_le (w._blankNodeCount.getD u 0 + 1) 18446744073709551616
          omega
        · rw [addAt_getD_other _ _ _ _ hut]
          have := hc u hu
          rw [List.count_cons_of_ne hut] at this
          exact this)
    refine ⟨(bytes "_:" ++ to_string t ++ bytes "_" ++
      to_string (w._blankNodeCount.getD t 0)) :: ls, ?_, by simp [h2], ?_, ?_⟩
    · unfold blankRun
      rw [generateBlankNode_eq w t htl]
      simp only []
      rw [h1]
    · rw [List.nodup_cons]
      refine ⟨?_, h3⟩
      intro hmem
      obtain ⟨u, n, he, hu, hle, hn⟩ := h4 _ hmem
      have hu' : u < w._numOuts := hu
      have := blankLabel_inj t (w._blankNodeCount.getD t 0) u n (by omega) (by omega)
        (by omega) (by omega) he
      obtain ⟨e1, e2⟩ := this
      subst e1
      have hle' : (addAt w._blankNodeCount t 1).getD t 0 ≤ n := hle
      rw [addAt_getD_same _ _ _ htl, Nat.mod_eq_of_lt (by omega)] at hle'
      omega
    · intro l hlm
      rcases List.mem_cons.1 hlm with h5 | h5
      · exact ⟨t, w._blankNodeCount.getD t 0, h5, ht, le_refl _, by omega⟩
      · obtain ⟨u, n, he, hu, hle, hn⟩ := h4 l h5
        refine ⟨u, n, he, hu, ?_, hn⟩
        have hle' : (addAt w._blankNodeCount t 1).getD u 0 ≤ n := hle
        by_cases hut : u = t
        · subst hut
          rw [addAt_getD_same _ _ _ htl, Nat.mod_eq_of_lt (by omega)] at hle'
          omega
        · rw [addAt_getD_other _ _ _ _ hut] at hle'
          exact hle'

theorem getD_replicate_zero (n t : Nat) : (List.replicate n 0).getD t 0 = 0 := by
  unfold List.getD
  by_cases h : t < n
  · simp [List.getElem?_replicate, h]
  · simp [List.getElem?_replicate, h]

/-- C25: the constructor starts every blank-node counter at 0. A call of
`generateBlankNode` by a worker `t` that has a cell, whose counter is `n`,
returns the label `_:` + `to_string(t)` + `_` + `to_string(n)`, adds one to
`_blankNodeCount[t]` (64-bit; exactly `n + 1` for `n` below 2^64 - 1) and
changes no other cell and no other member; `to_string` writes the decimal
numeral (digits only, read back as the number). In every run of
`generateBlankNode` calls from the constructor's state, by workers below the
number of workers (an `int`), with fewer than 2^64 calls per worker, all calls
return and no two of them return the same label. -/
theorem generateBlankNode_spec (L : Labels) (out : Output) (numOuts : Nat) :
    (∀ t, (Writer.new L out numOuts)._blankNodeCount.getD t 0 = 0) ∧
    (∀ (w : Writer) (t : Nat), t < w._blankNodeCount.length →
      ∃ w1, generateBlankNode w t = .ok
          (bytes "_:" ++ to_string t ++ bytes "_" ++ to_string (w._blankNodeCount.getD t 0),
            w1) ∧
        w1._blankNodeCount.getD t 0 =
          (w._blankNodeCount.getD t 0 + 1) % 18446744073709551616 ∧
        (w._blankNodeCount.getD t 0 + 1 < 18446744073709551616 →
          w1._blankNodeCount.getD t 0 = w._blankNodeCount.getD t 0 + 1) ∧
        (∀ u, u ≠ t → w1._blankNodeCount.getD u 0 = w._blankNodeCount.getD u 0) ∧
        w1._blankNodeCount.length = w._blankNodeCount.length ∧
        w1._headerLines = w._headerLines ∧ w1._lineCount = w._lineCount ∧
        w1._numOuts = w._numOuts ∧ w1._prefixes = w._prefixes ∧ w1._out = w._out) ∧
    (∀ n, n < 18446744073709551616 →
      readDec (to_string n) = n ∧ ∀ b ∈ to_string n, isDigit b) ∧
    (∀ ts : List Nat, numOuts ≤ 2147483648 → (∀ t ∈ ts, t < numOuts) →
      (∀ t, ts.count t < 18446744073709551616) →
      ∃ ls, blankRun ts (Writer.new L out numOuts) = .ok ls ∧ ls.length = ts.length ∧
        ls.Nodup) := by
  refine ⟨fun t => getD_replicate_zero _ _, ?_, ?_, ?_⟩
  · intro w t ht
    refine ⟨_, generateBlankNode_eq w t ht, addAt_getD_same _ _ _ ht, ?_,
      fun u hu => addAt_getD_other _ _ _ _ hu, addAt_length _ _ _, rfl, rfl, rfl, rfl, rfl⟩
    intro hb
    show (addAt w._blankNodeCount t 1).getD t 0 = _
    rw [addAt_getD_same _ _ _ ht, Nat.mod_eq_of_lt hb]
  · intro n hn
    exact ⟨readDec_to_string n (by omega), to_string_digits n⟩
  · intro ts hN hts hc
    obtain ⟨ls, h1, h2, h3, _⟩ := blankRun_nodup ts (Writer.new L out numOuts)
      (Writer.new_WF L out numOuts) hN hts (by
        intro t _
        show (List.replicate numOuts 0).getD t 0 + _ < _
        rw [getD_replicate_zero, Nat.zero_add]
        exact hc t)
    exact ⟨ls, h1, h2, h3⟩

theorem generateBlankNode_spec_witness :
    ∃ ls, blankRun [0, 1, 0, 1, 1] (Writer.new specLabels ⟨fun _ => []⟩ 2) = .ok ls ∧
      ls.length = [0, 1, 0, 1, 1].length ∧ ls.Nodup :=
  (generateBlankNode_spec specLabels ⟨fun _ => []⟩ 2).2.2.2 [0, 1, 0, 1, 1] (by decide)
    (by decide) (fun t => lt_of_le_of_lt (List.count_le_length _ _) (by decide))

theorem foldl_mod_sum (l : List Nat) : ∀ a, a < 18446744073709551616 →
    l.foldl (fun acc x => (acc + x) % 18446744073709551616) a =
      (a + l.sum) % 18446744073709551616 := by
  induction l with
  | nil => intro a ha; simp [Nat.mod_eq_of_lt ha]
  | cons x r ih =>
    intro a _
    simp only [List.foldl_cons, List.sum_cons]
    rw [ih _ (Nat.mod_lt _ (by norm_num))]
    omega

theorem map_getD_range (l : List Nat) : (List.range l.length).map (fun i => l.getD i 0) = l := by
  apply List.ext_getElem
  · simp
  · intro i h1 h2
    simp [List.getD, List.getElem?_eq_getElem h2]

theorem foldl_triple (f g h : Nat → Nat) (is : List Nat) : ∀ a b c : Nat,
    is.foldl (fun (acc : Nat × Nat × Nat) i =>
      ((acc.1 + f i) % 18446744073709551616, (acc.2.1 + g i) % 18446744073709551616,
        (acc.2.2 + h i) % 18446744073709551616)) (a, b, c) =
    ((is.map f).foldl (fun acc x => (acc + x) % 18446744073709551616) a,
     (is.map g).foldl (fun acc x => (acc + x) % 18446744073709551616) b,
     (is.map h).foldl (fun acc x => (acc + x) % 18446744073709551616) c) := by
  induction is with
  | nil => intro a b c; rfl
  | cons i r ih => intro a b c; simp only [List.foldl_cons, List.map_cons]; rw [ih]

theorem statistic_eq (w : Writer) (hwf : w.WF) :
    statistic w =
      { blankNodes := w._blankNodeCount.sum % 18446744073709551616
        header := w._headerLines.sum % 18446744073709551616
        lines := w._lineCount.sum % 18446744073709551616
        triples := (w._lineCount.sum % 18446744073709551616 + 18446744073709551616 -
          w._headerLines.sum % 18446744073709551616) % 18446744073709551616 } := by
  obtain ⟨h1, h2, h3, _⟩ := hwf
  unfold statistic
  simp only []
  rw [foldl_triple]
  have e1 := map_getD_range w._blankNodeCount
  have e2 := map_getD_range w._headerLines
  have e3 := map_getD_range w._lineCount
  rw [h1] at e1; rw [h2] at e2; rw [h3] at e3
  rw [e1, e2, e3, foldl_mod_sum _ 0 (by norm_num), foldl_mod_sum _ 0 (by norm_num),
    foldl_mod_sum _ 0 (by norm_num)]
  simp only [Nat.zero_add]

theorem getD_le_sum : ∀ (a : List Nat) (t : Nat), a.getD t 0 ≤ a.sum := by
  intro a
  induction a with
  | nil => intro t; simp
  | cons x r ih =>
    intro t
    cases t with
    | zero => simp
    | succ t =>
      have := ih t
      simp only [List.getD_cons_succ, List.sum_cons]
      omega

theorem sum_addAt : ∀ (a : List Nat) (t n : Nat), t < a.length →
    a.getD t 0 + n < 18446744073709551616 → (addAt a t n).sum = a.sum + n := by
  intro a
  induction a with
  | nil => intro t n h; simp at h
  | cons x r ih =>
    intro t n h hb
    cases t with
    | zero =>
      simp only [List.getD_cons_zero] at hb
      simp only [addAt, List.getD_cons_zero, List.set_cons_zero, List.sum_cons,
        Nat.mod_eq_of_lt hb]
      omega
    | succ t =>
      simp only [List.getD_cons_succ] at hb
      have := ih t n (by simpa using h) hb
      unfold addAt at this ⊢
      simp only [List.getD_cons_succ, List.set_cons_succ, List.sum_cons, this]
      omega

theorem headerSize_eq (T : Format) (w w1 : Writer) (h : w1._prefixes = w._prefixes) :
    headerSize T w1 = headerSize T w := by
  unfold headerSize; rw [h]

theorem countTriples_cons (op : Op) (ops : List Op) :
    countTriples (op :: ops) = countTriples [op] + countTriples ops := by
  cases op <;> simp +arith [countTriples]

theorem countHeaders_cons (op : Op) (ops : List Op) :
    countHeaders (op :: ops) = countHeaders [op] + countHeaders ops := by
  cases op <;> simp +arith [countHeaders]

theorem countBlank_cons (op : Op) (ops : List Op) :
    countBlank (op :: ops) = countBlank [op] + countBlank ops := by
  cases op <;> simp +arith [countBlank]

theorem step_counts (T : Format) (w : Writer) (op : Op) (hwf : w.WF)
    (ht : ∃ t, op.thread = some t ∧ t < w._numOuts)
    (hHL : w._headerLines.sum ≤ w._lineCount.sum)
    (hL : w._lineCount.sum + countTriples [op] + countHeaders [op] * headerSize T w <
      18446744073709551616)
    (hB : w._blankNodeCount.sum + countBlank [op] < 18446744073709551616) :
    ∃ w1, step T w op = .ok w1 ∧ w1.WF ∧ w1._numOuts = w._numOuts ∧
      w1._prefixes = w._prefixes ∧
      w1._lineCount.sum =
        w._lineCount.sum + countTriples [op] + countHeaders [op] * headerSize T w ∧
      w1._headerLines.sum = w._headerLines.sum + countHeaders [op] * headerSize T w ∧
      w1._blankNodeCount.sum = w._blankNodeCount.sum + countBlank [op] := by
  obtain ⟨hb1, hb2, hb3, hb, hh, hl⟩ := hwf
  obtain ⟨t, hop, htn⟩ := ht
  cases op with
  | writeTriple t0 s p o =>
    simp only [Op.thread, Option.some.injEq] at hop
    subst hop
    have htl : t0 < w._lineCount.length := by omega
    simp only [countTriples, countHeaders, countBlank] at hL hB ⊢
    have hg := getD_le_sum w._lineCount t0
    have hs := sum_addAt w._lineCount t0 1 htl (by omega)
    refine ⟨_, writeTriple_eq w t0 s p o htl,
      ⟨hb1, hb2, by simpa [addAt_length] using hb3, hb, hh, addAt_bound _ _ _ hl⟩,
      rfl, rfl, ?_, ?_, ?_⟩
    · dsimp only; rw [hs]; omega
    · dsimp only; omega
    · dsimp only; omega
  | writeHeader t0 =>
    simp only [Op.thread, Option.some.injEq] at hop
    subst hop
    simp only [countTriples, countHeaders, countBlank] at hL hB ⊢
    by_cases hT : T = .NT
    · subst hT
      have hz : headerSize .NT w = 0 := rfl
      rw [hz]
      exact ⟨w, rfl, ⟨hb1, hb2, hb3, hb, hh, hl⟩, rfl, rfl, by omega, by omega, by omega⟩
    · have htl : t0 < w._lineCount.length := by omega
      have hth : t0 < w._headerLines.length := by omega
      have hsz : headerSize T w = w._prefixes.length := by
        cases T with
        | NT => exact absurd rfl hT
        | TTL => rfl
        | QLEVER => rfl
      rw [hsz] at hL ⊢
      have hg := getD_le_sum w._lineCount t0
      have hg2 := getD_le_sum w._headerLines t0
      have hs := sum_addAt w._lineCount t0 w._prefixes.length htl (by omega)
      have hs2 := sum_addAt w._headerLines t0 w._prefixes.length hth (by omega)
      refine ⟨_, writeHeader_eq T hT w t0 htl hth hl hh,
        ⟨hb1, by simpa [addAt_length] using hb2, by simpa [addAt_length] using hb3, hb,
          addAt_bound _ _ _ hh, addAt_bound _ _ _ hl⟩, rfl, rfl, ?_, ?_, ?_⟩
      · dsimp only; rw [hs]; omega
      · dsimp only; rw [hs2]; omega
      · dsimp only; omega
  | generateBlankNode t0 =>
    simp only [Op.thread, Option.some.injEq] at hop
    subst hop
    have htl : t0 < w._blankNodeCount.length := by omega
    simp only [countTriples, countHeaders, countBlank] at hL hB ⊢
    have hg := getD_le_sum w._blankNodeCount t0
    have hs := sum_addAt w._blankNodeCount t0 1 htl (by omega)
    refine ⟨{ w with _blankNodeCount := addAt w._blankNodeCount t0 1 }, ?_,
      ⟨by simpa [addAt_length] using hb1, hb2, hb3, addAt_bound _ _ _ hb, hh, hl⟩,
      rfl, rfl, ?_, ?_, ?_⟩
    · show (match generateBlankNode w t0 with
        | .ok r => Res.ok r.2
        | .error e => Res.error e) = _
      rw [generateBlankNode_eq w t0 htl]
    · dsimp only; omega
    · dsimp only; omega
    · dsimp only; rw [hs]
  | addPrefix a b => simp [Op.thread] at hop
  | resolvePrefix a => simp [Op.thread] at hop
  | generateIRI a b => simp [Op.thread] at hop
  | generateIRI_u64 a b => simp [Op.thread] at hop
  | generateIRIUnsafe a b => simp [Op.thread] at hop
  | generateLangTag a => simp [Op.thread] at hop
  | generateLiteral a b => simp [Op.thread] at hop
  | generateLiteralUnsafe a b => simp [Op.thread] at hop

theorem run_counts (T : Format) : ∀ (ops : List Op) (w : Writer), w.WF →
    (∀ op ∈ ops, ∃ t, op.thread = some t ∧ t < w._numOuts) →
    w._headerLines.sum ≤ w._lineCount.sum →
    w._lineCount.sum + countTriples ops + countHeaders ops * headerSize T w <
      18446744073709551616 →
    w._blankNodeCount.sum + countBlank ops < 18446744073709551616 →
    ∃ w1, run T ops w = .ok w1 ∧ w1.WF ∧ w1._numOuts = w._numOuts ∧
      w1._prefixes = w._prefixes ∧
      w1._lineCount.sum =
        w._lineCount.sum + countTriples ops + countHeaders ops * headerSize T w ∧
      w1._headerLines.sum = w._headerLines.sum + countHeaders ops * headerSize T w ∧
      w1._blankNodeCount.sum = w._blankNodeCount.sum + countBlank ops := by
  intro ops
  induction ops with
  | nil =>
    intro w hwf _ _ _ _
    exact ⟨w, rfl, hwf, rfl, rfl, by simp [countTriples, countHeaders], by simp [countHeaders],
      by simp [countBlank]⟩
  | cons op ops ih =>
    intro w hwf ht hHL hL hB
    rw [countTriples_cons, countHeaders_cons] at hL
    rw [countBlank_cons] at hB
    rw [countTriples_cons, countHeaders_cons, countBlank_cons]
    have hmul : (countHeaders [op] + countHeaders ops) * headerSize T w =
        countHeaders [op] * headerSize T w + countHeaders ops * headerSize T w := by ring
    rw [hmul] at hL ⊢
    obtain ⟨w1, h1, hwf1, hn1, hp1, hl1, hh1, hbn1⟩ := step_counts T w op hwf
      (ht op (List.mem_cons_self _ _)) hHL (by omega) (by omega)
    have hsz := headerSize_eq T w w1 hp1
    obtain ⟨w2, h2, hwf2, hn2, hp2, hl2, hh2, hbn2⟩ := ih w1 hwf1
      (fun o ho => by rw [hn1]; exact ht o (List.mem_cons_of_mem _ ho))
      (by omega) (by rw [hsz]; omega) (by omega)
    rw [hsz] at hl2 hh2
    refine ⟨w2, ?_, hwf2, by rw [hn2, hn1], by rw [hp2, hp1], by omega, by omega, by omega⟩
    have e0 : run T (op :: ops) w = (match step T w op with
      | .ok w1 => run T ops w1
      | .error e => .error e) := rfl
    rw [e0, h1]
    exact h2

theorem run_replicate_writeTriple (T : Format) (t : Nat) (s p o : List Nat) :
    ∀ (k : Nat) (w : Writer), w.WF → t < w._numOuts →
    ∃ w1, run T (List.replicate k (Op.writeTriple t s p o)) w = .ok w1 ∧ w1.WF ∧
      w1._numOuts = w._numOuts ∧ w1._prefixes = w._prefixes ∧
      w1._lineCount = addAt w._lineCount t k ∧ w1._headerLines = w._headerLines ∧
      w1._blankNodeCount = w._blankNodeCount := by
  intro k
  induction k with
  | zero =>
    intro w hwf _
    exact ⟨w, rfl, hwf, rfl, rfl, (addAt_zero _ _ hwf.2.2.2.2.2).symm, rfl, rfl⟩
  | succ k ih =>
    intro w hwf ht
    obtain ⟨hb1, hb2, hb3, hb, hh, hl⟩ := hwf
    have htl : t < w._lineCount.length := by omega
    obtain ⟨w1, h1, hwf1, hn1, hp1, hl1, hh1, hbn1⟩ := ih
      { w with
        _out := w._out.write t (s ++ [0x20] ++ p ++ [0x20] ++ o ++ [0x20, 0x2E, 0x0A])
        _lineCount := addAt w._lineCount t 1 }
      ⟨hb1, hb2, by simpa [addAt_length] using hb3, hb, hh, addAt_bound _ _ _ hl⟩ ht
    refine ⟨w1, ?_, hwf1, hn1, hp1, ?_, hh1, hbn1⟩
    · have e0 : run T (List.replicate (k + 1) (Op.writeTriple t s p o)) w =
          (match writeTriple w t s p o with
          | .ok w1 => run T (List.replicate k (Op.writeTriple t s p o)) w1
          | .error e => .error e) := rfl
      rw [e0, writeTriple_eq w t s p o htl]
      exact h1
    · rw [hl1]
      dsimp only
      rw [addAt_addAt _ _ _ _ htl, Nat.add_comm]

/-- C28 (counterexample): one worker writes 2^64 - 1 triples and then the TTL
header of the twelve constructor prefixes. `_lineCount[0]` has wrapped around to
11 while `_headerLines[0]` is 12, so the reported header count exceeds the
reported line count and `lines` is not `header + triples`. -/
theorem statistic_wrap_counterexample :
    ∃ w, run .TTL (List.replicate 18446744073709551615 (Op.writeTriple 0 [] [] []) ++
          [Op.writeHeader 0]) (Writer.new specLabels ⟨fun _ => []⟩ 1) = .ok w ∧
      (statistic w).header = 12 ∧ (statistic w).lines = 11 ∧
      (statistic w).triples = 18446744073709551615 ∧
      ¬ ((statistic w).header ≤ (statistic w).lines) ∧
      (statistic w).lines ≠ (statistic w).header + (statistic w).triples := by
  obtain ⟨w1, h1, hwf1, hn1, hp1, hl1, hh1, hbn1⟩ := run_replicate_writeTriple .TTL 0 [] [] []
    18446744073709551615 (Writer.new specLabels ⟨fun _ => []⟩ 1) (Writer.new_WF _ _ _)
    (by decide)
  have hn : w1._numOuts = 1 := hn1
  have hlen : w1._prefixes.length = 12 := by rw [hp1]; decide
  have hL : w1._lineCount = [18446744073709551615] := by rw [hl1]; decide
  have hH : w1._headerLines = [0] := by rw [hh1]; rfl
  have hB : w1._blankNodeCount = [0] := by rw [hbn1]; rfl
  obtain ⟨_, _, _, _, hh, hl⟩ := hwf1
  have h2 := writeHeader_eq .TTL (by decide) w1 0 (by rw [hL]; decide) (by rw [hH]; decide) hl hh
  refine ⟨{ w1 with
      _out := w1._out.write 0 (headerText (mapIter w1._prefixes))
      _headerLines := addAt w1._headerLines 0 w1._prefixes.length
      _lineCount := addAt w1._lineCount 0 w1._prefixes.length }, ?_, ?_⟩
  · rw [run_append .TTL _ _ _ w1 h1]
    show (match writeHeader .TTL w1 0 with
      | .ok w1 => run .TTL [] w1
      | .error e => .error e) = _
    rw [h2]
    rfl
  · unfold statistic
    dsimp only
    rw [hn, hL, hH, hB, hlen]
    decide

/-- C28 (amended): start from the writer the constructor leaves and make any
sequence of `writeHeader`, `writeTriple` and `generateBlankNode` calls by
workers that exist, in which fewer than 2^64 lines are written in total
(triples plus header lines) and fewer than 2^64 blank nodes are generated.
The run returns; the sum of `_headerLines` is at most the sum of `_lineCount`;
`writeStatisticJson` reports these two sums as `header` and `lines`, reports
`triples = lines - header` without wrap-around, so `lines = header + triples`;
`triples` is the number of `writeTriple` calls of the sequence; and
`blankNodes` is the sum of the blank-node counters, the number of
`generateBlankNode` calls. -/
theorem statistic_spec (T : Format) (L : Labels) (out : Output) (numOuts : Nat)
    (ops : List Op)
    (ht : ∀ op ∈ ops, ∃ t, op.thread = some t ∧ t < numOuts)
    (hL : countTriples ops + countHeaders ops * headerSize T (Writer.new L out numOuts) <
      18446744073709551616)
    (hB : countBlank ops < 18446744073709551616) :
    ∃ w, run T ops (Writer.new L out numOuts) = .ok w ∧
      w._headerLines.sum ≤ w._lineCount.sum ∧
      (statistic w).header = w._headerLines.sum ∧
      (statistic w).lines = w._lineCount.sum ∧
      (statistic w).triples = w._lineCount.sum - w._headerLines.sum ∧
      (statistic w).lines = (statistic w).header + (statistic w).triples ∧
      (statistic w).triples = countTriples ops ∧
      (statistic w).blankNodes = w._blankNodeCount.sum ∧
      (statistic w).blankNodes = countBlank ops := by
  have z : ∀ n : Nat, (List.replicate n 0).sum = 0 := by intro n; simp
  have z1 : (Writer.new L out numOuts)._lineCount.sum = 0 := z _
  have z2 : (Writer.new L out numOuts)._headerLines.sum = 0 := z _
  have z3 : (Writer.new L out numOuts)._blankNodeCount.sum = 0 := z _
  obtain ⟨w, h1, hwf, _, _, hl, hh, hb⟩ := run_counts T ops (Writer.new L out numOuts)
    (Writer.new_WF _ _ _) ht (by rw [z1, z2]) (by rw [z1]; omega) (by rw [z3]; omega)
  rw [z1] at hl; rw [z2] at hh; rw [z3] at hb
  refine ⟨w, h1, by omega, ?_⟩
  rw [statistic_eq w hwf]
  dsimp only
  rw [Nat.mod_eq_of_lt (by omega : w._headerLines.sum < 18446744073709551616),
    Nat.mod_eq_of_lt (by omega : w._lineCount.sum < 18446744073709551616),
    Nat.mod_eq_of_lt (by omega : w._blankNodeCount.sum < 18446744073709551616)]
  have e : (w._lineCount.sum + 18446744073709551616 - w._headerLines.sum) %
      18446744073709551616 = w._lineCount.sum - w._headerLines.sum := by omega
  rw [e]
  refine ⟨rfl, rfl, rfl, by omega, by omega, rfl, by omega⟩

theorem statistic_spec_witness :
    ∃ w, run .TTL [Op.writeHeader 0, Op.writeTriple 1 [] [] [], Op.generateBlankNode 1,
        Op.writeTriple 0 [] [] []] (Writer.new specLabels ⟨fun _ => []⟩ 2) = .ok w ∧
      (statistic w).lines = (statistic w).header + (statistic w).triples ∧
      (statistic w).triples = 2 := by
  obtain ⟨w, h1, _, _, _, _, h6, h7, _⟩ := statistic_spec .TTL specLabels ⟨fun _ => []⟩ 2
    [Op.writeHeader 0, Op.writeTriple 1 [] [] [], Op.generateBlankNode 1,
      Op.writeTriple 0 [] [] []] (by decide) (by decide) (by decide)
  exact ⟨w, h1, h6, h7⟩

/-- C39: `encodePN_PREFIX` is a pure validator. Whenever it returns without
error, for any byte string `s`, the result is `s` itself; and for the empty
string it returns the empty string. -/
theorem encodePN_PREFIX_validator :
    (∀ s out, encodePN_PREFIX s = .ok out → out = s) ∧ encodePN_PREFIX [] = .ok [] :=
  ⟨encodePN_PREFIX_copy, rfl⟩

theorem encodePN_PREFIX_validator_witness :
    ∃ out, encodePN_PREFIX [0xC3, 0xA9, 0x2E, 0x61] = .ok out ∧ out = [0xC3, 0xA9, 0x2E, 0x61] :=
  ⟨[0xC3, 0xA9, 0x2E, 0x61], by decide,
    encodePN_PREFIX_validator.1 [0xC3, 0xA9, 0x2E, 0x61] [0xC3, 0xA9, 0x2E, 0x61] (by decide)⟩

theorem drop_takeWhile_length (p : Nat → Bool) (v : List Nat) :
    v.drop (v.takeWhile p).length = v.dropWhile p := by
  have h := List.drop_left (v.takeWhile p) (v.dropWhile p)
  rwa [List.takeWhile_append_dropWhile] at h

theorem takeWhile_length_lt (p : Nat → Bool) (l : List Nat) (x : Nat) (hx : x ∈ l)
    (hp : p x = false) : (l.takeWhile p).length < l.length := by
  induction l with
  | nil => simp at hx
  | cons a r ih =>
    simp only [List.takeWhile_cons]
    by_cases ha : p a = true
    · rw [if_pos ha]
      rcases List.mem_cons.1 hx with h | h
      · rw [h, ha] at hp; exact absurd hp (by simp)
      · have := ih h
        simp only [List.length_cons]; omega
    · rw [if_neg ha]; simp

theorem dropWhile_congr_mem (p q : Nat → Bool) : ∀ (l : List Nat),
    (∀ x ∈ l, p x = q x) → l.dropWhile p = l.dropWhile q := by
  intro l
  induction l with
  | nil => intro _; rfl
  | cons a r ih =>
    intro h
    have ha := h a (List.mem_cons_self _ _)
    simp only [List.dropWhile_cons, ha]
    rw [ih (fun x hx => h x (List.mem_cons_of_mem _ hx))]

theorem mem_of_mem_dropWhile (p : Nat → Bool) (l : List Nat) (x : Nat)
    (h : x ∈ l.dropWhile p) : x ∈ l :=
  (List.dropWhile_sublist p).subset h

theorem substr_trim (p : Nat → Bool) (v : List Nat) :
    (v.drop (v.takeWhile p).length).take
      (if (v.takeWhile p).length ≤ v.length - (v.reverse.takeWhile p).length then
        v.length - (v.reverse.takeWhile p).length - (v.takeWhile p).length
      else 18446744073709551616 -
        ((v.takeWhile p).length - (v.length - (v.reverse.takeWhile p).length))) =
    ((v.dropWhile p).reverse.dropWhile p).reverse := by
  rw [drop_takeWhile_length]
  cases hd : v.dropWhile p with
  | nil => simp
  | cons x r =>
    have hx : p x = false := by
      have := List.head_dropWhile_not p v (by rw [hd]; simp)
      simpa [hd] using this
    have hv : v = v.takeWhile p ++ x :: r := by
      rw [← hd]; exact (List.takeWhile_append_dropWhile p v).symm
    have hlt : ((x :: r).reverse.takeWhile p).length < (x :: r).reverse.length :=
      takeWhile_length_lt p _ x (by simp) hx
    have hrev : v.reverse.takeWhile p = (x :: r).reverse.takeWhile p := by
      conv_lhs => rw [hv, List.reverse_append, List.takeWhile_append]
      rw [if_neg (by omega)]
    have hlen : v.length = (v.takeWhile p).length + (x :: r).length := by
      conv_lhs => rw [hv]
      simp
    rw [hrev]
    simp only [List.length_reverse] at hlt
    rw [if_pos (by omega)]
    have e : v.length - ((x :: r).reverse.takeWhile p).length - (v.takeWhile p).length =
        (x :: r).length - ((x :: r).reverse.takeWhile p).length := by omega
    rw [e, ← drop_takeWhile_length p (x :: r).reverse, List.drop_reverse, List.reverse_reverse]

set_option maxRecDepth 100000 in
theorem isspace_schar (b : Nat) (h : b < 256) : isspace (schar b) = isWhitespaceByte b := by
  revert b
  decide

theorem generateIRI_eq_trim (T : Format) (prefixes : PrefixTable) (p v : List Nat)
    (hv : ∀ b ∈ v, b < 256) :
    generateIRI T prefixes p v = formatIRI T prefixes p (trimSpace v) := by
  unfold generateIRI
  simp only []
  rw [substr_trim (fun c => isspace (schar c)) v]
  have e1 : v.dropWhile (fun c => isspace (schar c)) = v.dropWhile isWhitespaceByte :=
    dropWhile_congr_mem _ _ v (fun x hx => isspace_schar x (hv x hx))
  rw [e1]
  have e2 : (v.dropWhile isWhitespaceByte).reverse.dropWhile (fun c => isspace (schar c)) =
      (v.dropWhile isWhitespaceByte).reverse.dropWhile isWhitespaceByte :=
    dropWhile_congr_mem _ _ _ (fun x hx => isspace_schar x
      (hv x (mem_of_mem_dropWhile _ _ _ (List.mem_reverse.1 hx))))
  rw [e2]
  rfl

theorem trimSpace_all_ws (v : List Nat) (h : ∀ b ∈ v, isWhitespaceByte b = true) :
    trimSpace v = [] := by
  unfold trimSpace
  have : v.dropWhile isWhitespaceByte = [] := List.dropWhile_eq_nil_iff.2 h
  rw [this]; rfl

theorem trimSpace_pad (v : List Nat) : trimSpace ([0x20] ++ v ++ [0x20]) = trimSpace v := by
  unfold trimSpace
  have h0 : isWhitespaceByte 0x20 = true := by decide
  have e1 : ([0x20] ++ v ++ [0x20]).dropWhile isWhitespaceByte =
      (v ++ [0x20]).dropWhile isWhitespaceByte := by
    simp [List.dropWhile_cons, h0]
  rw [e1, List.dropWhile_append]
  cases hd : v.dropWhile isWhitespaceByte with
  | nil => simp [List.dropWhile_cons, h0]
  | cons x r =>
    simp only [List.isEmpty_cons, Bool.false_eq_true, if_false, List.reverse_append,
      List.reverse_cons, List.reverse_nil, List.nil_append, List.singleton_append,
      List.dropWhile_cons, h0, if_true]

theorem getLast?_suffix (l1 l2 : List Nat) (h : l1 <:+ l2) (hne : l1 ≠ []) :
    l1.getLast? = l2.getLast? := by
  obtain ⟨t, ht⟩ := h
  rw [← ht, List.getLast?_append_of_ne_nil _ hne]

theorem trimSpace_shape (v : List Nat) :
    ∃ a b, v = a ++ trimSpace v ++ b ∧ (∀ x ∈ a, isWhitespaceByte x = true) ∧
      (∀ x ∈ b, isWhitespaceByte x = true) ∧
      (∀ x, (trimSpace v).head? = some x → isWhitespaceByte x = false) ∧
      (∀ x, (trimSpace v).getLast? = some x → isWhitespaceByte x = false) := by
  refine ⟨v.takeWhile isWhitespaceByte,
    ((v.dropWhile isWhitespaceByte).reverse.takeWhile isWhitespaceByte).reverse, ?_, ?_, ?_, ?_, ?_⟩
  · unfold trimSpace
    rw [List.append_assoc, ← List.reverse_append, List.takeWhile_append_dropWhile,
      List.reverse_reverse, List.takeWhile_append_dropWhile]
  · intro x hx; exact (List.mem_takeWhile_imp hx)
  · intro x hx; exact (List.mem_takeWhile_imp (List.mem_reverse.1 hx))
  · intro x hx
    unfold trimSpace at hx
    rw [List.head?_reverse] at hx
    have hne : (v.dropWhile isWhitespaceByte).reverse.dropWhile isWhitespaceByte ≠ [] := by
      intro e; rw [e] at hx; simp at hx
    rw [getLast?_suffix _ _ (List.dropWhile_suffix _) hne, List.getLast?_reverse] at hx
    have := List.head?_dropWhile_not isWhitespaceByte v
    rw [hx] at this
    simpa using this
  · intro x hx
    unfold trimSpace at hx
    rw [List.getLast?_reverse] at hx
    have := List.head?_dropWhile_not isWhitespaceByte
      (v.dropWhile isWhitespaceByte).reverse
    rw [hx] at this
    simpa using this

/-- C37: for every format, prefix table, prefix `p` and byte string `v`,
`generateIRI(p, v)` is `formatIRI(p, t)` for `t` the text `v` without its leading
and trailing whitespace bytes (space, TAB, LF, VT, FF, CR): `v` is whitespace,
then `t`, then whitespace, and `t` neither begins nor ends with a whitespace
byte, so interior whitespace stays in `t` and is handled by `formatIRI`. An
all-whitespace `v` gives `formatIRI(p, "")`, and padding `v` with a space on
both sides does not change the result. -/
theorem generateIRI_trims (T : Format) (prefixes : PrefixTable) (p v : List Nat)
    (hv : ∀ b ∈ v, b < 256) :
    generateIRI T prefixes p v = formatIRI T prefixes p (trimSpace v) ∧
    (∃ a b, v = a ++ trimSpace v ++ b ∧ (∀ x ∈ a, isWhitespaceByte x = true) ∧
      (∀ x ∈ b, isWhitespaceByte x = true) ∧
      (∀ x, (trimSpace v).head? = some x → isWhitespaceByte x = false) ∧
      (∀ x, (trimSpace v).getLast? = some x → isWhitespaceByte x = false)) ∧
    ((∀ b ∈ v, isWhitespaceByte b = true) →
      generateIRI T prefixes p v = formatIRI T prefixes p []) ∧
    generateIRI T prefixes p ([0x20] ++ v ++ [0x20]) = generateIRI T prefixes p v := by
  refine ⟨generateIRI_eq_trim T prefixes p v hv, trimSpace_shape v, ?_, ?_⟩
  · intro h
    rw [generateIRI_eq_trim T prefixes p v hv, trimSpace_all_ws v h]
  · rw [generateIRI_eq_trim T prefixes p v hv, generateIRI_eq_trim T prefixes p _ (by
      intro b hb
      simp only [List.mem_append, List.mem_singleton] at hb
      rcases hb with (h | h) | h
      · omega
      · exact hv b h
      · omega), trimSpace_pad]

theorem generateIRI_trims_witness :
    generateIRI .TTL (constructorPrefixes specLabels) (bytes "osm") (bytes " \ta b\n ") =
      formatIRI .TTL (constructorPrefixes specLabels) (bytes "osm") (bytes "a b") ∧
    generateIRI .NT (constructorPrefixes specLabels) (bytes "osm") (bytes " \t ") =
      formatIRI .NT (constructorPrefixes specLabels) (bytes "osm") [] :=
  ⟨(generateIRI_trims .TTL (constructorPrefixes specLabels) (bytes "osm") (bytes " \ta b\n ")
      (by decide)).1,
   (generateIRI_trims .NT (constructorPrefixes specLabels) (bytes "osm") (bytes " \t ")
      (by decide)).2.2.1 (by decide)⟩

theorem unescapePN_LOCAL_percent (h1 h2 : Nat) (r : List Nat) :
    unescapePN_LOCAL (0x25 :: h1 :: h2 :: r) = readHex [h1, h2] :: unescapePN_LOCAL r := by
  conv_lhs => unfold unescapePN_LOCAL
  simp

theorem unescapePN_LOCAL_backslash (e : Nat) (r : List Nat) :
    unescapePN_LOCAL (0x5C :: e :: r) = e :: unescapePN_LOCAL r := by
  conv_lhs => unfold unescapePN_LOCAL
  simp

theorem unescapePN_LOCAL_plain (c : Nat) (r : List Nat) (h : c ≠ 0x25) (h2 : c ≠ 0x5C) :
    unescapePN_LOCAL (c :: r) = c :: unescapePN_LOCAL r := by
  conv_lhs => unfold unescapePN_LOCAL
  simp only [if_neg h, if_neg h2]

theorem unescapePN_LOCAL_append_plain (l r : List Nat) (h : ∀ b ∈ l, b ≠ 0x25 ∧ b ≠ 0x5C) :
    unescapePN_LOCAL (l ++ r) = l ++ unescapePN_LOCAL r := by
  induction l with
  | nil => rfl
  | cons b l ih =>
    have hb := h b (List.mem_cons_self _ _)
    rw [List.cons_append, unescapePN_LOCAL_plain _ _ hb.1 hb.2,
      ih (fun x hx => h x (List.mem_cons_of_mem _ hx))]
    rfl

theorem utf8Encode_high_plain (c : Nat) (h : 0x80 ≤ c) :
    ∀ b ∈ utf8Encode c, b ≠ 0x25 ∧ b ≠ 0x5C := by
  intro b hb
  unfold utf8Encode at hb
  split_ifs at hb <;>
    simp only [List.mem_cons, List.mem_singleton, List.not_mem_nil, or_false] at hb <;> omega

set_option maxRecDepth 100000 in
theorem pnLocalAscii_token : ∀ c < 128, ∀ f l : Bool,
    (pnLocalAscii f l c = [c] ∧ c ≠ 0x25 ∧ c ≠ 0x5C) ∨ pnLocalAscii f l c = [0x5C, c] ∨
    (pnLocalAscii f l c = [0x25, hexDigit (c / 16 % 16), hexDigit (c % 16)] ∧
      readHex [hexDigit (c / 16 % 16), hexDigit (c % 16)] = c) := by
  decide

theorem unescapePN_LOCAL_emit (first last : Bool) (c : Nat) (r : List Nat) :
    unescapePN_LOCAL (pnLocalEmit first last c ++ r) = utf8Encode c ++ unescapePN_LOCAL r := by
  unfold pnLocalEmit
  by_cases hc : c < 0x80
  · rw [if_pos hc, utf8Encode_ascii c hc]
    rcases pnLocalAscii_token c hc first last with ⟨h1, h2, h3⟩ | h1 | ⟨h1, h2⟩
    · rw [h1]; exact unescapePN_LOCAL_plain c r h2 h3
    · rw [h1]; exact unescapePN_LOCAL_backslash c r
    · rw [h1]
      show unescapePN_LOCAL (0x25 :: _ :: _ :: r) = _
      rw [unescapePN_LOCAL_percent, h2]; rfl
  · rw [if_neg hc]
    exact unescapePN_LOCAL_append_plain _ _ (utf8Encode_high_plain c (by omega))

theorem unescapePN_LOCAL_text : ∀ (cs : List Nat) (first : Bool),
    unescapePN_LOCAL (pnLocalText first cs) = utf8 cs := by
  intro cs
  induction cs with
  | nil => intro _; rfl
  | cons c cs ih =>
    intro first
    simp only [pnLocalText, utf8]
    rw [unescapePN_LOCAL_emit, ih]

theorem encodePN_LOCAL_decode (cs : List Nat) (hs : Scalars cs) (out : List Nat)
    (h : encodePN_LOCAL (utf8 cs) = .ok out) : unescapePN_LOCAL out = utf8 cs := by
  rw [encodePN_LOCAL_closed cs hs] at h
  split_ifs at h
  simp only [Res.ok.injEq] at h
  rw [← h, unescapePN_LOCAL_text]

/-- C38: `encodePN_LOCAL` is injective on the well-formed UTF-8 inputs it
accepts. If it returns the same text for the well-formed inputs `s1` and `s2`,
then `s1 = s2`: the result is read back to the input byte for byte (`%hh` is
the byte `hh`, backslash + `c` is `c`, any other byte is itself). At every
position a raw `%` is emitted as backslash + `%` and a backslash as `%5c`, so an
escape cannot be confused with an input byte. -/
theorem encodePN_LOCAL_injective (cs1 cs2 : List Nat) (h1 : Scalars cs1) (h2 : Scalars cs2)
    (out : List Nat) (e1 : encodePN_LOCAL (utf8 cs1) = .ok out)
    (e2 : encodePN_LOCAL (utf8 cs2) = .ok out) :
    utf8 cs1 = utf8 cs2 ∧ unescapePN_LOCAL out = utf8 cs1 ∧
    (∀ f l : Bool, pnLocalEmit f l 0x25 = [0x5C, 0x25] ∧
      pnLocalEmit f l 0x5C = [0x25, 0x35, 0x63]) := by
  refine ⟨?_, encodePN_LOCAL_decode cs1 h1 out e1, by decide⟩
  rw [← encodePN_LOCAL_decode cs1 h1 out e1, ← encodePN_LOCAL_decode cs2 h2 out e2]

theorem encodePN_LOCAL_injective_witness :
    utf8 [0x61, 0x25, 0xE9, 0x5C, 0x2E] = utf8 [0x61, 0x25, 0xE9, 0x5C, 0x2E] ∧
    unescapePN_LOCAL (bytes "a" ++ [0x5C, 0x25, 0xC3, 0xA9] ++ bytes "%5c" ++ [0x5C, 0x2E]) =
      utf8 [0x61, 0x25, 0xE9, 0x5C, 0x2E] :=
  ⟨(encodePN_LOCAL_injective [0x61, 0x25, 0xE9, 0x5C, 0x2E] [0x61, 0x25, 0xE9, 0x5C, 0x2E]
      (by decide) (by decide)
      (bytes "a" ++ [0x5C, 0x25, 0xC3, 0xA9] ++ bytes "%5c" ++ [0x5C, 0x2E])
      (by decide) (by decide)).1,
   (encodePN_LOCAL_injective [0x61, 0x25, 0xE9, 0x5C, 0x2E] [0x61, 0x25, 0xE9, 0x5C, 0x2E]
      (by decide) (by decide)
      (bytes "a" ++ [0x5C, 0x25, 0xC3, 0xA9] ++ bytes "%5c" ++ [0x5C, 0x2E])
      (by decide) (by decide)).2.1⟩

theorem scanTrace_utf8 (body : List Nat → Nat → Res (List Nat × Nat))
    (f : Bool → Nat → Bool → Res (List Nat)) (size : Nat)
    (hbody : ∀ (c : Nat) (cs : List Nat) (pos : Nat), isScalar c → Scalars cs →
      pos + (utf8 (c :: cs)).length = size →
      body (utf8 (c :: cs)) pos =
        (f (decide (pos = 0)) c cs.isEmpty).bind
          (fun chunk => .ok (chunk, (utf8Encode c).length))) :
    ∀ (cs : List Nat) (fuel pos : Nat), Scalars cs →
      (utf8 cs).length ≤ fuel → pos + (utf8 cs).length = size →
      scanTrace body fuel (utf8 cs) pos <+: charSlices pos cs := by
  intro cs
  induction cs with
  | nil =>
    intro fuel pos _ _ _
    cases fuel <;> simp [utf8, scanTrace, charSlices]
  | cons c cs ih =>
    intro fuel pos hs hf hp
    obtain ⟨hc, hcs⟩ := Scalars_cons c cs hs
    have hlen := utf8Encode_length_pos c
    have hb := hbody c cs pos hc hcs hp
    have hu : utf8 (c :: cs) = utf8Encode c ++ utf8 cs := rfl
    rw [hu, List.length_append] at hf hp
    obtain ⟨b, r, hbr⟩ : ∃ b r, utf8 (c :: cs) = b :: r := by
      cases h : utf8 (c :: cs) with
      | nil => rw [hu] at h; simp at h; rw [h.1] at hlen; simp at hlen
      | cons b r => exact ⟨b, r, rfl⟩
    obtain ⟨fuel, rfl⟩ : ∃ k, fuel = k + 1 := ⟨fuel - 1, by omega⟩
    rw [hbr] at hb ⊢
    rw [scanTrace, hb, charSlices]
    cases hfc : f (decide (pos = 0)) c cs.isEmpty with
    | error e => simp [Res.bind]
    | ok chunk =>
      simp only [Res.bind]
      rw [← hbr, hu, List.drop_left]
      have := ih fuel (pos + (utf8Encode c).length) hcs (by omega) (by omega)
      exact (List.prefix_cons_inj _).2 this

theorem charSlices_mem : ∀ (cs : List Nat) (pos : Nat) (pn : Nat × Nat),
    pn ∈ charSlices pos cs →
    ∃ pre c post, cs = pre ++ c :: post ∧ pn.1 = pos + (utf8 pre).length ∧
      pn.2 = (utf8Encode c).length := by
  intro cs
  induction cs with
  | nil => intro pos pn h; simp [charSlices] at h
  | cons c cs ih =>
    intro pos pn h
    simp only [charSlices, List.mem_cons] at h
    rcases h with h | h
    · exact ⟨[], c, cs, rfl, by rw [h]; simp [utf8], by rw [h]⟩
    · obtain ⟨pre, d, post, h1, h2, h3⟩ := ih _ pn h
      refine ⟨c :: pre, d, post, by rw [h1]; rfl, ?_, h3⟩
      rw [h2]
      simp only [utf8, List.length_append]
      omega

theorem charSlices_ge : ∀ (cs : List Nat) (pos : Nat) (pn : Nat × Nat),
    pn ∈ charSlices pos cs → pos ≤ pn.1 := by
  intro cs pos pn h
  obtain ⟨_, _, _, _, h2, _⟩ := charSlices_mem cs pos pn h
  omega

theorem charSlices_increasing : ∀ (cs : List Nat) (pos : Nat),
    (charSlices pos cs).Pairwise (fun a b => a.1 < b.1) := by
  intro cs
  induction cs with
  | nil => intro pos; simp [charSlices]
  | cons c cs ih =>
    intro pos
    simp only [charSlices, List.pairwise_cons]
    refine ⟨?_, ih _⟩
    intro pn h
    have := charSlices_ge cs _ pn h
    have := utf8Encode_length_pos c
    show pos < pn.1
    omega

theorem utf8Length_sv_utf8Encode (c : Nat) (hc : isScalar c) (r : List Nat) :
    utf8Length_sv (utf8Encode c ++ r) = .ok (utf8Encode c).length := by
  have hlt := isScalar_lt c hc
  by_cases h : c < 0x80
  · rw [utf8Encode_ascii c h]
    show utf8Length c = _
    rw [utf8Length_byte c (by omega), if_pos h]; rfl
  · obtain ⟨b, t, hbt, _, _, hl⟩ := utf8Encode_multi c (by omega) hlt
    rw [hbt]
    show utf8Length b = _
    rw [hl]; rfl

theorem charSlices_inside (cs : List Nat) (hs : Scalars cs) (pn : Nat × Nat)
    (h : pn ∈ charSlices 0 cs) :
    1 ≤ pn.2 ∧ pn.2 ≤ 4 ∧ pn.1 + pn.2 ≤ (utf8 cs).length ∧
    (((utf8 cs).drop pn.1).take pn.2).length = pn.2 ∧
    utf8Length_sv ((utf8 cs).drop pn.1) = .ok pn.2 ∧
    ∃ c, isScalar c ∧ ((utf8 cs).drop pn.1).take pn.2 = utf8Encode c ∧
      utf8Codepoint (((utf8 cs).drop pn.1).take pn.2) = .ok c := by
  obtain ⟨pre, c, post, h1, h2, h3⟩ := charSlices_mem cs 0 pn h
  have hc : isScalar c := hs c (by rw [h1]; simp)
  have hlt := isScalar_lt c hc
  have hu : utf8 cs = utf8 pre ++ (utf8Encode c ++ utf8 post) := by
    rw [h1, utf8_append]; rfl
  have hd : (utf8 cs).drop pn.1 = utf8Encode c ++ utf8 post := by
    rw [hu, h2, Nat.zero_add, List.drop_left]
  have ht : ((utf8 cs).drop pn.1).take pn.2 = utf8Encode c := by
    rw [hd, h3, List.take_left]
  have h4 : (utf8Encode c).length ≤ 4 := by
    unfold utf8Encode; split_ifs <;> simp
  refine ⟨by rw [h3]; exact utf8Encode_length_pos c, by rw [h3]; exact h4, ?_, by rw [ht, h3],
    by rw [hd, h3]; exact utf8Length_sv_utf8Encode c hc _,
    c, hc, ht, by rw [ht]; exact utf8Codepoint_utf8Encode c (by omega)⟩
  rw [hu, h2, h3]
  simp only [List.length_append]
  omega

/-- C40: on every well-formed UTF-8 input `s` the four scanning encoders
terminate without reading outside `s`: `encodeIRIREF` (generic and QLEVER)
returns a text, `encodePN_PREFIX` and `encodePN_LOCAL` return a text or throw
the grammar error, never an out-of-range access and never an unfinished loop.
The iterations of each loop start at the byte positions of the characters of
`s`, in order, advancing by the byte length of the character; these positions
increase strictly, each slice `s.substr(pos, utf8Length(s[pos]))` lies wholly
inside `s` and has exactly `utf8Length(s[pos])` bytes, and `utf8Codepoint`
returns on it. -/
theorem scanners_stay_inside (cs : List Nat) (hs : Scalars cs) :
    ((∃ out, encodeIRIREF .NT (utf8 cs) = .ok out) ∧
      (∃ out, encodeIRIREF .TTL (utf8 cs) = .ok out) ∧
      (∃ out, encodeIRIREF .QLEVER (utf8 cs) = .ok out) ∧
      ((∃ out, encodePN_PREFIX (utf8 cs) = .ok out) ∨
        encodePN_PREFIX (utf8 cs) = .error .domain_error) ∧
      ((∃ out, encodePN_LOCAL (utf8 cs) = .ok out) ∨
        encodePN_LOCAL (utf8 cs) = .error .domain_error)) ∧
    (scanTrace encodeIRIREF.body (utf8 cs).length (utf8 cs) 0 <+: charSlices 0 cs ∧
      scanTrace encodeIRIREF.bodyQLEVER (utf8 cs).length (utf8 cs) 0 <+: charSlices 0 cs ∧
      scanTrace (encodePN_PREFIX.body (utf8 cs).length) (utf8 cs).length (utf8 cs) 0 <+:
        charSlices 0 cs ∧
      scanTrace (encodePN_LOCAL.body (utf8 cs).length) (utf8 cs).length (utf8 cs) 0 <+:
        charSlices 0 cs) ∧
    (charSlices 0 cs).Pairwise (fun a b => a.1 < b.1) ∧
    (∀ pn ∈ charSlices 0 cs,
      1 ≤ pn.2 ∧ pn.2 ≤ 4 ∧ pn.1 + pn.2 ≤ (utf8 cs).length ∧
      (((utf8 cs).drop pn.1).take pn.2).length = pn.2 ∧
      utf8Length_sv ((utf8 cs).drop pn.1) = .ok pn.2 ∧
      ∃ c, isScalar c ∧ ((utf8 cs).drop pn.1).take pn.2 = utf8Encode c ∧
        utf8Codepoint (((utf8 cs).drop pn.1).take pn.2) = .ok c) := by
  refine ⟨⟨⟨_, encodeIRIREF_UCHAR_utf8 .NT (Or.inl rfl) cs hs⟩,
    ⟨_, encodeIRIREF_UCHAR_utf8 .TTL (Or.inr rfl) cs hs⟩,
    ⟨_, encodeIRIREF_QLEVER_utf8 cs hs⟩, ?_, ?_⟩, ⟨?_, ?_, ?_, ?_⟩,
    charSlices_increasing cs 0, fun pn h => charSlices_inside cs hs pn h⟩
  · rw [encodePN_PREFIX_closed cs hs]
    split_ifs
    · exact Or.inl ⟨_, rfl⟩
    · exact Or.inr rfl
  · rw [encodePN_LOCAL_closed cs hs]
    split_ifs
    · exact Or.inl ⟨_, rfl⟩
    · exact Or.inr rfl
  · exact scanTrace_utf8 encodeIRIREF.body (fun _ c _ => .ok (iriEscapeUCHAR c)) (utf8 cs).length
      (fun c cs pos hc _ _ => encodeIRIREF_body_char c cs pos hc) cs (utf8 cs).length 0
      hs (le_refl _) (by simp)
  · exact scanTrace_utf8 encodeIRIREF.bodyQLEVER (fun _ c _ => .ok (iriEscapePERCENT c))
      (utf8 cs).length
      (fun c cs pos hc _ _ => encodeIRIREF_bodyQLEVER_char c cs pos hc) cs (utf8 cs).length 0
      hs (le_refl _) (by simp)
  · exact scanTrace_utf8 (encodePN_PREFIX.body (utf8 cs).length) pnPrefixChar (utf8 cs).length
      (fun c cs pos hc _ hp => encodePN_PREFIX_body_char c _ pos cs hc hp) cs (utf8 cs).length 0
      hs (le_refl _) (by simp)
  · exact scanTrace_utf8 (encodePN_LOCAL.body (utf8 cs).length) pnLocalChar (utf8 cs).length
      (fun c cs pos hc _ hp => encodePN_LOCAL_body_char c _ pos cs hc hp) cs (utf8 cs).length 0
      hs (le_refl _) (by simp)

theorem scanners_stay_inside_witness :
    scanTrace (encodePN_LOCAL.body (utf8 [0x61, 0xE9, 0x20AC]).length)
      (utf8 [0x61, 0xE9, 0x20AC]).length (utf8 [0x61, 0xE9, 0x20AC]) 0 <+:
        charSlices 0 [0x61, 0xE9, 0x20AC] ∧
    charSlices 0 [0x61, 0xE9, 0x20AC] = [(0, 1), (1, 2), (3, 3)] :=
  ⟨(scanners_stay_inside [0x61, 0xE9, 0x20AC] (by decide)).2.1.2.2.2, by decide⟩

theorem osm2ttl_foldl_replace (key : List Nat) : ∀ acc : List Nat,
    key.foldl (fun tmp c => if c = 0x20 then tmp ++ bytes "_" else tmp ++ [c]) acc =
      acc ++ osm2ttl.replaceSpaces key := by
  induction key with
  | nil => intro acc; simp [osm2ttl.replaceSpaces]
  | cons c r ih =>
    intro acc
    simp only [List.foldl_cons]
    rw [ih]
    unfold osm2ttl.replaceSpaces
    by_cases h : c = 0x20
    · subst h
      have : bytes "_" = [0x5F] := by decide
      simp [this]
    · simp [h]

theorem osm2ttl_writeOsmiumTag_eq (cfg : osm2ttl.Config) (s : osm2ttl.Term) (k v : List Nat) :
    osm2ttl.writeOsmiumTag cfg s (k, v) =
      [{ s := s, p := { pfx := bytes "osmt", value := osm2ttl.replaceSpaces k },
         o := .literal { value := .text v, datatype := cfg.tagKeyType.lookup k } }] := by
  unfold osm2ttl.writeOsmiumTag
  simp only [osm2ttl_foldl_replace, List.nil_append]
  cases cfg.tagKeyType.lookup k <;> rfl

theorem osm2ttl_writeTag_eq (cfg : osm2ttl.Config) (s : osm2ttl.Term) (k v : List Nat) :
    osm2ttl.writeTag cfg s (k, v) =
      [{ s := s, p := { pfx := bytes "osmt", value := k },
         o := .literal { value := .text v, datatype := cfg.tagKeyType.lookup k } }] := by
  unfold osm2ttl.writeTag
  simp only []
  cases cfg.tagKeyType.lookup k <;> rfl

theorem osm2ttl_replaceSpaces_id (k : List Nat) (h : 0x20 ∉ k) :
    osm2ttl.replaceSpaces k = k := by
  unfold osm2ttl.replaceSpaces
  induction k with
  | nil => rfl
  | cons c r ih =>
    simp only [List.mem_cons, not_or] at h
    simp only [List.map_cons, if_neg (Ne.symm h.1), ih h.2]

/-- C32 (failing input): for the tag key `a b`, `writeTag` emits the predicate
with local part `a b`, the space still in it, whereas the claimed local part is
`a_b`, which is what `writeOsmiumTag` emits for the same tag. -/
theorem writeTag_keeps_space :
    osm2ttl.writeTag ⟨[], false, false, false, false⟩ (.blank 0) (bytes "a b", bytes "v") =
      [{ s := .blank 0, p := { pfx := bytes "osmt", value := bytes "a b" },
         o := .literal { value := .text (bytes "v"), datatype := none } }] ∧
    osm2ttl.replaceSpaces (bytes "a b") = bytes "a_b" ∧
    osm2ttl.writeOsmiumTag ⟨[], false, false, false, false⟩ (.blank 0) (bytes "a b", bytes "v") =
      [{ s := .blank 0, p := { pfx := bytes "osmt", value := bytes "a_b" },
         o := .literal { value := .text (bytes "v"), datatype := none } }] := by
  decide

/-- What the two tag writers emit for a tag `(k, v)`: exactly one triple each,
with the given subject and the literal `v` as object, which carries the
configured datatype exactly when the configuration maps `k` to one. The
predicate of `writeOsmiumTag` is the IRI with prefix `osmt` and local part `k'`,
the key with every ASCII space replaced by `_` (same length, no space, all
other bytes unchanged); the predicate of `writeTag` has the local part `k`
itself, so the two writers agree exactly on the keys without a space. -/
theorem tag_writers_spec (cfg : osm2ttl.Config) (s : osm2ttl.Term) (k v : List Nat) :
    osm2ttl.writeOsmiumTag cfg s (k, v) =
      [{ s := s, p := { pfx := bytes "osmt", value := osm2ttl.replaceSpaces k },
         o := .literal { value := .text v, datatype := cfg.tagKeyType.lookup k } }] ∧
    osm2ttl.writeTag cfg s (k, v) =
      [{ s := s, p := { pfx := bytes "osmt", value := k },
         o := .literal { value := .text v, datatype := cfg.tagKeyType.lookup k } }] ∧
    (osm2ttl.replaceSpaces k).length = k.length ∧ 0x20 ∉ osm2ttl.replaceSpaces k ∧
    (∀ i, k.get? i ≠ some 0x20 → (osm2ttl.replaceSpaces k).get? i = k.get? i) ∧
    (∀ i, k.get? i = some 0x20 → (osm2ttl.replaceSpaces k).get? i = some 0x5F) ∧
    (osm2ttl.writeTag cfg s (k, v) = osm2ttl.writeOsmiumTag cfg s (k, v) ↔ 0x20 ∉ k) := by
  refine ⟨osm2ttl_writeOsmiumTag_eq cfg s k v, osm2ttl_writeTag_eq cfg s k v, ?_, ?_, ?_, ?_, ?_⟩
  · simp [osm2ttl.replaceSpaces]
  · unfold osm2ttl.replaceSpaces
    intro h
    obtain ⟨c, _, hc⟩ := List.mem_map.1 h
    split_ifs at hc
    · omega
    · omega
  · intro i hi
    unfold osm2ttl.replaceSpaces
    simp only [List.get?_eq_getElem?, List.getElem?_map] at hi ⊢
    cases hk : k[i]? with
    | none => rfl
    | some c =>
      rw [hk] at hi
      have : c ≠ 0x20 := fun e => hi (by rw [e])
      simp [this]
  · intro i hi
    unfold osm2ttl.replaceSpaces
    simp only [List.get?_eq_getElem?, List.getElem?_map] at hi ⊢
    rw [hi]; rfl
  · rw [osm2ttl_writeOsmiumTag_eq, osm2ttl_writeTag_eq]
    constructor
    · intro h hmem
      simp only [List.cons.injEq, osm2ttl.Triple.mk.injEq, osm2ttl.IRI.mk.injEq, true_and,
        and_true] at h
      have : 0x20 ∈ osm2ttl.replaceSpaces k := by rw [← h]; exact hmem
      unfold osm2ttl.replaceSpaces at this
      obtain ⟨c, _, hc⟩ := List.mem_map.1 this
      split_ifs at hc
      · omega
      · omega
    · intro h
      rw [osm2ttl_replaceSpaces_id k h]

theorem tag_writers_spec_witness :
    osm2ttl.writeOsmiumTag ⟨[(bytes "ele", ⟨bytes "xsd", bytes "decimal"⟩)], false, false, false,
        false⟩ (.blank 0) (bytes "ele", bytes "12") =
      [{ s := .blank 0, p := { pfx := bytes "osmt", value := bytes "ele" },
         o := .literal { value := .text (bytes "12"),
                         datatype := some ⟨bytes "xsd", bytes "decimal"⟩ } }] ∧
    (osm2ttl.replaceSpaces (bytes "a b")).get? 1 = some 0x5F := by
  have h := tag_writers_spec ⟨[(bytes "ele", ⟨bytes "xsd", bytes "decimal"⟩)], false, false,
    false, false⟩ (.blank 0) (bytes "ele") (bytes "12")
  have h2 := (tag_writers_spec ⟨[], false, false, false, false⟩ (.blank 0) (bytes "a b")
    []).2.2.2.2.2.1 1 (by decide)
  exact ⟨h.1, h2⟩

/-- C35 (failing input): with expanded data off, a node member with role `stop`
gets the object `osmway:5`, not `osmnode:5`; a way member gets `osmway:` and a
relation member `osmrel:`; members with the roles empty, `outer` and `inner`
give no triple. -/
theorem writeOsmiumRelationMembers_node_member :
    osm2ttl.writeOsmiumRelationMembers ⟨[], false, false, false, false⟩ (.blank 0)
        [⟨5, .node, bytes "stop"⟩, ⟨6, .way, bytes "stop"⟩, ⟨7, .relation, bytes "stop"⟩,
         ⟨8, .node, []⟩, ⟨9, .way, bytes "outer"⟩, ⟨10, .way, bytes "inner"⟩] 0 =
      [{ s := .blank 0, p := ⟨bytes "osmrel", bytes "stop"⟩, o := .iri ⟨bytes "osmway", bytes "5"⟩ },
       { s := .blank 0, p := ⟨bytes "osmrel", bytes "stop"⟩, o := .iri ⟨bytes "osmway", bytes "6"⟩ },
       { s := .blank 0, p := ⟨bytes "osmrel", bytes "stop"⟩,
         o := .iri ⟨bytes "osmrel", bytes "7"⟩ }] ∧
    (∀ (cfg : osm2ttl.Config) (s : osm2ttl.Term) (ref : Nat) (role : List Nat),
      cfg.expandedData = false → role ≠ [] → role ≠ bytes "outer" → role ≠ bytes "inner" →
      osm2ttl.writeOsmiumRelationMembers cfg s [⟨ref, .node, role⟩] 0 =
        [{ s := s, p := ⟨bytes "osmrel", role⟩, o := .iri ⟨bytes "osmway", to_string ref⟩ }]) := by
  refine ⟨by decide, ?_⟩
  intro cfg s ref role he h1 h2 h3
  simp only [osm2ttl.writeOsmiumRelationMembers, osm2ttl.writeOsmiumRelationMembers.loop, he]
  simp only [h1, h2, h3, ne_eq, not_false_eq_true, and_self, if_true]
  have e : (bytes "osm" ++ if osm2ttl.item_type_to_name .node = bytes "relation" then bytes "rel"
      else bytes "way") = bytes "osmway" := by decide
  rw [e]
  simp [osm2ttl.writeTriple]

theorem osm2ttl_findChar_some : ∀ (v : List Nat) (c e : Nat), osm2ttl.findChar v c = some e →
    v = v.take e ++ c :: v.drop (e + 1) ∧ c ∉ v.take e ∧ v.take e = v.takeWhile (fun b => b ≠ c) := by
  intro v
  induction v with
  | nil => intro c e h; simp [osm2ttl.findChar] at h
  | cons b r ih =>
    intro c e h
    unfold osm2ttl.findChar at h
    by_cases hb : b = c
    · rw [if_pos hb] at h
      simp only [Option.some.injEq] at h
      subst h; subst hb
      simp
    · rw [if_neg hb] at h
      cases hr : osm2ttl.findChar r c with
      | none => rw [hr] at h; simp at h
      | some e0 =>
        rw [hr] at h
        simp only [Option.map_some', Option.some.injEq] at h
        subst h
        obtain ⟨h1, h2, h3⟩ := ih c e0 hr
        refine ⟨?_, ?_, ?_⟩
        · simp only [List.take_succ_cons, List.drop_succ_cons, List.cons_append]
          rw [← h1]
        · simp only [List.take_succ_cons, List.mem_cons, not_or]
          exact ⟨fun e => hb e.symm, h2⟩
        · simp only [List.take_succ_cons, List.takeWhile_cons, hb, ne_eq, not_false_eq_true,
            decide_True, if_true, h3]

theorem osm2ttl_findChar_none : ∀ (v : List Nat) (c : Nat), osm2ttl.findChar v c = none →
    c ∉ v := by
  intro v
  induction v with
  | nil => intro c _; simp
  | cons b r ih =>
    intro c h
    unfold osm2ttl.findChar at h
    by_cases hb : b = c
    · rw [if_pos hb] at h; simp at h
    · rw [if_neg hb] at h
      cases hr : osm2ttl.findChar r c with
      | none =>
        simp only [List.mem_cons, not_or]
        exact ⟨fun e => hb e.symm, ih c hr⟩
      | some e0 => rw [hr] at h; simp at h

theorem osm2ttl_findFrom_isSome (n : List Nat) : ∀ (rest : List Nat) (pos : Nat),
    (osm2ttl.findFrom n rest pos).isSome = true ↔ n <:+: rest := by
  intro rest
  induction rest with
  | nil =>
    intro pos
    unfold osm2ttl.findFrom
    by_cases h : n = []
    · simp [h]
    · simp [h]
  | cons c r ih =>
    intro pos
    unfold osm2ttl.findFrom
    by_cases h : n.isPrefixOf (c :: r) = true
    · rw [if_pos h]
      simp only [Option.isSome_some, true_iff]
      exact (List.isPrefixOf_iff_prefix.1 h).isInfix
    · rw [if_neg h, ih, List.infix_cons_iff]
      constructor
      · exact Or.inr
      · rintro (h2 | h2)
        · exact absurd (List.isPrefixOf_iff_prefix.2 h2) h
        · exact h2

theorem osm2ttl_contains_iff (s n : List Nat) : osm2ttl.contains s n = true ↔ n <:+: s := by
  unfold osm2ttl.contains
  by_cases h1 : n.isEmpty = true
  · rw [if_pos h1]
    have : n = [] := List.isEmpty_iff.1 h1
    simp [this]
  · rw [if_neg h1]
    by_cases h2 : s.length < n.length
    · rw [if_pos h2]
      simp only [Bool.false_eq_true, false_iff]
      intro h
      have := h.length_le
      omega
    · rw [if_neg h2]
      unfold osm2ttl.find
      rw [if_pos (Nat.zero_le _), List.drop_zero]
      exact osm2ttl_findFrom_isSome n s 0

theorem osm2ttl_endsWith_iff (s n : List Nat) : osm2ttl.endsWith s n = true ↔ n <:+ s := by
  unfold osm2ttl.endsWith
  by_cases h1 : n.isEmpty = true
  · rw [if_pos h1]
    have : n = [] := List.isEmpty_iff.1 h1
    simp [this]
  · rw [if_neg h1]
    by_cases h2 : s.length < n.length
    · rw [if_pos h2]
      simp only [Bool.false_eq_true, false_iff]
      intro h
      have := h.length_le
      omega
    · rw [if_neg h2]
      unfold osm2ttl.find
      rw [if_pos (Nat.sub_le _ _), osm2ttl_findFrom_isSome]
      have hl : (s.drop (s.length - n.length)).length = n.length := by
        rw [List.length_drop]; omega
      constructor
      · intro h
        have := h.sublist.eq_of_length hl.symm
        rw [this]
        exact List.drop_suffix _ _
      · intro h
        rw [List.suffix_iff_eq_drop] at h
        rw [← h]

theorem osm2ttl_wikipediaTriple_eq (s : osm2ttl.Term) (v : List Nat) :
    (0x3A ∈ v → ∃ lang title, v = lang ++ 0x3A :: title ∧ 0x3A ∉ lang ∧
      osm2ttl.wikipediaTriple s v =
        [{ s := s, p := ⟨bytes "osm", bytes "wikipedia"⟩,
           o := .iri ⟨bytes "https://" ++ lang ++ bytes ".wikipedia.org/wiki/", title⟩ }]) ∧
    (0x3A ∉ v →
      osm2ttl.wikipediaTriple s v =
        [{ s := s, p := ⟨bytes "osm", bytes "wikipedia"⟩,
           o := .iri ⟨bytes "https://www.wikipedia.org/wiki/", v⟩ }]) := by
  constructor
  · intro hm
    cases h : osm2ttl.findChar v 0x3A with
    | none => exact absurd hm (osm2ttl_findChar_none v _ h)
    | some pos =>
      obtain ⟨h1, h2, _⟩ := osm2ttl_findChar_some v _ pos h
      refine ⟨v.take pos, v.drop (pos + 1), h1, h2, ?_⟩
      unfold osm2ttl.wikipediaTriple
      rw [h]
      rfl
  · intro hm
    cases h : osm2ttl.findChar v 0x3A with
    | none =>
      unfold osm2ttl.wikipediaTriple
      rw [h]
      rfl
    | some pos =>
      obtain ⟨h1, _, _⟩ := osm2ttl_findChar_some v _ pos h
      exact absurd (by rw [h1]; simp) hm

theorem osm2ttl_wikipediaTriple_pred (s : osm2ttl.Term) (v : List Nat) :
    ∃ o, osm2ttl.wikipediaTriple s v =
      [{ s := s, p := ⟨bytes "osm", bytes "wikipedia"⟩, o := o }] := by
  by_cases hm : 0x3A ∈ v
  · obtain ⟨lang, title, _, _, h⟩ := (osm2ttl_wikipediaTriple_eq s v).1 hm
    exact ⟨_, h⟩
  · exact ⟨_, (osm2ttl_wikipediaTriple_eq s v).2 hm⟩

/-- C34 (failing input): for the key `old_wikipedia`, which ends in `wikipedia`
and does not contain `fixme`, `writeOsmiumTagList` emits the `osm:wikipedia`
triple that is claimed, and `writeTagList` emits the tag triple only. -/
theorem writeTagList_wikipedia_suffix_key :
    osm2ttl.writeOsmiumTagList ⟨[], false, false, false, false⟩ (.blank 0)
        [(bytes "old_wikipedia", bytes "de:Ulm")] =
      [{ s := .blank 0, p := ⟨bytes "osmt", bytes "old_wikipedia"⟩,
         o := .literal ⟨.text (bytes "de:Ulm"), none⟩ },
       { s := .blank 0, p := ⟨bytes "osm", bytes "wikipedia"⟩,
         o := .iri ⟨bytes "https://de.wikipedia.org/wiki/", bytes "Ulm"⟩ }] ∧
    osm2ttl.writeTagList ⟨[], false, false, false, false⟩ (.blank 0)
        [(bytes "old_wikipedia", bytes "de:Ulm")] =
      [{ s := .blank 0, p := ⟨bytes "osmt", bytes "old_wikipedia"⟩,
         o := .literal ⟨.text (bytes "de:Ulm"), none⟩ }] := by
  decide

/-- The `osm:wikipedia` triple of the two tag-list writers, with wiki links
enabled, for a tag `(k, v)`: `writeOsmiumTagList` emits exactly one when `k` ends
in `wikipedia` (which includes `k` = `wikipedia`) and does not contain `fixme`,
and none for every other key; `writeTagList` emits exactly one when `k` is
exactly `wikipedia` and none for every other key. The triple is the same in
both writers: if `v` contains `:` it is split at the first `:` into `lang` and
`title` (`lang` + `:` + `title` = `v`, no `:` in `lang`) and the object is the IRI
with namespace `https://` + `lang` + `.wikipedia.org/wiki/` and local part
`title`; otherwise the object is the IRI with namespace
`https://www.wikipedia.org/wiki/` and local part `v`. -/
theorem wikipedia_triple_spec (cfg : osm2ttl.Config) (s : osm2ttl.Term) (k v : List Nat)
    (he : cfg.skipWikiLinks = false) :
    ((bytes "wikipedia" <:+ k ∧ ¬ bytes "fixme" <:+: k) →
      (osm2ttl.writeOsmiumTagList.body cfg s (k, v)).filter
          (fun t => decide (t.p = ⟨bytes "osm", bytes "wikipedia"⟩)) =
        osm2ttl.wikipediaTriple s v) ∧
    (¬ (bytes "wikipedia" <:+ k ∧ ¬ bytes "fixme" <:+: k) →
      (osm2ttl.writeOsmiumTagList.body cfg s (k, v)).filter
          (fun t => decide (t.p = ⟨bytes "osm", bytes "wikipedia"⟩)) = []) ∧
    (k = bytes "wikipedia" →
      (osm2ttl.writeTagList.body cfg s (k, v)).filter
          (fun t => decide (t.p = ⟨bytes "osm", bytes "wikipedia"⟩)) =
        osm2ttl.wikipediaTriple s v) ∧
    (k ≠ bytes "wikipedia" →
      (osm2ttl.writeTagList.body cfg s (k, v)).filter
          (fun t => decide (t.p = ⟨bytes "osm", bytes "wikipedia"⟩)) = []) ∧
    (0x3A ∈ v → ∃ lang title, v = lang ++ 0x3A :: title ∧ 0x3A ∉ lang ∧
      osm2ttl.wikipediaTriple s v =
        [{ s := s, p := ⟨bytes "osm", bytes "wikipedia"⟩,
           o := .iri ⟨bytes "https://" ++ lang ++ bytes ".wikipedia.org/wiki/", title⟩ }]) ∧
    (0x3A ∉ v →
      osm2ttl.wikipediaTriple s v =
        [{ s := s, p := ⟨bytes "osm", bytes "wikipedia"⟩,
           o := .iri ⟨bytes "https://www.wikipedia.org/wiki/", v⟩ }]) := by
  have hp1 : (⟨bytes "osmt", osm2ttl.replaceSpaces k⟩ : osm2ttl.IRI) ≠
      ⟨bytes "osm", bytes "wikipedia"⟩ := by
    intro h
    simp only [osm2ttl.IRI.mk.injEq] at h
    exact absurd h.1 (by decide)
  have hp2 : (⟨bytes "osmt", k⟩ : osm2ttl.IRI) ≠ ⟨bytes "osm", bytes "wikipedia"⟩ := by
    intro h
    simp only [osm2ttl.IRI.mk.injEq] at h
    exact absurd h.1 (by decide)
  have hp3 : (⟨bytes "osm", bytes "wikidata"⟩ : osm2ttl.IRI) ≠
      ⟨bytes "osm", bytes "wikipedia"⟩ := by decide
  have hwd : ¬ bytes "wikipedia" <:+ bytes "wikidata" := by
    rw [← osm2ttl_endsWith_iff]; decide
  obtain ⟨o, ho⟩ := osm2ttl_wikipediaTriple_pred s v
  have hcond : (osm2ttl.endsWith k (bytes "wikipedia") = true ∧
      ¬ osm2ttl.contains k (bytes "fixme") = true) ↔
      (bytes "wikipedia" <:+ k ∧ ¬ bytes "fixme" <:+: k) := by
    rw [osm2ttl_endsWith_iff, osm2ttl_contains_iff]
  refine ⟨?_, ?_, ?_, ?_, (osm2ttl_wikipediaTriple_eq s v).1, (osm2ttl_wikipediaTriple_eq s v).2⟩
  · intro hk
    have hkd : k ≠ bytes "wikidata" := fun e => hwd (e ▸ hk.1)
    unfold osm2ttl.writeOsmiumTagList.body
    rw [osm2ttl_writeOsmiumTag_eq]
    simp only [he, Bool.not_false, if_true, if_neg hkd, if_pos (hcond.2 hk), List.nil_append]
    rw [ho]
    simp [hp1]
  · intro hk
    unfold osm2ttl.writeOsmiumTagList.body
    rw [osm2ttl_writeOsmiumTag_eq]
    simp only [he, Bool.not_false, if_true, if_neg (fun h => hk (hcond.1 h)), List.append_nil]
    by_cases hkd : k = bytes "wikidata"
    · subst hkd
      simp [hp1, hp3, osm2ttl.writeTriple]
    · simp [hkd, hp1]
  · intro hk
    subst hk
    unfold osm2ttl.writeTagList.body
    rw [osm2ttl_writeTag_eq]
    have hkd : bytes "wikipedia" ≠ bytes "wikidata" := by decide
    simp only [he, Bool.not_false, if_true, if_neg hkd, List.nil_append]
    rw [ho]
    simp [hp2]
  · intro hk
    unfold osm2ttl.writeTagList.body
    rw [osm2ttl_writeTag_eq]
    simp only [he, Bool.not_false, if_true, if_neg hk, List.append_nil]
    by_cases hkd : k = bytes "wikidata"
    · subst hkd
      simp [hp2, hp3, osm2ttl.writeTriple]
    · simp [hkd, hp2]

theorem wikipedia_triple_spec_witness :
    (osm2ttl.writeOsmiumTagList.body ⟨[], false, false, false, false⟩ (.blank 0)
        (bytes "old_wikipedia", bytes "de:Ulm")).filter
          (fun t => decide (t.p = ⟨bytes "osm", bytes "wikipedia"⟩)) =
      osm2ttl.wikipediaTriple (.blank 0) (bytes "de:Ulm") ∧
    (osm2ttl.writeTagList.body ⟨[], false, false, false, false⟩ (.blank 0)
        (bytes "old_wikipedia", bytes "de:Ulm")).filter
          (fun t => decide (t.p = ⟨bytes "osm", bytes "wikipedia"⟩)) = [] :=
  ⟨(wikipedia_triple_spec ⟨[], false, false, false, false⟩ (.blank 0) (bytes "old_wikipedia")
      (bytes "de:Ulm") rfl).1
      ⟨(osm2ttl_endsWith_iff _ _).1 (by decide), fun h =>
        absurd ((osm2ttl_contains_iff _ _).2 h) (by decide)⟩,
   (wikipedia_triple_spec ⟨[], false, false, false, false⟩ (.blank 0) (bytes "old_wikipedia")
      (bytes "de:Ulm") rfl).2.2.2.1 (by decide)⟩

theorem osm2ttl_numUniquePoints_loop : ∀ (nodes : List osm2ttl.NodeRef)
    (last : osm2ttl.Location) (n : Nat),
    osm2ttl.numUniquePoints.loop nodes last n = n + osm2ttl.changes last nodes := by
  intro nodes
  induction nodes with
  | nil => intro last n; rfl
  | cons it r ih =>
    intro last n
    unfold osm2ttl.numUniquePoints.loop osm2ttl.changes
    by_cases h : last = it.location
    · have h2 : ¬ it.location ≠ last := fun e => e h.symm
      rw [if_neg (fun e => e h), if_neg h2, ih, h]
      omega
    · have h2 : it.location ≠ last := fun e => h e.symm
      rw [if_pos h, if_pos h2, ih]
      omega

theorem osm2ttl_tagList_pfx (cfg : osm2ttl.Config) (s : osm2ttl.Term)
    (tags : List (List Nat × List Nat)) :
    ∀ t ∈ osm2ttl.writeOsmiumTagList cfg s tags,
      t.p.pfx = bytes "osmt" ∨ t.p.pfx = bytes "osm" := by
  intro t ht
  unfold osm2ttl.writeOsmiumTagList at ht
  rw [List.mem_flatMap] at ht
  obtain ⟨tag, _, h⟩ := ht
  obtain ⟨k, v⟩ := tag
  unfold osm2ttl.writeOsmiumTagList.body at h
  rw [osm2ttl_writeOsmiumTag_eq] at h
  obtain ⟨o, ho⟩ := osm2ttl_wikipediaTriple_pred s v
  simp only [ho, osm2ttl.writeTriple] at h
  simp only [List.mem_append, List.mem_singleton] at h
  rcases h with h | h
  · rw [h]; exact Or.inl rfl
  · split_ifs at h <;> simp only [List.mem_append, List.mem_singleton, List.not_mem_nil,
      or_false, false_or] at h
    · rcases h with h | h <;> rw [h] <;> exact Or.inr rfl
    · rw [h]; exact Or.inr rfl
    · rw [h]; exact Or.inr rfl

theorem osm2ttl_nodeList_loop_pfx (s : osm2ttl.Term) : ∀ (nodes : List osm2ttl.NodeRef)
    (i b : Nat), ∀ t ∈ osm2ttl.writeOsmiumWayNodeList.loop s nodes i b,
      t.p.pfx = bytes "osmway" ∨ t.p.pfx = bytes "osmm" := by
  intro nodes
  induction nodes with
  | nil => intro i b t ht; simp [osm2ttl.writeOsmiumWayNodeList.loop] at ht
  | cons n r ih =>
    intro i b t ht
    simp only [osm2ttl.writeOsmiumWayNodeList.loop, osm2ttl.writeTriple, List.mem_append,
      List.mem_singleton] at ht
    rcases ht with ((h | h) | h) | h
    · rw [h]; exact Or.inl rfl
    · rw [h]; exact Or.inl rfl
    · rw [h]; exact Or.inr rfl
    · exact ih _ _ t h

theorem osm2ttl_filter_none (l : List osm2ttl.Triple) (q : osm2ttl.IRI)
    (h : ∀ t ∈ l, t.p ≠ q) : l.filter (fun t => decide (t.p = q)) = [] := by
  rw [List.filter_eq_nil_iff]
  intro t ht
  simpa using h t ht

theorem osm2ttl_filter_geometry (t1 t2 t3 t5 t6 : List osm2ttl.Triple) (g : osm2ttl.Triple)
    (hg : g.p = ⟨bytes "geo", bytes "hasGeometry"⟩)
    (h1 : ∀ t ∈ t1, t.p.pfx ≠ bytes "geo") (h2 : ∀ t ∈ t2, t.p.pfx ≠ bytes "geo")
    (h3 : ∀ t ∈ t3, t.p.pfx ≠ bytes "geo") (h5 : ∀ t ∈ t5, t.p.pfx ≠ bytes "geo")
    (h6 : ∀ t ∈ t6, t.p.pfx ≠ bytes "geo") :
    (t1 ++ t2 ++ t3 ++ [g] ++ t5 ++ t6).filter
      (fun t => decide (t.p = ⟨bytes "geo", bytes "hasGeometry"⟩)) = [g] := by
  have hq : ∀ l : List osm2ttl.Triple, (∀ t ∈ l, t.p.pfx ≠ bytes "geo") →
      l.filter (fun t => decide (t.p = ⟨bytes "geo", bytes "hasGeometry"⟩)) = [] := by
    intro l hl
    apply osm2ttl_filter_none
    intro t ht e
    exact hl t ht (by rw [e])
  simp only [List.filter_append, hq t1 h1, hq t2 h2, hq t3 h3, hq t5 h5, hq t6 h6,
    List.nil_append, List.append_nil]
  rw [List.filter_cons_of_pos (by simp [hg])]
  rfl

theorem osm2ttl_way_static_pfx (cfg : osm2ttl.Config) (way : osm2ttl.Way) (b : Nat)
    (s : osm2ttl.Term) :
    (∀ t ∈ osm2ttl.writeTriple s ⟨bytes "rdf", bytes "type"⟩ (.iri ⟨bytes "osm", bytes "way"⟩),
      t.p.pfx ≠ bytes "geo") ∧
    (∀ t ∈ osm2ttl.writeOsmiumTagList cfg s way.tags, t.p.pfx ≠ bytes "geo") ∧
    (∀ t ∈ osm2ttl.writeOsmiumWayNodeList cfg s way.nodes b, t.p.pfx ≠ bytes "geo") := by
  refine ⟨?_, ?_, ?_⟩
  · intro t ht e
    simp only [osm2ttl.writeTriple, List.mem_singleton] at ht
    rw [ht] at e
    exact absurd e (by dsimp only; decide)
  · intro t ht e
    rcases osm2ttl_tagList_pfx cfg _ _ t ht with h | h <;> rw [h] at e <;>
      exact absurd e (by decide)
  · intro t ht e
    unfold osm2ttl.writeOsmiumWayNodeList at ht
    split_ifs at ht
    · simp at ht
    · rcases osm2ttl_nodeList_loop_pfx _ _ _ _ t ht with h | h <;> rw [h] at e <;>
        exact absurd e (by decide)

theorem osm2ttl_way_meta_pfx (c : Bool) (s : osm2ttl.Term) (o1 o2 o3 : osm2ttl.Term) :
    ∀ t ∈ (if c = true then
        osm2ttl.writeTriple s ⟨bytes "osmway", bytes "is_closed"⟩ o1 ++
        osm2ttl.writeTriple s ⟨bytes "osmway", bytes "nodeCount"⟩ o2 ++
        osm2ttl.writeTriple s ⟨bytes "osmway", bytes "uniqueNodeCount"⟩ o3
      else []), t.p.pfx ≠ bytes "geo" := by
  intro t ht e
  split_ifs at ht
  · simp only [osm2ttl.writeTriple, List.mem_append, List.mem_singleton] at ht
    rcases ht with (h | h) | h <;> rw [h] at e <;> exact absurd e (by dsimp only; decide)
  · simp at ht

theorem osm2ttl_way_envelope_pfx (c : Bool) (s : osm2ttl.Term) (o1 : osm2ttl.Term) :
    ∀ t ∈ (if c = true then osm2ttl.writeTriple s ⟨bytes "osm", bytes "envelope"⟩ o1 else []),
      t.p.pfx ≠ bytes "geo" := by
  intro t ht e
  split_ifs at ht
  · simp only [osm2ttl.writeTriple, List.mem_singleton] at ht
    rw [ht] at e; exact absurd e (by dsimp only; decide)
  · simp at ht

/-- C31 (counterexample): the closed way with the nodes 1, 2, 3, 1 at the three
different positions (0,0), (1,0), (0,1) has four positions that differ from
their predecessor, and its geometry triple is the POLYGON of the way. -/
theorem writeOsmiumWay_triangle_counterexample :
    osm2ttl.numUniquePoints ⟨7, [⟨1, ⟨0, 0⟩⟩, ⟨2, ⟨1, 0⟩⟩, ⟨3, ⟨0, 1⟩⟩, ⟨1, ⟨0, 0⟩⟩], []⟩ = 4 ∧
    osm2ttl.writeOsmiumWay ⟨[], false, false, false, false⟩
        ⟨7, [⟨1, ⟨0, 0⟩⟩, ⟨2, ⟨1, 0⟩⟩, ⟨3, ⟨0, 1⟩⟩, ⟨1, ⟨0, 0⟩⟩], []⟩ 0 =
      .ok [{ s := .iri ⟨bytes "osmway", bytes "7"⟩, p := ⟨bytes "rdf", bytes "type"⟩,
             o := .iri ⟨bytes "osm", bytes "way"⟩ },
           { s := .iri ⟨bytes "osmway", bytes "7"⟩, p := ⟨bytes "geo", bytes "hasGeometry"⟩,
             o := .literal ⟨.polygon ⟨7, [⟨1, ⟨0, 0⟩⟩, ⟨2, ⟨1, 0⟩⟩, ⟨3, ⟨0, 1⟩⟩, ⟨1, ⟨0, 0⟩⟩], []⟩,
               some ⟨bytes "geo", bytes "wktLiteral"⟩⟩ }] := by
  decide

/-- C31 (amended): `writeOsmiumWay` counts the nodes whose position differs from
the position of the node before them (the first node is compared with the
undefined location); it does not count distinct positions. For every way with
at least one node it returns and emits exactly one triple with predicate
`geo:hasGeometry`: the POLYGON of the way when the way is closed and the count
is more than 3, otherwise the LINESTRING when the count is more than 1,
otherwise the POINT of the first node. For every closed way A,B,C,A with A, B, C
pairwise different and A defined the count is 4, so the geometry is a POLYGON;
for every closed way A,B,C,D,A with four pairwise different positions the count
is more than 3, so it is a POLYGON; a closed way A,B,A has count at most 3 and
is a LINESTRING. -/
theorem writeOsmiumWay_geometry :
    (∀ (cfg : osm2ttl.Config) (way : osm2ttl.Way) (b : Nat) (n0 : osm2ttl.NodeRef),
      way.nodes.head? = some n0 →
      ∃ ts, osm2ttl.writeOsmiumWay cfg way b = .ok ts ∧
        ts.filter (fun t => decide (t.p = ⟨bytes "geo", bytes "hasGeometry"⟩)) =
          [{ s := .iri ⟨bytes "osmway", to_string way.id⟩,
             p := ⟨bytes "geo", bytes "hasGeometry"⟩,
             o := .literal
               ⟨if osm2ttl.numUniquePoints way > 3 ∧ osm2ttl.is_closed way = true then
                  .polygon way
                else if osm2ttl.numUniquePoints way > 1 then .linestring way
                else .point n0,
                some ⟨bytes "geo", bytes "wktLiteral"⟩⟩ }]) ∧
    (∀ way : osm2ttl.Way,
      osm2ttl.numUniquePoints way = osm2ttl.changes osm2ttl.Location.undefined way.nodes) ∧
    (∀ (id r1 r2 r3 : Nat) (A B C : osm2ttl.Location) (tags : List (List Nat × List Nat)),
      A ≠ B → B ≠ C → A ≠ C → A ≠ osm2ttl.Location.undefined →
      osm2ttl.numUniquePoints ⟨id, [⟨r1, A⟩, ⟨r2, B⟩, ⟨r3, C⟩, ⟨r1, A⟩], tags⟩ = 4 ∧
      osm2ttl.is_closed ⟨id, [⟨r1, A⟩, ⟨r2, B⟩, ⟨r3, C⟩, ⟨r1, A⟩], tags⟩ = true) ∧
    (∀ (id r1 r2 r3 r4 : Nat) (A B C D : osm2ttl.Location) (tags : List (List Nat × List Nat)),
      A ≠ B → B ≠ C → C ≠ D → D ≠ A →
      osm2ttl.numUniquePoints ⟨id, [⟨r1, A⟩, ⟨r2, B⟩, ⟨r3, C⟩, ⟨r4, D⟩, ⟨r1, A⟩], tags⟩ > 3 ∧
      osm2ttl.is_closed ⟨id, [⟨r1, A⟩, ⟨r2, B⟩, ⟨r3, C⟩, ⟨r4, D⟩, ⟨r1, A⟩], tags⟩ = true) ∧
    (∀ (id r1 r2 : Nat) (A B : osm2ttl.Location) (tags : List (List Nat × List Nat)),
      A ≠ B →
      osm2ttl.numUniquePoints ⟨id, [⟨r1, A⟩, ⟨r2, B⟩, ⟨r1, A⟩], tags⟩ ≤ 3 ∧
      1 < osm2ttl.numUniquePoints ⟨id, [⟨r1, A⟩, ⟨r2, B⟩, ⟨r1, A⟩], tags⟩) := by
  refine ⟨?_, ?_, ?_, ?_, ?_⟩
  · intro cfg way b n0 hn
    have hg0 : way.nodes.get? 0 = some n0 := by
      cases hw : way.nodes with
      | nil => rw [hw] at hn; simp at hn
      | cons x r => rw [hw] at hn; simpa using hn
    obtain ⟨h1, h2, h3⟩ := osm2ttl_way_static_pfx cfg way b
      (.iri ⟨bytes "osmway", to_string way.id⟩)
    unfold osm2ttl.writeOsmiumWay
    simp only [hg0]
    by_cases c1 : osm2ttl.numUniquePoints way > 3 ∧ osm2ttl.is_closed way = true
    · simp only [if_pos c1]
      exact ⟨_, rfl, osm2ttl_filter_geometry _ _ _ _ _ _ rfl h1 h2 h3
        (osm2ttl_way_meta_pfx _ _ _ _ _) (osm2ttl_way_envelope_pfx _ _ _)⟩
    · simp only [if_neg c1]
      by_cases c2 : osm2ttl.numUniquePoints way > 1
      · simp only [if_pos c2]
        exact ⟨_, rfl, osm2ttl_filter_geometry _ _ _ _ _ _ rfl h1 h2 h3
          (osm2ttl_way_meta_pfx _ _ _ _ _) (osm2ttl_way_envelope_pfx _ _ _)⟩
      · simp only [if_neg c2]
        exact ⟨_, rfl, osm2ttl_filter_geometry _ _ _ _ _ _ rfl h1 h2 h3
          (osm2ttl_way_meta_pfx _ _ _ _ _) (osm2ttl_way_envelope_pfx _ _ _)⟩
  · intro way
    unfold osm2ttl.numUniquePoints
    rw [osm2ttl_numUniquePoints_loop, Nat.zero_add]
  · intro id r1 r2 r3 A B C tags hAB hBC hAC hA
    refine ⟨?_, by simp [osm2ttl.is_closed]⟩
    unfold osm2ttl.numUniquePoints
    rw [osm2ttl_numUniquePoints_loop]
    have h1 : ¬ B = A := fun e => hAB e.symm
    have h2 : ¬ C = B := fun e => hBC e.symm
    simp [osm2ttl.changes, hA, h1, h2, hAC]
  · intro id r1 r2 r3 r4 A B C D tags hAB hBC hCD hDA
    refine ⟨?_, by simp [osm2ttl.is_closed]⟩
    unfold osm2ttl.numUniquePoints
    rw [osm2ttl_numUniquePoints_loop]
    simp only [osm2ttl.changes, Nat.zero_add, gt_iff_lt, ne_eq]
    rw [if_pos (fun e => hAB (Eq.symm e)), if_pos (fun e => hBC (Eq.symm e)),
      if_pos (fun e => hCD (Eq.symm e)), if_pos (fun e => hDA (Eq.symm e))]
    omega
  · intro id r1 r2 A B tags hAB
    unfold osm2ttl.numUniquePoints
    rw [osm2ttl_numUniquePoints_loop]
    simp only [osm2ttl.changes, Nat.zero_add, ne_eq]
    rw [if_pos (fun e => hAB (Eq.symm e)), if_pos hAB]
    split_ifs <;> omega

theorem writeOsmiumWay_geometry_witness :
    1 < osm2ttl.numUniquePoints ⟨7, [⟨1, ⟨0, 0⟩⟩, ⟨2, ⟨1, 0⟩⟩, ⟨1, ⟨0, 0⟩⟩], []⟩ ∧
    osm2ttl.numUniquePoints ⟨7, [⟨1, ⟨0, 0⟩⟩, ⟨2, ⟨1, 0⟩⟩, ⟨3, ⟨0, 1⟩⟩, ⟨1, ⟨0, 0⟩⟩], []⟩ = 4 :=
  ⟨(writeOsmiumWay_geometry.2.2.2.2 7 1 2 ⟨0, 0⟩ ⟨1, 0⟩ [] (by decide)).2,
   (writeOsmiumWay_geometry.2.2.1 7 1 2 3 ⟨0, 0⟩ ⟨1, 0⟩ ⟨0, 1⟩ [] (by decide) (by decide)
     (by decide) (by decide)).1⟩

end osm2rdf.ttl
